import Mathlib

/-!
# EventNative: schema diffing, periodic uploader and event preprocessing

A shallow embedding of `schema/table.go`, `logfiles/uploader.go` and
`events/js_preprocessor.go`, and theorems about the embedded functions.  The
functions of package `typing`, of which only the tests are at hand, are modelled
from the specification and marked as such.

Conventions of the embedding.

* A Go `map[K]V` is an association list with pairwise distinct keys
  (`GoMap.WF`).  The order of the list is the order in which `range`
  enumerates the map, which Go leaves unspecified; statements about maps are
  phrased through `GoMap.index`, and order independence is stated through
  `List.Perm`.
* A Go slice that may be `nil` is an `Option (List α)`; `none` is `nil`.
* A function that mutates memory reachable from its arguments returns the
  new contents next to its Go results.
* Structs are values, and two `PKFields` slices are taken not to overlap.  A
  `Column` holds a reference to its `typeOccurrence` map, so `Columns.Merge` is
  embedded twice: over a heap of occurrence maps (`ColumnsRef.Merge`), where a
  column copied by `Merge` shares the map of its origin, and by value
  (`Columns.Merge`), which is the receiver after one call when no two columns
  of different names share a map (`MergeRef_view`).
-/

set_option autoImplicit false

/-! ## Go maps -/

/-- Go map as an association list; the list order is the enumeration order of `range`. -/
abbrev GoMap (κ ν : Type) := List (κ × ν)

namespace GoMap

variable {κ ν : Type} [DecidableEq κ]

/-- The two-valued index expression `v, ok := m[k]`; `none` is `ok == false`. -/
def index : GoMap κ ν → κ → Option ν
  | [], _ => none
  | (k', v) :: rest, k => if k' = k then some v else index rest k

/-- The assignment `m[k] = v`: overwrite the entry of `k`, or add a new one. -/
def assign : GoMap κ ν → κ → ν → GoMap κ ν
  | [], k, v => [(k, v)]
  | (k', v') :: rest, k, v =>
    if k' = k then (k, v) :: rest else (k', v') :: assign rest k v

/-- The keys in enumeration order. -/
def keys (m : GoMap κ ν) : List κ := m.map Prod.fst

/-- Representation invariant of a Go map: no key occurs twice. -/
def WF (m : GoMap κ ν) : Prop := (keys m).Nodup

instance (m : GoMap κ ν) : Decidable (WF m) :=
  inferInstanceAs (Decidable (List.Nodup _))

end GoMap

/-! ## Package `typing` (declarations used by `schema`) -/

namespace typing

/-- Modelled from the spec: the `DataType` enumeration of package `typing`, whose
declaration is not among the sources; the test `TestDataTypeValues` fixes the
five constants `UNKNOWN=0 .. TIMESTAMP=4`. -/
inductive DataType where
  | UNKNOWN
  | INT64
  | FLOAT64
  | STRING
  | TIMESTAMP
  deriving DecidableEq, Repr

/-- Modelled from the spec: `IsConvertible(from, to)` of package `typing` (not among
the sources): true iff `from == to` or `to` is a proper ancestor of `from` in the
lattice `INT64 < FLOAT64 < STRING`, `TIMESTAMP` convertible only to `STRING`,
`UNKNOWN` convertible to any type.  Only used to evaluate examples; the theorems
about `Diff` take the convertibility test as a parameter. -/
def IsConvertible (src dst : DataType) : Bool :=
  match src, dst with
  | .UNKNOWN, _ => true
  | .INT64, .INT64 => true
  | .INT64, .FLOAT64 => true
  | .INT64, .STRING => true
  | .FLOAT64, .FLOAT64 => true
  | .FLOAT64, .STRING => true
  | .STRING, .STRING => true
  | .TIMESTAMP, .TIMESTAMP => true
  | .TIMESTAMP, .STRING => true
  | _, _ => false

/-- Modelled from the spec: `GetCommonAncestorType(a, b)` of package `typing` (not
among the sources): least upper bound in the lattice; two incomparable
non-`UNKNOWN` types yield `STRING`.  Only used to evaluate examples. -/
def GetCommonAncestorType (a b : DataType) : DataType :=
  if IsConvertible a b then b
  else if IsConvertible b a then a
  else .STRING

/-- Modelled from the spec: the normal form under which `TypeFromString` compares
names, "case-insensitive, whitespace-trimmed": surrounding white space removed and
letters lower-cased. -/
def normalizeTypeName (s : String) : String :=
  String.mk ((((s.toList.dropWhile Char.isWhitespace).reverse.dropWhile
    Char.isWhitespace).reverse).map Char.toLower)

/-- Modelled from the spec: `TypeFromString(s)` of package `typing`, of which only the
test `TestTypeFromString` is among the sources: it recognizes `string`, `integer`,
`double` and `timestamp` and fails otherwise; the test fixes the error text
`Unknown casting type: ` followed by the input. -/
def TypeFromString (t : String) : Except String DataType :=
  if normalizeTypeName t = "string" then .ok .STRING
  else if normalizeTypeName t = "integer" then .ok .INT64
  else if normalizeTypeName t = "double" then .ok .FLOAT64
  else if normalizeTypeName t = "timestamp" then .ok .TIMESTAMP
  else .error ("Unknown casting type: " ++ t)

/-- Modelled from the spec: `StringFromType(t)` of package `typing`, of which only the
test `TestStringFromType` is among the sources: the inverse of `TypeFromString`,
failing on `UNKNOWN` with the error text the test fixes. -/
def StringFromType (dt : DataType) : Except String String :=
  match dt with
  | .STRING => .ok "string"
  | .INT64 => .ok "integer"
  | .FLOAT64 => .ok "double"
  | .TIMESTAMP => .ok "timestamp"
  | .UNKNOWN => .error "Unable to get string from DataType for: UNKNOWN"

end typing

/-! ## Package `schema` -/

namespace schema

open typing

/-- The struct `Column`: a memoized type (`nil` is `none`) and the map of type occurrences. -/
structure Column where
  dataType : Option DataType
  typeOccurrence : GoMap DataType Bool
  deriving DecidableEq, Repr

/-- The type `Columns`, a map from column name to `Column`. -/
abbrev Columns := GoMap String Column

/-- The struct `Table`. -/
structure Table where
  Name : String
  Columns : Columns
  PKFields : Option (List String)
  Version : Int
  deriving DecidableEq, Repr

/-- The function `NewColumn`. -/
def NewColumn (t : DataType) : Column :=
  { dataType := some t, typeOccurrence := [(t, true)] }

/-- The value returned by `Column.GetType`; `gca` is `typing.GetCommonAncestorType`.
The receiver is passed by value, so the store into `c.dataType` at the end of the
Go function is not visible to the caller and the function is pure. -/
def Column.GetType (gca : DataType → DataType → DataType) (c : Column) : DataType :=
  match c.dataType with
  | some t => t
  | none =>
    match GoMap.keys c.typeOccurrence with
    | [] => DataType.UNKNOWN
    | t0 :: rest => rest.foldl gca t0

/-- The method `Table.Exists` on a table reference (`none` is the nil pointer). -/
def Table.Exists (t : Option Table) : Bool :=
  match t with
  | none => false
  | some tb => decide (tb.Columns.length > 0) || tb.PKFields.isSome

/-- Go string comparison `a <= b` (lexicographic on the encoded characters). -/
def strLe (a b : String) : Prop := a.toList ≤ b.toList

instance : DecidableRel strLe :=
  fun a b => inferInstanceAs (Decidable (a.toList ≤ b.toList))

/-- The library call `sort.Strings` on the elements of a slice: the ascending rearrangement. -/
def sortStrings (xs : List String) : List String := List.insertionSort strLe xs

/-- The length `len(s)` of a slice that may be nil. -/
def sliceLen (s : Option (List String)) : Nat :=
  match s with
  | none => 0
  | some xs => xs.length

/-- The elements of a slice that may be nil. -/
def sliceElems (s : Option (List String)) : List String :=
  match s with
  | none => []
  | some xs => xs

/-- The comparison loop of `primaryKeyFieldsEqual`, `for i := range oldFields`; it is
entered with slices of equal length. -/
def fieldsLoop : List String → List String → Bool
  | [], _ => true
  | _ :: _, [] => false
  | a :: as, b :: bs => if a ≠ b then false else fieldsLoop as bs

/-- The function `primaryKeyFieldsEqual`, with the contents it leaves in its two
argument slices: `sort.Strings` sorts both in place once the lengths agree. -/
def primaryKeyFieldsEqual (oldFields newFields : Option (List String)) :
    Bool × Option (List String) × Option (List String) :=
  if sliceLen oldFields ≠ sliceLen newFields then
    (false, oldFields, newFields)
  else
    let oldSorted := oldFields.map sortStrings
    let newSorted := newFields.map sortStrings
    (fieldsLoop (sliceElems oldSorted) (sliceElems newSorted), oldSorted, newSorted)

/-- The error built by `fmt.Errorf` in `Diff`: the column and the two types it names. -/
structure DiffError where
  name : String
  fromType : DataType
  toType : DataType
  deriving DecidableEq, Repr

/-- The loop `for name, column := range another.Columns` of `Diff`; `acc` is
`diff.Columns`, `conv` is `typing.IsConvertible`. -/
def diffLoop (conv : DataType → DataType → Bool) (gca : DataType → DataType → DataType)
    (t : Table) : List (String × Column) → Columns → Except DiffError Columns
  | [], acc => .ok acc
  | (name, column) :: rest, acc =>
    match GoMap.index t.Columns name with
    | some currentColumn =>
      if !conv (column.GetType gca) (currentColumn.GetType gca) then
        .error { name := name, fromType := column.GetType gca,
                 toType := currentColumn.GetType gca }
      else diffLoop conv gca t rest acc
    | none => diffLoop conv gca t rest (GoMap.assign acc name column)

/-- What a call of `Diff` leaves behind: the pair it returns (`.ok diff` for
`(diff, nil)`, `.error e` for `(nil, err)`), the contents of the two `PKFields`
slices, which the callee shares with its caller, after the call, and the column
maps of the two tables after the call (`none` for the nil table). -/
structure DiffOutcome where
  ret : Except DiffError Table
  receiverPK : Option (List String)
  anotherPK : Option (List String)
  receiverColumns : Columns
  anotherColumns : Option Columns

/-- The method `Table.Diff`; `another = none` is the nil pointer.  No statement of the
method stores into the column maps of the two tables or into their columns: the
loop reads them, `GetType` works on a copy of the column it is called on, and the
only map written is the one of the diff. -/
def Table.Diff (conv : DataType → DataType → Bool) (gca : DataType → DataType → DataType)
    (t : Table) (another : Option Table) : DiffOutcome :=
  let diff : Table := { Name := t.Name, Columns := [], PKFields := none, Version := 0 }
  match another with
  | none =>
    { ret := .ok diff, receiverPK := t.PKFields, anotherPK := none,
      receiverColumns := t.Columns, anotherColumns := none }
  | some o =>
    if o.Columns.length = 0 then
      { ret := .ok diff, receiverPK := t.PKFields, anotherPK := o.PKFields,
        receiverColumns := t.Columns, anotherColumns := some o.Columns }
    else
      match diffLoop conv gca t o.Columns diff.Columns with
      | .error e =>
        { ret := .error e, receiverPK := t.PKFields, anotherPK := o.PKFields,
          receiverColumns := t.Columns, anotherColumns := some o.Columns }
      | .ok cols =>
        match primaryKeyFieldsEqual t.PKFields o.PKFields with
        | (true, oldPK, newPK) =>
          { ret := .ok { diff with Columns := cols }, receiverPK := oldPK, anotherPK := newPK,
            receiverColumns := t.Columns, anotherColumns := some o.Columns }
        | (false, oldPK, newPK) =>
          { ret := .ok { diff with Columns := cols, PKFields := newPK },
            receiverPK := oldPK, anotherPK := newPK,
            receiverColumns := t.Columns, anotherColumns := some o.Columns }

/-- The diff returned by a call that reported no error. -/
def DiffOutcome.diff? (r : DiffOutcome) : Option Table :=
  match r.ret with
  | .ok d => some d
  | .error _ => none

/-- Whether the call reported an error. -/
def DiffOutcome.failed (r : DiffOutcome) : Bool :=
  match r.ret with
  | .ok _ => false
  | .error _ => true

/-- The additive application of a diff that the specification describes (the
repository leaves it to the destination drivers): the columns of the diff are added
to those of the table, and the primary key is replaced when the diff carries one. -/
def specApplyDiff (t diff : Table) : Table :=
  { t with
    Columns := diff.Columns.foldl (fun acc p => GoMap.assign acc p.1 p.2) t.Columns
    PKFields := match diff.PKFields with
      | some pk => some pk
      | none => t.PKFields }

/-- Scenario S3, receiver `{a:INT64}`. -/
def tableS3 : Table :=
  { Name := "events", Columns := [("a", NewColumn .INT64)], PKFields := none, Version := 0 }

/-- Scenario S3, other table `{a:INT64, b:STRING}`. -/
def otherS3 : Table :=
  { Name := "events", Columns := [("a", NewColumn .INT64), ("b", NewColumn .STRING)],
    PKFields := none, Version := 0 }

/-- A table without columns that declares the primary key `id`. -/
def pkOnlyTable : Table :=
  { Name := "events", Columns := [], PKFields := some ["id"], Version := 0 }

/-- A receiver with primary key `b, a`. -/
def tablePKba : Table :=
  { Name := "events", Columns := [("a", NewColumn .INT64)], PKFields := some ["b", "a"],
    Version := 0 }

/-- Another table with primary key `d, c`. -/
def otherPKdc : Table :=
  { Name := "events", Columns := [("a", NewColumn .INT64), ("b", NewColumn .STRING)],
    PKFields := some ["d", "c"], Version := 0 }

/-- The loop `for t := range otherColumn.typeOccurrence` of `Merge`: `currentColumn` is
the local copy of `c[otherName]`, whose occurrence map is the one of the entry
itself; every new occurrence is added, the memoized type is wiped and the copy is
stored back. -/
def mergeOccurrences (otherName : String) :
    List (DataType × Bool) → Column → Columns → Columns
  | [], _, c => c
  | (t, _) :: rest, currentColumn, c =>
    match GoMap.index currentColumn.typeOccurrence t with
    | some _ => mergeOccurrences otherName rest currentColumn c
    | none =>
      let currentColumn1 : Column :=
        { dataType := none,
          typeOccurrence := GoMap.assign currentColumn.typeOccurrence t true }
      mergeOccurrences otherName rest currentColumn1 (GoMap.assign c otherName currentColumn1)

/-- The loop `for otherName, otherColumn := range other` of `Merge`. -/
def mergeLoop : List (String × Column) → Columns → Columns
  | [], c => c
  | (otherName, otherColumn) :: rest, c =>
    match GoMap.index c otherName with
    | some currentColumn =>
      mergeLoop rest (mergeOccurrences otherName otherColumn.typeOccurrence currentColumn c)
    | none => mergeLoop rest (GoMap.assign c otherName otherColumn)

/-- The method `Columns.Merge` by value: the contents of the receiver map after one
call, each column given with the contents of its occurrence map.  This is what the
call leaves in the receiver when columns of different names do not share an
occurrence map (`MergeRef_view`); what the call does to columns outside the
receiver that share a map with one of its columns is given by `ColumnsRef.Merge`. -/
def Columns.Merge (c other : Columns) : Columns := mergeLoop other c

/-- The column a call of `mergeOccurrences` leaves in `c[otherName]`: the local copy
`currentColumn` after the loop. -/
def mergedColumn : List (DataType × Bool) → Column → Column
  | [], currentColumn => currentColumn
  | (t, _) :: rest, currentColumn =>
    match GoMap.index currentColumn.typeOccurrence t with
    | some _ => mergedColumn rest currentColumn
    | none =>
      mergedColumn rest
        { dataType := none,
          typeOccurrence := GoMap.assign currentColumn.typeOccurrence t true }

/-- The set of type occurrences of a column: the keys of its occurrence map. -/
def Column.occurs (col : Column) (t : DataType) : Prop := t ∈ GoMap.keys col.typeOccurrence

instance (col : Column) (t : DataType) : Decidable (col.occurs t) :=
  inferInstanceAs (Decidable (t ∈ GoMap.keys col.typeOccurrence))

/-- The fold of `gca` over the types in the order given, as `GetType` computes it
(`UNKNOWN` when there is none). -/
def foldTypes (gca : DataType → DataType → DataType) : List DataType → DataType
  | [] => DataType.UNKNOWN
  | t0 :: rest => rest.foldl gca t0

/-- The invariant of a column stated by the specification: the occurrence map is not
empty, and a memoized type is the fold of `gca` over the occurrences. -/
def ColumnInvariant (gca : DataType → DataType → DataType) (col : Column) : Prop :=
  col.typeOccurrence ≠ [] ∧
  ∀ t, col.dataType = some t → t = foldTypes gca (GoMap.keys col.typeOccurrence)

/-- What a call of `GetType` leaves behind: the type it returns, the column it was
called on, and the copy of that column the method works on (its receiver is passed
by value), as it stands when the method returns. -/
structure GetTypeOutcome where
  ret : DataType
  receiver : Column
  calleeCopy : Column
  deriving DecidableEq, Repr

/-- The method `Column.GetType` with its effects: the store `c.dataType = &common`
goes into the copy. -/
def Column.GetTypeCall (gca : DataType → DataType → DataType) (c : Column) : GetTypeOutcome :=
  match c.dataType with
  | some t => { ret := t, receiver := c, calleeCopy := c }
  | none =>
    match GoMap.keys c.typeOccurrence with
    | [] => { ret := DataType.UNKNOWN, receiver := c, calleeCopy := c }
    | t0 :: rest =>
      let common := rest.foldl gca t0
      { ret := common, receiver := c, calleeCopy := { c with dataType := some common } }

/-- A column that has seen `INT64` and then `FLOAT64`, its type not memoized. -/
def columnIntFloat : Column :=
  { dataType := none, typeOccurrence := [(DataType.INT64, true), (DataType.FLOAT64, true)] }

/-- A column that has seen `FLOAT64` and then `INT64`, its type not memoized. -/
def columnFloatInt : Column :=
  { dataType := none, typeOccurrence := [(DataType.FLOAT64, true), (DataType.INT64, true)] }

/-- A column set `{a:INT64, b:STRING}`. -/
def columnsAB : Columns := [("a", NewColumn .INT64), ("b", NewColumn .STRING)]

/-- A column set `{a:FLOAT64, c:TIMESTAMP}`. -/
def columnsAC : Columns := [("a", NewColumn .FLOAT64), ("c", NewColumn .TIMESTAMP)]

/-- The struct `Column` as Go holds it: the memoized type, and the reference to the
occurrence map, given by the address of the map in the heap.  Copying the struct
copies the reference, not the map.  The pointer `dataType` is only ever replaced,
never written through, so it is given by the value it points to. -/
structure ColumnRef where
  dataType : Option DataType
  typeOccurrence : Nat
  deriving DecidableEq, Repr

/-- The type `Columns` over column structs that hold references. -/
abbrev ColumnsRef := GoMap String ColumnRef

/-- The occurrence maps allocated so far, by address. -/
abbrev OccHeap := GoMap Nat (GoMap DataType Bool)

/-- The occurrence map at an address. -/
def readOcc (heap : OccHeap) (a : Nat) : GoMap DataType Bool :=
  (GoMap.index heap a).getD []

/-- The function `NewColumn` with its allocation: the map literal is a new map, placed
at the next free address, the heap being filled consecutively from address 0. -/
def NewColumnRef (heap : OccHeap) (t : DataType) : OccHeap × ColumnRef :=
  (GoMap.assign heap heap.length [(t, true)],
   { dataType := some t, typeOccurrence := heap.length })

/-- The loop `for t := range otherColumn.typeOccurrence` of `Merge` over the heap:
`currentColumn.typeOccurrence[t] = true` writes into the map `currentColumn` refers
to, `currentColumn.dataType = nil` changes the local copy, and
`c[otherName] = currentColumn` stores the copy into the receiver. -/
def mergeOccurrencesRef (otherName : String) :
    List (DataType × Bool) → ColumnRef → OccHeap × ColumnsRef → OccHeap × ColumnsRef
  | [], _, st => st
  | (t, _) :: rest, currentColumn, (heap, c) =>
    match GoMap.index (readOcc heap currentColumn.typeOccurrence) t with
    | some _ => mergeOccurrencesRef otherName rest currentColumn (heap, c)
    | none =>
      let heap1 : OccHeap :=
        GoMap.assign heap currentColumn.typeOccurrence
          (GoMap.assign (readOcc heap currentColumn.typeOccurrence) t true)
      let currentColumn1 : ColumnRef := { currentColumn with dataType := none }
      mergeOccurrencesRef otherName rest currentColumn1
        (heap1, GoMap.assign c otherName currentColumn1)

/-- The loop `for otherName, otherColumn := range other` of `Merge` over the heap; in
the branch `c[otherName] = otherColumn` the receiver gets a copy of the struct, which
refers to the occurrence map of the column of `other`. -/
def mergeLoopRef : List (String × ColumnRef) → OccHeap × ColumnsRef → OccHeap × ColumnsRef
  | [], st => st
  | (otherName, otherColumn) :: rest, (heap, c) =>
    match GoMap.index c otherName with
    | some currentColumn =>
      mergeLoopRef rest
        (mergeOccurrencesRef otherName (readOcc heap otherColumn.typeOccurrence)
          currentColumn (heap, c))
    | none => mergeLoopRef rest (heap, GoMap.assign c otherName otherColumn)

/-- The method `Columns.Merge` over the heap of occurrence maps: the heap and the
contents of the receiver map after the call. -/
def ColumnsRef.Merge (heap : OccHeap) (c other : ColumnsRef) : OccHeap × ColumnsRef :=
  mergeLoopRef other (heap, c)

/-- The column a struct stands for in a heap: its memoized type and the contents of
the map it refers to. -/
def ColumnRef.view (heap : OccHeap) (col : ColumnRef) : Column :=
  { dataType := col.dataType, typeOccurrence := readOcc heap col.typeOccurrence }

/-- The columns a map of structs stands for in a heap. -/
def ColumnsRef.view (heap : OccHeap) (c : ColumnsRef) : Columns :=
  c.map (fun p => (p.1, p.2.view heap))

/-- No occurrence map is referred to under two different column names, within `c`,
within `other`, or across the two. -/
def Separated (c other : ColumnsRef) : Prop :=
  (∀ p ∈ c, ∀ q ∈ c, p.2.typeOccurrence = q.2.typeOccurrence → p.1 = q.1) ∧
  (∀ p ∈ other, ∀ q ∈ other, p.2.typeOccurrence = q.2.typeOccurrence → p.1 = q.1) ∧
  (∀ p ∈ c, ∀ q ∈ other, p.2.typeOccurrence = q.2.typeOccurrence → p.1 = q.1)

/-- The heap after `NewColumn(INT64)` and `NewColumn(FLOAT64)`. -/
def heapIntFloat : OccHeap := (NewColumnRef (NewColumnRef [] .INT64).1 .FLOAT64).1

/-- The column set `b = {x: NewColumn(INT64)}`, its column being the first allocated. -/
def columnsRefB : ColumnsRef := [("x", (NewColumnRef [] .INT64).2)]

/-- The column set `c = {x: NewColumn(FLOAT64)}`, its column being the second
allocated. -/
def columnsRefC : ColumnsRef :=
  [("x", (NewColumnRef (NewColumnRef [] .INT64).1 .FLOAT64).2)]

/-- The heap and the empty column set `a` after `a.Merge(b)`. -/
def afterMergeB : OccHeap × ColumnsRef := ColumnsRef.Merge heapIntFloat [] columnsRefB

/-- The heap and the column set `a` after `a.Merge(b); a.Merge(c)`. -/
def afterMergeBC : OccHeap × ColumnsRef :=
  ColumnsRef.Merge afterMergeB.1 afterMergeB.2 columnsRefC

/-- A column whose memoized type `INT64` is left from before `FLOAT64` was added to its
occurrences. -/
def columnStaleInt : Column :=
  { dataType := some DataType.INT64,
    typeOccurrence := [(DataType.INT64, true), (DataType.FLOAT64, true)] }

/-- The column set `{x: NewColumn(FLOAT64), y: col}` for `col` the column of `b`,
enumerated with `x` first. -/
def columnsRefXY : ColumnsRef :=
  [("x", (NewColumnRef (NewColumnRef [] .INT64).1 .FLOAT64).2),
   ("y", (NewColumnRef [] .INT64).2)]

/-- The column set `{x: NewColumn(FLOAT64), y: col}`, enumerated with `y` first. -/
def columnsRefYX : ColumnsRef :=
  [("y", (NewColumnRef [] .INT64).2),
   ("x", (NewColumnRef (NewColumnRef [] .INT64).1 .FLOAT64).2)]

end schema

/-! ## Package `logfiles` -/

namespace logfiles

/-- The calls of the uploader on its collaborators that the claims speak about, with
their results: `statusManager.isUploaded`, `storage.Store`,
`statusManager.updateStatus`, `os.Remove` and `statusManager.cleanUp`.  Logging and
metrics calls do not influence the run and are left out. -/
inductive Action where
  | isUploaded (fileName dest : String) (answer : Bool)
  | store (fileName dest : String) (rowsCount : Int) (err : Option String)
  | updateStatus (fileName dest : String) (err : Option String)
  | remove (filePath : String) (err : Option String)
  | cleanUp (fileName : String)
  deriving DecidableEq, Repr

/-- The interface of `events.Storage` used by the uploader; `ω` is the state of
everything outside the uploader (file system, destinations, clock).  `Store`
returns `(rowsCount, err)`, `none` being the nil error. -/
structure Storage (ω : Type) where
  Name : String
  Store : String → List UInt8 → ω → (Int × Option String) × ω

/-- The interface of `events.StorageProxy`: `Get` returns `(storage, ok)`; `none` is
`ok == false`. -/
structure StorageProxy (ω : Type) where
  Get : ω → Option (Storage ω)

/-- The unexported type `statusManager`, whose source is not among the files: its
three methods over a state `σ` of status files. -/
structure StatusManager (σ : Type) where
  isUploaded : σ → String → String → Bool
  updateStatus : σ → String → String → Option String → σ
  cleanUp : σ → String → σ

/-- The library and package functions `Start` calls, as functions of the outside
state: `appstatus.Instance.Idle`, `destinations.StatusInstance.Reloading`,
`filepath.Glob`, `filepath.Base`, `ioutil.ReadFile`, `os.Remove`,
`logging.TokenIdExtractRegexp.FindStringSubmatch`, `destinationService.GetStorages`
and `time.Sleep` (seconds). -/
structure Env (ω : Type) where
  Idle : ω → Bool
  Reloading : ω → Bool
  Glob : String → ω → Except String (List String)
  Base : String → String
  ReadFile : String → ω → Except String (List UInt8)
  Remove : String → ω → Option String × ω
  FindStringSubmatch : String → List String
  GetStorages : String → ω → List (StorageProxy ω)
  Sleep : Int → ω → ω

/-- The struct `PeriodicUploader`; the destination service is reached through `Env`. -/
structure PeriodicUploader (σ : Type) where
  logEventPath : String
  fileMask : String
  uploadEvery : Int
  statusManager : StatusManager σ

/-- The state a run of `Start` works on: the status files and the outside world. -/
structure UState (σ ω : Type) where
  status : σ
  world : ω

variable {σ ω : Type}

/-- The body of `for _, storageProxy := range storageProxies`: the new value of
`deleteFile`, the new state and the calls made. -/
def storageStep (u : PeriodicUploader σ) (fileName : String) (b : List UInt8)
    (deleteFile : Bool) (st : UState σ ω) (storageProxy : StorageProxy ω) :
    Bool × UState σ ω × List Action :=
  match storageProxy.Get st.world with
  | none => (false, st, [])
  | some storage =>
    if !u.statusManager.isUploaded st.status fileName storage.Name then
      match storage.Store fileName b st.world with
      | ((rowsCount, err), w1) =>
        let deleteFile1 := if err ≠ none then false else deleteFile
        (deleteFile1,
         { status := u.statusManager.updateStatus st.status fileName storage.Name err,
           world := w1 },
         [Action.isUploaded fileName storage.Name false,
          Action.store fileName storage.Name rowsCount err,
          Action.updateStatus fileName storage.Name err])
    else (deleteFile, st, [Action.isUploaded fileName storage.Name true])

/-- The loop `for _, storageProxy := range storageProxies`. -/
def storageLoop (u : PeriodicUploader σ) (fileName : String) (b : List UInt8) :
    Bool → UState σ ω → List (StorageProxy ω) → Bool × UState σ ω × List Action
  | deleteFile, st, [] => (deleteFile, st, [])
  | deleteFile, st, storageProxy :: rest =>
    match storageStep u fileName b deleteFile st storageProxy with
    | (deleteFile1, st1, acts1) =>
      match storageLoop u fileName b deleteFile1 st1 rest with
      | (deleteFile2, st2, acts2) => (deleteFile2, st2, acts1 ++ acts2)

/-- The body of `for _, filePath := range files`. -/
def processFile (u : PeriodicUploader σ) (env : Env ω) (st : UState σ ω)
    (filePath : String) : UState σ ω × List Action :=
  let fileName := env.Base filePath
  match env.ReadFile filePath st.world with
  | .error _ => (st, [])
  | .ok b =>
    if b.length = 0 then
      match env.Remove filePath st.world with
      | (err, w1) => ({ st with world := w1 }, [Action.remove filePath err])
    else
      match env.FindStringSubmatch fileName with
      | [_, tokenId] =>
        let storageProxies := env.GetStorages tokenId st.world
        if storageProxies.length = 0 then (st, [])
        else
          match storageLoop u fileName b true st storageProxies with
          | (false, st1, acts) => (st1, acts)
          | (true, st1, acts) =>
            match env.Remove filePath st1.world with
            | (some e, w2) =>
              ({ st1 with world := w2 }, acts ++ [Action.remove filePath (some e)])
            | (none, w2) =>
              ({ status := u.statusManager.cleanUp st1.status fileName, world := w2 },
               acts ++ [Action.remove filePath none, Action.cleanUp fileName])
      | _ => (st, [])

/-- The loop `for _, filePath := range files`. -/
def filesLoop (u : PeriodicUploader σ) (env : Env ω) :
    UState σ ω → List String → UState σ ω × List Action
  | st, [] => (st, [])
  | st, filePath :: rest =>
    match processFile u env st filePath with
    | (st1, acts1) =>
      match filesLoop u env st1 rest with
      | (st2, acts2) => (st2, acts1 ++ acts2)

/-- One pass through the body of the endless `for` of `Start`: whether the loop goes
on (`true`) or is left by `break` or `return` (`false`), the new state and the calls
made. -/
def iteration (u : PeriodicUploader σ) (env : Env ω) (st : UState σ ω) :
    Bool × UState σ ω × List Action :=
  if env.Idle st.world then (false, st, [])
  else if env.Reloading st.world then
    (true, { st with world := env.Sleep 2 st.world }, [])
  else
    match env.Glob u.fileMask st.world with
    | .error _ => (false, st, [])
    | .ok files =>
      match filesLoop u env st files with
      | (st1, acts) => (true, { st1 with world := env.Sleep u.uploadEvery st1.world }, acts)

/-- The method `Start`, followed for at most `n` passes of its endless loop. -/
def Start (u : PeriodicUploader σ) (env : Env ω) : Nat → UState σ ω → UState σ ω × List Action
  | 0, st => (st, [])
  | n + 1, st =>
    match iteration u env st with
    | (false, st1, acts1) => (st1, acts1)
    | (true, st1, acts1) =>
      match Start u env n st1 with
      | (st2, acts2) => (st2, acts1 ++ acts2)

/-- The acknowledgement the deletion flag stands for: every proxy, at its turn in
the loop, yields a live storage whose destination is already marked uploaded for the
file or whose `Store` call returns no error. -/
def allAcknowledged (u : PeriodicUploader σ) (fileName : String) (b : List UInt8) :
    UState σ ω → List (StorageProxy ω) → Prop
  | _, [] => True
  | st, storageProxy :: rest =>
    (∃ storage, storageProxy.Get st.world = some storage ∧
      (u.statusManager.isUploaded st.status fileName storage.Name = true ∨
        (storage.Store fileName b st.world).1.2 = none)) ∧
    allAcknowledged u fileName b (storageStep u fileName b true st storageProxy).2.1 rest

/-- The property of a status manager named by the claim: `updateStatus` with a nil
error makes `isUploaded` true for that file and destination. -/
def StatusManager.MarksSuccess (sm : StatusManager σ) : Prop :=
  ∀ s fileName dest, sm.isUploaded (sm.updateStatus s fileName dest none) fileName dest = true

/-- Modelled from the spec: the contract of the status manager, whose source is not
among the files.  It keeps one record per file and destination: `isUploaded` reports
whether the latest `updateStatus` for the pair had a nil error, `updateStatus` for a
pair and `cleanUp` of a file leave the other pairs and files alone, and `cleanUp`
forgets the records of the file. -/
structure StatusManager.Lawful (sm : StatusManager σ) : Prop where
  update_same : ∀ s f d e, sm.isUploaded (sm.updateStatus s f d e) f d = e.isNone
  update_other : ∀ s f d e f' d', ¬ (f' = f ∧ d' = d) →
    sm.isUploaded (sm.updateStatus s f d e) f' d' = sm.isUploaded s f' d'
  cleanUp_same : ∀ s f d, sm.isUploaded (sm.cleanUp s f) f d = false
  cleanUp_other : ∀ s f f' d', f' ≠ f →
    sm.isUploaded (sm.cleanUp s f) f' d' = sm.isUploaded s f' d'

/-- The histories of calls a run can produce from the status `s0`, with the status
they lead to: a history grows by a skipped destination, by a `Store` call with its
status update, by the removal of an empty file, by a failed removal, or by a removal
followed by the clean-up of the status. -/
inductive Reach (u : PeriodicUploader σ) (env : Env ω) (s0 : σ) : σ → List Action → Prop where
  | init : Reach u env s0 s0 []
  | skip {s : σ} {h : List Action} (f d : String) :
      Reach u env s0 s h → (env.FindStringSubmatch f).length = 2 →
      u.statusManager.isUploaded s f d = true →
      Reach u env s0 s (h ++ [Action.isUploaded f d true])
  | store {s : σ} {h : List Action} (f d : String) (r : Int) (e : Option String) :
      Reach u env s0 s h → (env.FindStringSubmatch f).length = 2 →
      u.statusManager.isUploaded s f d = false →
      Reach u env s0 (u.statusManager.updateStatus s f d e)
        (h ++ [Action.isUploaded f d false, Action.store f d r e, Action.updateStatus f d e])
  | removeEmpty {s : σ} {h : List Action} (p : String) (e : Option String) :
      Reach u env s0 s h → (∃ w, env.ReadFile p w = .ok []) →
      Reach u env s0 s (h ++ [Action.remove p e])
  | removeFailed {s : σ} {h : List Action} (p e : String) :
      Reach u env s0 s h → (env.FindStringSubmatch (env.Base p)).length = 2 →
      Reach u env s0 s (h ++ [Action.remove p (some e)])
  | removeDone {s : σ} {h : List Action} (p : String) :
      Reach u env s0 s h → (env.FindStringSubmatch (env.Base p)).length = 2 →
      Reach u env s0 (u.statusManager.cleanUp s (env.Base p))
        (h ++ [Action.remove p none, Action.cleanUp (env.Base p)])

/-- Modelled from the spec: the status manager, whose source is not among the files:
`isUploaded` is true iff the status file has an entry `uploaded: true` for the
destination; `updateStatus` sets the entry to `err == nil`; `cleanUp` deletes the
status file.  The state lists the entries, newest first. -/
def specStatusManager : StatusManager (List (String × String × Bool)) where
  isUploaded s fileName dest :=
    match s.find? (fun r => r.1 = fileName ∧ r.2.1 = dest) with
    | some r => r.2.2
    | none => false
  updateStatus s fileName dest err := (fileName, dest, err.isNone) :: s
  cleanUp s fileName := s.filter (fun r => r.1 ≠ fileName)

/-- A status manager that keeps a single entry, the one written last. -/
def lastEntryStatusManager : StatusManager (Option (String × String × Bool)) where
  isUploaded s fileName dest :=
    match s with
    | some r => decide (r.1 = fileName ∧ r.2.1 = dest) && r.2.2
    | none => false
  updateStatus _ fileName dest err := some (fileName, dest, err.isNone)
  cleanUp _ _ := none

/-- A status manager that marks a destination as soon as `updateStatus` is called for
it, whatever the error. -/
def eagerStatusManager : StatusManager (List (String × String)) where
  isUploaded s fileName dest := decide ((fileName, dest) ∈ s)
  updateStatus s fileName dest _ := (fileName, dest) :: s
  cleanUp s fileName := s.filter (fun r => r.1 ≠ fileName)

/-- An outside world for the examples: the closed files on disk (path and content) and
the number of `Store` calls made so far. -/
structure DemoWorld where
  files : List (String × List UInt8)
  storeCalls : Nat

/-- A destination that accepts every file. -/
def okStorage (name : String) : Storage DemoWorld :=
  { Name := name, Store := fun _ _ w => ((1, none), { w with storeCalls := w.storeCalls + 1 }) }

/-- A destination that rejects every file. -/
def failingStorage (name : String) : Storage DemoWorld :=
  { Name := name,
    Store := fun _ _ w =>
      ((0, some "connection refused"), { w with storeCalls := w.storeCalls + 1 }) }

/-- A destination that rejects the first `Store` call made in the world and accepts
the later ones. -/
def flakyStorage (name : String) : Storage DemoWorld :=
  { Name := name,
    Store := fun _ _ w =>
      (if w.storeCalls = 0 then (0, some "connection refused") else (1, none),
       { w with storeCalls := w.storeCalls + 1 }) }

/-- The environment of the examples: every closed file is matched by the mask, file
names starting with `events-` carry the token `tok`, every token is routed to the
given storages, and `os.Remove` deletes the file. -/
def demoEnv (storages : List (Storage DemoWorld)) : Env DemoWorld where
  Idle _ := false
  Reloading _ := false
  Glob _ w := .ok (w.files.map Prod.fst)
  Base p := p
  ReadFile p w :=
    match w.files.find? (fun f => f.1 = p) with
    | some f => .ok f.2
    | none => .error "no such file"
  Remove p w := (none, { w with files := w.files.filter (fun f => f.1 ≠ p) })
  FindStringSubmatch name :=
    if "events-".toList.isPrefixOf name.toList then [name, "tok"] else []
  GetStorages _ _ := storages.map (fun s => { Get := fun _ => some s })
  Sleep _ w := w

/-- The environment `demoEnv` in a directory where, during every pause of the
uploader, a closed file named `events-a.log` is put in place again. -/
def refilledEnv (storages : List (Storage DemoWorld)) : Env DemoWorld :=
  { demoEnv storages with
    Sleep := fun _ w => { w with files := [("events-a.log", [1, 2])] } }

/-- An uploader over the given status manager. -/
def demoUploader {σ : Type} (sm : StatusManager σ) : PeriodicUploader σ :=
  { logEventPath := "logs", fileMask := "logs/*.log", uploadEvery := 60, statusManager := sm }

end logfiles

/-! ## Package `events` -/

namespace events

/-- A dynamically typed Go value (`interface{}`) as it occurs in a fact: JSON scalars,
arrays, and objects (`map[string]interface{}`). -/
inductive Value where
  | null
  | bool (b : Bool)
  | number (literal : String)
  | str (s : String)
  | array (xs : List Value)
  | object (m : List (String × Value))

/-- The type `Fact`, a `map[string]interface{}`. -/
abbrev Fact := GoMap String Value

/-- The part of `*http.Request` that `extractIp` reads.  The header map is keyed by
the header names as `extractIp` writes them (`Header.Get` identifies names up to
their canonical MIME form). -/
structure Request where
  Header : GoMap String (List String)
  RemoteAddr : String

/-- The library call `Header.Get`: the first value of the header, or the empty string. -/
def headerGet (h : GoMap String (List String)) (key : String) : String :=
  match GoMap.index h key with
  | some (v :: _) => v
  | _ => ""

/-- The library call `strings.Split` for a one-character separator, on the characters
of the string. -/
def stringsSplit (sep : Char) : List Char → List (List Char)
  | [] => [[]]
  | c :: cs =>
    if c = sep then [] :: stringsSplit sep cs
    else
      match stringsSplit sep cs with
      | [] => [[c]]
      | w :: ws => (c :: w) :: ws

/-- The function `extractIp`. -/
def extractIp (r : Request) : String :=
  let ip := headerGet r.Header "X-Real-IP"
  let ip := if ip = "" then headerGet r.Header "X-Forwarded-For" else ip
  if ip = "" then
    let remoteAddr := r.RemoteAddr
    if remoteAddr ≠ "" then
      String.mk ((stringsSplit ':' remoteAddr.toList).headD [])
    else ip
  else ip

/-- The constant `eventnKey`. -/
def eventnKey : String := "eventn_ctx"

/-- The constant `ipKey`. -/
def ipKey : String := "source_ip"

/-- The constant `uaKey`. -/
def uaKey : String := "user_agent"

/-- Modelled from the spec: the constant `geo.GeoDataKey`, declared in a package that is
not among the sources; the result of the geo resolution is stored at
`eventn_ctx.location`. -/
def GeoDataKey : String := "location"

/-- Modelled from the spec: the constant `useragent.ParsedUaKey`, declared in a package
that is not among the sources; the parsed user agent is stored at
`eventn_ctx.parsed_ua`. -/
def ParsedUaKey : String := "parsed_ua"

/-- The struct `JsPreprocessor`: `geoResolver.Resolve` returns the geo data and an
error (`none` is nil), `uaResolver.Resolve` returns the parsed user agent; both
results are stored in the fact as dynamically typed values. -/
structure JsPreprocessor where
  geoResolver : String → Value × Option String
  uaResolver : String → Value

/-- The errors `Preprocess` returns: `nilFactErr`, and the two `fmt.Errorf` values with
the fact and the value they print. -/
inductive PreprocessError where
  | nilFact
  | missingContext (fact : Fact)
  | notAnObject (eventnObject : Value)

/-- What a call of `Preprocess` leaves behind: the pair it returns (`.ok fact` for
`(fact, nil)`, `.error e` for `(nil, err)`) and the contents of the map passed in,
which the callee mutates in place (`none` for the nil map). -/
structure PreprocessOutcome where
  ret : Except PreprocessError Fact
  factAfter : Option Fact

/-- The method `JsPreprocessor.Preprocess`; `fact = none` is the nil map.  The nested
map `eventFact` is shared with the fact, so the stores into it are stores into
`fact[eventnKey]`. -/
def JsPreprocessor.Preprocess (jp : JsPreprocessor) (fact : Option Fact) (r : Request) :
    PreprocessOutcome :=
  match fact with
  | none => { ret := .error .nilFact, factAfter := none }
  | some fact0 =>
    let ip := extractIp r
    let fact1 := if ip ≠ "" then GoMap.assign fact0 ipKey (.str ip) else fact0
    match GoMap.index fact1 eventnKey with
    | none => { ret := .error (.missingContext fact1), factAfter := some fact1 }
    | some (.object eventFact) =>
      let geoData := (jp.geoResolver ip).1
      let eventFact1 := GoMap.assign eventFact GeoDataKey geoData
      let eventFact2 :=
        match GoMap.index eventFact1 uaKey with
        | some (.str uaStr) => GoMap.assign eventFact1 ParsedUaKey (jp.uaResolver uaStr)
        | _ => eventFact1
      let fact2 := GoMap.assign fact1 eventnKey (.object eventFact2)
      { ret := .ok fact2, factAfter := some fact2 }
    | some eventnObject =>
      { ret := .error (.notAnObject eventnObject), factAfter := some fact1 }

/-- The fact returned by a call that reported no error. -/
def PreprocessOutcome.fact? (o : PreprocessOutcome) : Option Fact :=
  match o.ret with
  | .ok f => some f
  | .error _ => none

/-- Whether the call reported an error. -/
def PreprocessOutcome.failed (o : PreprocessOutcome) : Bool :=
  match o.ret with
  | .ok _ => false
  | .error _ => true

/-- Whether a dynamically typed value is a `map[string]interface{}`. -/
def Value.isObject : Value → Bool
  | .object _ => true
  | _ => false

/-- Scenario S1: the body `{"eventn_ctx":{"event_id":"e1","user_agent":"Mozilla/5.0"}}`. -/
def factS1 : Fact :=
  [("eventn_ctx", .object [("event_id", .str "e1"), ("user_agent", .str "Mozilla/5.0")])]

/-- Scenario S1: the request with header `X-Real-IP: 95.82.232.185`. -/
def requestS1 : Request :=
  { Header := [("X-Real-IP", ["95.82.232.185"])], RemoteAddr := "127.0.0.1:52431" }

/-- A preprocessor for the examples: the geo resolver has no database and returns an
error with no data, the user-agent resolver wraps the string. -/
def demoPreprocessor : JsPreprocessor :=
  { geoResolver := fun _ => (.null, some "geo resolver is not configured"),
    uaResolver := fun s => .object [("ua_family", .str s)] }

/-- Scenario S1: the fact after preprocessing. -/
def factS1Out : Fact :=
  [("eventn_ctx", .object [("event_id", .str "e1"), ("user_agent", .str "Mozilla/5.0"),
      ("location", .null), ("parsed_ua", .object [("ua_family", .str "Mozilla/5.0")])]),
   ("source_ip", .str "95.82.232.185")]

/-- The portion of a peer address before its first `:`, in the words of the
specification (the whole address when it has no `:`). -/
def specBeforeFirstColon (addr : String) : String :=
  String.mk (addr.toList.takeWhile (fun ch => ch ≠ ':'))

/-- A fact without `eventn_ctx`. -/
def factNoContext : Fact := [("event_type", .str "pageview")]

end events

/-! # Theorems -/

namespace GoMap

variable {κ ν : Type} [DecidableEq κ]

theorem index_assign_same (m : GoMap κ ν) (k : κ) (v : ν) :
    index (assign m k v) k = some v := by
  induction m with
  | nil => simp [assign, index]
  | cons p rest ih =>
    obtain ⟨k', v'⟩ := p
    by_cases h : k' = k
    · simp [assign, index, h]
    · simp [assign, index, h, ih]

theorem index_assign_ne (m : GoMap κ ν) {k k' : κ} (v : ν) (h : k' ≠ k) :
    index (assign m k v) k' = index m k' := by
  induction m with
  | nil => simp [assign, index, Ne.symm h]
  | cons p rest ih =>
    obtain ⟨k'', v''⟩ := p
    by_cases h1 : k'' = k
    · subst h1
      simp [assign, index, Ne.symm h]
    · by_cases h2 : k'' = k'
      · subst h2
        simp [assign, index, h1]
      · simp [assign, index, h1, h2, ih]

theorem index_eq_none_iff (m : GoMap κ ν) (k : κ) : index m k = none ↔ k ∉ keys m := by
  induction m with
  | nil => simp [index, keys]
  | cons p rest ih =>
    obtain ⟨k', v'⟩ := p
    by_cases h : k' = k
    · simp [index, keys, h]
    · simp only [index, h, if_false, ih, keys, List.map_cons, List.mem_cons, not_or]
      constructor
      · intro h'
        exact ⟨fun e => h e.symm, h'⟩
      · intro h'
        exact h'.2

theorem mem_of_index_eq_some {m : GoMap κ ν} {k : κ} {v : ν} (h : index m k = some v) :
    (k, v) ∈ m := by
  induction m with
  | nil => simp [index] at h
  | cons p rest ih =>
    obtain ⟨k', v'⟩ := p
    by_cases h1 : k' = k
    · simp [index, h1] at h
      simp [h1, h]
    · simp [index, h1] at h
      exact List.mem_cons_of_mem _ (ih h)

theorem index_eq_some_of_mem {m : GoMap κ ν} (hwf : WF m) {k : κ} {v : ν} (h : (k, v) ∈ m) :
    index m k = some v := by
  induction m with
  | nil => simp at h
  | cons p rest ih =>
    obtain ⟨k', v'⟩ := p
    simp only [WF, keys, List.map_cons, List.nodup_cons] at hwf
    rcases List.mem_cons.mp h with h1 | h1
    · cases h1
      simp [index]
    · have hk : k' ≠ k := by
        intro e
        subst e
        exact hwf.1 (List.mem_map_of_mem Prod.fst h1)
      simp only [index, hk, if_false]
      exact ih hwf.2 h1

theorem assign_eq_append {m : GoMap κ ν} {k : κ} (v : ν) (h : k ∉ keys m) :
    assign m k v = m ++ [(k, v)] := by
  induction m with
  | nil => simp [assign]
  | cons p rest ih =>
    obtain ⟨k', v'⟩ := p
    simp only [keys, List.map_cons, List.mem_cons, not_or] at h
    have hk : k' ≠ k := fun e => h.1 e.symm
    simp only [assign, hk, if_false, List.cons_append, List.cons.injEq, true_and]
    exact ih h.2

theorem index_filter_key (m : GoMap κ ν) (q : κ → Bool) (k : κ) :
    index (m.filter (fun p => q p.1)) k = if q k then index m k else none := by
  induction m with
  | nil => simp [index]
  | cons p rest ih =>
    obtain ⟨k', v'⟩ := p
    by_cases h : k' = k
    · subst h
      by_cases hq : q k' <;> simp [List.filter_cons, hq, index, ih]
    · by_cases hq : q k' <;> simp [List.filter_cons, hq, index, ih, h]

theorem foldl_assign_eq_append (l acc : GoMap κ ν) (h : (keys (acc ++ l)).Nodup) :
    l.foldl (fun a p => assign a p.1 p.2) acc = acc ++ l := by
  induction l generalizing acc with
  | nil => simp
  | cons p rest ih =>
    have hp : p.1 ∉ keys acc := by
      simp only [keys, List.map_append, List.map_cons] at h
      have := (List.nodup_append.mp h).2.2
      intro hmem
      exact this hmem (List.mem_cons_self _ _)
    simp only [List.foldl_cons, assign_eq_append p.2 hp]
    rw [ih]
    · simp
    · simpa [keys] using h

theorem index_isSome_foldl_assign (l acc : GoMap κ ν) (k : κ)
    (h : (index acc k).isSome ∨ (index l k).isSome) :
    (index (l.foldl (fun a p => assign a p.1 p.2) acc) k).isSome := by
  induction l generalizing acc with
  | nil => simpa [index] using h
  | cons p rest ih =>
    obtain ⟨k', v'⟩ := p
    simp only [List.foldl_cons]
    apply ih
    by_cases hk : k' = k
    · subst hk
      left
      simp [index_assign_same]
    · rcases h with h | h
      · left
        rw [index_assign_ne _ _ (Ne.symm hk)]
        exact h
      · right
        simpa [index, hk] using h

theorem assign_of_index_eq {m : GoMap κ ν} {k : κ} {v : ν} (h : index m k = some v) :
    assign m k v = m := by
  induction m with
  | nil => simp [index] at h
  | cons p rest ih =>
    obtain ⟨k', v'⟩ := p
    by_cases hk : k' = k
    · subst hk
      simp only [index, if_true, Option.some.injEq] at h
      simp [assign, h]
    · simp only [index, hk, if_false] at h
      simp [assign, hk, ih h]

theorem mem_keys_iff_index (m : GoMap κ ν) (k : κ) : k ∈ keys m ↔ (index m k).isSome := by
  rw [← not_iff_not, ← index_eq_none_iff]
  cases index m k <;> simp

theorem mem_keys_assign (m : GoMap κ ν) (k k' : κ) (v : ν) :
    k' ∈ keys (assign m k v) ↔ (k' ∈ keys m ∨ k' = k) := by
  rw [mem_keys_iff_index, mem_keys_iff_index]
  by_cases h : k' = k
  · subst h
    simp [index_assign_same]
  · rw [index_assign_ne m v h]
    simp [h]

theorem mem_assign {m : GoMap κ ν} {k : κ} {v : ν} {p : κ × ν} (h : p ∈ assign m k v) :
    p ∈ m ∨ p = (k, v) := by
  induction m with
  | nil =>
    right
    simpa [assign] using h
  | cons q rest ih =>
    obtain ⟨k', v'⟩ := q
    by_cases hk : k' = k
    · simp only [assign, hk, if_true, List.mem_cons] at h
      rcases h with h | h
      · exact Or.inr h
      · exact Or.inl (List.mem_cons_of_mem _ h)
    · simp only [assign, hk, if_false, List.mem_cons] at h
      rcases h with h | h
      · exact Or.inl (h ▸ List.mem_cons_self _ _)
      · rcases ih h with h' | h'
        · exact Or.inl (List.mem_cons_of_mem _ h')
        · exact Or.inr h'

theorem assign_ne_nil (m : GoMap κ ν) (k : κ) (v : ν) : assign m k v ≠ [] := by
  cases m with
  | nil => simp [assign]
  | cons q rest =>
    obtain ⟨k', v'⟩ := q
    by_cases hk : k' = k <;> simp [assign, hk]

theorem keys_assign (m : GoMap κ ν) (k : κ) (v : ν) :
    keys (assign m k v) = if k ∈ keys m then keys m else keys m ++ [k] := by
  induction m with
  | nil => simp [assign, keys]
  | cons q rest ih =>
    obtain ⟨k', v'⟩ := q
    by_cases hk : k' = k
    · subst hk
      simp [assign, keys]
    · have hk' : ¬ k = k' := fun e => hk e.symm
      simp only [assign, hk, if_false, keys, List.map_cons, List.mem_cons, hk', false_or]
      simp only [keys] at ih
      rw [ih]
      split <;> simp

theorem WF_assign {m : GoMap κ ν} (h : WF m) (k : κ) (v : ν) : WF (assign m k v) := by
  unfold WF at *
  rw [keys_assign]
  split
  · exact h
  · rename_i hk
    rw [List.nodup_append]
    refine ⟨h, List.nodup_singleton k, ?_⟩
    intro a ha hb
    simp only [List.mem_singleton] at hb
    subst hb
    exact hk ha

end GoMap

namespace schema

open typing GoMap

theorem fieldsLoop_eq_true_iff (xs ys : List String) (h : xs.length = ys.length) :
    fieldsLoop xs ys = true ↔ xs = ys := by
  induction xs generalizing ys with
  | nil =>
    cases ys with
    | nil => simp [fieldsLoop]
    | cons b bs => simp at h
  | cons a as ih =>
    cases ys with
    | nil => simp at h
    | cons b bs =>
      simp only [List.length_cons, Nat.add_right_cancel_iff] at h
      by_cases hab : a = b
      · simp [fieldsLoop, hab, ih bs h]
      · simp [fieldsLoop, hab]

theorem sliceElems_map_sort (s : Option (List String)) :
    sliceElems (s.map sortStrings) = sortStrings (sliceElems s) := by
  cases s <;> simp [sliceElems, sortStrings]

theorem sliceLen_eq_length (s : Option (List String)) : sliceLen s = (sliceElems s).length := by
  cases s <;> simp [sliceLen, sliceElems]

theorem length_sortStrings (xs : List String) : (sortStrings xs).length = xs.length := by
  simp [sortStrings, List.length_insertionSort]

theorem mem_sortStrings (x : String) (xs : List String) : x ∈ sortStrings xs ↔ x ∈ xs :=
  (List.perm_insertionSort strLe xs).mem_iff

/-- The result of `primaryKeyFieldsEqual`: the lists have the same length and agree
after sorting. -/
theorem primaryKeyFieldsEqual_fst (a b : Option (List String)) :
    (primaryKeyFieldsEqual a b).1 = true ↔
      (sliceLen a = sliceLen b ∧ sortStrings (sliceElems a) = sortStrings (sliceElems b)) := by
  unfold primaryKeyFieldsEqual
  by_cases h : sliceLen a = sliceLen b
  · simp only [h, ne_eq, not_true_eq_false, if_false, true_and]
    rw [fieldsLoop_eq_true_iff, sliceElems_map_sort, sliceElems_map_sort]
    rw [sliceElems_map_sort, sliceElems_map_sort, length_sortStrings, length_sortStrings,
      ← sliceLen_eq_length, ← sliceLen_eq_length, h]
  · simp [h]

/-- The contents `primaryKeyFieldsEqual` leaves in its second argument. -/
theorem primaryKeyFieldsEqual_snd_snd (a b : Option (List String)) :
    (primaryKeyFieldsEqual a b).2.2 =
      if sliceLen a = sliceLen b then b.map sortStrings else b := by
  unfold primaryKeyFieldsEqual
  by_cases h : sliceLen a = sliceLen b <;> simp [h]

/-- The contents `primaryKeyFieldsEqual` leaves in its first argument. -/
theorem primaryKeyFieldsEqual_snd_fst (a b : Option (List String)) :
    (primaryKeyFieldsEqual a b).2.1 =
      if sliceLen a = sliceLen b then a.map sortStrings else a := by
  unfold primaryKeyFieldsEqual
  by_cases h : sliceLen a = sliceLen b <;> simp [h]

/-- The loop of `Diff` completes exactly when every column it meets that the receiver
also has is convertible. -/
theorem diffLoop_ok_iff (conv : DataType → DataType → Bool) (gca : DataType → DataType → DataType)
    (t : Table) (l : List (String × Column)) (acc : Columns) :
    (∃ cols, diffLoop conv gca t l acc = .ok cols) ↔
      ∀ p ∈ l, ∀ cur, index t.Columns p.1 = some cur →
        conv (p.2.GetType gca) (cur.GetType gca) = true := by
  induction l generalizing acc with
  | nil => simp [diffLoop]
  | cons p rest ih =>
    obtain ⟨name, column⟩ := p
    cases hidx : index t.Columns name with
    | none =>
      simp only [diffLoop, hidx, ih, List.mem_cons, forall_eq_or_imp]
      constructor
      · intro h
        exact ⟨fun cur hc => by simp at hc, h⟩
      · intro h
        exact h.2
    | some cur =>
      by_cases hc : conv (column.GetType gca) (cur.GetType gca) = true
      · simp only [diffLoop, hidx, hc, Bool.not_true, Bool.false_eq_true, if_false, ih,
          List.mem_cons, forall_eq_or_imp]
        constructor
        · intro h
          refine ⟨fun cur' hc' => ?_, h⟩
          cases hc'
          exact hc
        · intro h
          exact h.2
      · have hc' : conv (column.GetType gca) (cur.GetType gca) = false := by
          simpa using hc
        simp only [diffLoop, hidx, hc', Bool.not_false, if_true, List.mem_cons,
          forall_eq_or_imp]
        constructor
        · intro ⟨cols, h⟩
          cases h
        · intro h
          exact absurd (h.1 cur rfl) hc

/-- The columns collected by a completed loop of `Diff`. -/
theorem diffLoop_ok_cols (conv : DataType → DataType → Bool) (gca : DataType → DataType → DataType)
    (t : Table) (l : List (String × Column)) (acc cols : Columns)
    (h : diffLoop conv gca t l acc = .ok cols) :
    cols = (l.filter (fun p => (index t.Columns p.1).isNone)).foldl
      (fun a p => assign a p.1 p.2) acc := by
  induction l generalizing acc with
  | nil =>
    simp only [diffLoop] at h
    cases h
    simp
  | cons p rest ih =>
    obtain ⟨name, column⟩ := p
    cases hidx : index t.Columns name with
    | none =>
      simp only [diffLoop, hidx] at h
      simp only [List.filter_cons, hidx, Option.isNone_none, if_true, List.foldl_cons]
      exact ih _ h
    | some cur =>
      simp only [diffLoop, hidx] at h
      simp only [List.filter_cons, hidx, Option.isNone_some, Bool.false_eq_true, if_false]
      split at h
      · cases h
      · exact ih _ h

theorem diffLoop_not_ok (conv : DataType → DataType → Bool) (gca : DataType → DataType → DataType)
    (t : Table) (l : List (String × Column)) (acc : Columns) :
    (¬ ∃ cols, diffLoop conv gca t l acc = .ok cols) ↔ ∃ e, diffLoop conv gca t l acc = .error e := by
  cases h : diffLoop conv gca t l acc with
  | error e => simp
  | ok cols => simp

/-- The shape of `Diff` on a table with at least one column. -/
theorem Diff_some_nonempty (conv : DataType → DataType → Bool)
    (gca : DataType → DataType → DataType) (t o : Table) (hne : o.Columns ≠ []) :
    Table.Diff conv gca t (some o) =
      match diffLoop conv gca t o.Columns [] with
      | .error e =>
        { ret := .error e, receiverPK := t.PKFields, anotherPK := o.PKFields,
          receiverColumns := t.Columns, anotherColumns := some o.Columns }
      | .ok cols =>
        { ret := .ok { Name := t.Name, Columns := cols,
                       PKFields := if (primaryKeyFieldsEqual t.PKFields o.PKFields).1 then none
                                   else (primaryKeyFieldsEqual t.PKFields o.PKFields).2.2,
                       Version := 0 },
          receiverPK := (primaryKeyFieldsEqual t.PKFields o.PKFields).2.1,
          anotherPK := (primaryKeyFieldsEqual t.PKFields o.PKFields).2.2,
          receiverColumns := t.Columns, anotherColumns := some o.Columns } := by
  have hlen : o.Columns.length ≠ 0 := by
    intro h
    exact hne (List.length_eq_zero.mp h)
  unfold Table.Diff
  simp only [hlen, if_false]
  cases hl : diffLoop conv gca t o.Columns [] with
  | error e => rfl
  | ok cols =>
    simp only []
    rcases hpk : primaryKeyFieldsEqual t.PKFields o.PKFields with ⟨b, oldPK, newPK⟩
    cases b <;> simp

/-- The shape of `Diff` on a table without columns. -/
theorem Diff_some_empty (conv : DataType → DataType → Bool)
    (gca : DataType → DataType → DataType) (t o : Table) (he : o.Columns = []) :
    Table.Diff conv gca t (some o) =
      { ret := .ok { Name := t.Name, Columns := [], PKFields := none, Version := 0 },
        receiverPK := t.PKFields, anotherPK := o.PKFields,
        receiverColumns := t.Columns, anotherColumns := some o.Columns } := by
  unfold Table.Diff
  simp [he]

/-- C1 (as amended): when `T1.Diff(T2)` returns no error, the table obtained by adding
the diff's columns to `T1` and replacing `T1`'s primary key by the diff's when that
is non-nil has every column name of `T2`; and when `T2` has at least one column it
also has every primary-key field of `T2`. -/
theorem diff_applied_is_superset (conv : DataType → DataType → Bool)
    (gca : DataType → DataType → DataType) (T1 T2 d : Table)
    (h : (T1.Diff conv gca (some T2)).diff? = some d) :
    (∀ name, (index T2.Columns name).isSome →
        (index (specApplyDiff T1 d).Columns name).isSome) ∧
    (T2.Columns ≠ [] →
        ∀ f ∈ sliceElems T2.PKFields, f ∈ sliceElems (specApplyDiff T1 d).PKFields) := by
  by_cases hne : T2.Columns = []
  · refine ⟨fun name hn => ?_, fun h' => absurd hne h'⟩
    simp [hne, index] at hn
  · rw [Diff_some_nonempty conv gca T1 T2 hne] at h
    cases hl : diffLoop conv gca T1 T2.Columns [] with
    | error e => simp [hl, DiffOutcome.diff?] at h
    | ok cols =>
      simp only [hl, DiffOutcome.diff?, Option.some.injEq] at h
      have hcols := diffLoop_ok_cols conv gca T1 T2.Columns [] cols hl
      subst h
      refine ⟨fun name hn => ?_, fun _ f hf => ?_⟩
      · simp only [specApplyDiff]
        apply index_isSome_foldl_assign
        cases hT : index T1.Columns name with
        | some c => left; rfl
        | none =>
          right
          have hwhole : (index (List.foldl (fun a p => assign a p.1 p.2) ([] : Columns)
              (List.filter (fun p => (index T1.Columns p.1).isNone) T2.Columns)) name).isSome := by
            apply index_isSome_foldl_assign
            right
            rw [index_filter_key T2.Columns (fun k => (index T1.Columns k).isNone) name]
            simpa [hT] using hn
          rw [hcols]
          exact hwhole
      · simp only [specApplyDiff]
        by_cases heq : (primaryKeyFieldsEqual T1.PKFields T2.PKFields).1 = true
        · simp only [heq, if_true]
          have hs := ((primaryKeyFieldsEqual_fst _ _).mp heq).2
          rw [← mem_sortStrings, hs, mem_sortStrings]
          exact hf
        · simp only [heq, Bool.false_eq_true, if_false, primaryKeyFieldsEqual_snd_snd]
          cases hpk : T2.PKFields with
          | none => simp [hpk, sliceElems] at hf
          | some pk =>
            rw [hpk] at hf
            simp only [sliceElems] at hf
            by_cases hlen : sliceLen T1.PKFields = sliceLen (some pk)
            · simp only [hlen, if_true, Option.map_some', sliceElems]
              exact (mem_sortStrings f pk).mpr hf
            · simp only [hlen, if_false, sliceElems]
              exact hf

/-- C1, instance: scenario S3. -/
theorem diff_applied_is_superset_witness :
    (tableS3.Diff IsConvertible GetCommonAncestorType (some otherS3)).diff? =
        some { Name := "events", Columns := [("b", NewColumn .STRING)], PKFields := none,
               Version := 0 } ∧
    (index (specApplyDiff tableS3
        { Name := "events", Columns := [("b", NewColumn .STRING)], PKFields := none,
          Version := 0 }).Columns "b").isSome :=
  ⟨by decide,
   (diff_applied_is_superset IsConvertible GetCommonAncestorType tableS3 otherS3 _
      (by decide)).1 "b" (by decide)⟩

/-- C1, counterexample to the claim as stated: the other table has no columns but
declares the primary key `id`; `Diff` returns the empty diff without error, and the
receiver with the diff applied does not contain `id`. -/
theorem diff_applied_misses_pk_of_columnless_table :
    (tableS3.Diff IsConvertible GetCommonAncestorType (some pkOnlyTable)).diff? =
        some { Name := "events", Columns := [], PKFields := none, Version := 0 } ∧
    "id" ∈ sliceElems pkOnlyTable.PKFields ∧
    "id" ∉ sliceElems (specApplyDiff tableS3
        { Name := "events", Columns := [], PKFields := none, Version := 0 }).PKFields := by
  decide

/-- C2: for a table `O` with at least one column, `T.Diff(O)` returns an error exactly
when some column name is present in both `T` and `O` with
`IsConvertible(O's type, T's type)` false; hence the failure is the same for every
order in which the columns of `O` are enumerated. -/
theorem diff_fails_iff_inconvertible (conv : DataType → DataType → Bool)
    (gca : DataType → DataType → DataType) (T O : Table)
    (hwf : WF O.Columns) (hne : O.Columns ≠ []) :
    ((T.Diff conv gca (some O)).failed = true ↔
      ∃ name c cur, index O.Columns name = some c ∧ index T.Columns name = some cur ∧
        conv (c.GetType gca) (cur.GetType gca) = false) ∧
    (∀ O' : Table, O'.Columns.Perm O.Columns →
      (T.Diff conv gca (some O')).failed = (T.Diff conv gca (some O)).failed) := by
  have key : ∀ X : Table, X.Columns ≠ [] →
      ((T.Diff conv gca (some X)).failed = true ↔
        ∃ p ∈ X.Columns, ∃ cur, index T.Columns p.1 = some cur ∧
          conv (p.2.GetType gca) (cur.GetType gca) = false) := by
    intro X hX
    rw [Diff_some_nonempty conv gca T X hX]
    have hiff := diffLoop_ok_iff conv gca T X.Columns []
    cases hl : diffLoop conv gca T X.Columns [] with
    | error e =>
      simp only [DiffOutcome.failed, true_iff]
      by_contra hcon
      have hall : ∀ p ∈ X.Columns, ∀ cur, index T.Columns p.1 = some cur →
          conv (p.2.GetType gca) (cur.GetType gca) = true := by
        intro p hp cur hcur
        by_contra hc
        exact hcon ⟨p, hp, cur, hcur, by simpa using hc⟩
      obtain ⟨cols, hcols⟩ := hiff.mpr hall
      rw [hl] at hcols
      cases hcols
    | ok cols =>
      simp only [DiffOutcome.failed, Bool.false_eq_true, false_iff]
      rintro ⟨p, hp, cur, hcur, hc⟩
      have := hiff.mp ⟨cols, hl⟩ p hp cur hcur
      rw [hc] at this
      cases this
  constructor
  · rw [key O hne]
    constructor
    · rintro ⟨p, hp, cur, hcur, hc⟩
      exact ⟨p.1, p.2, cur, index_eq_some_of_mem hwf hp, hcur, hc⟩
    · rintro ⟨name, c, cur, hO, hT, hc⟩
      exact ⟨(name, c), mem_of_index_eq_some hO, cur, hT, hc⟩
  · intro O' hperm
    have hne' : O'.Columns ≠ [] := by
      intro h0
      rw [h0] at hperm
      exact hne hperm.symm.eq_nil
    rw [Bool.eq_iff_iff, key O hne, key O' hne']
    constructor
    · rintro ⟨p, hp, rest⟩
      exact ⟨p, hperm.mem_iff.mp hp, rest⟩
    · rintro ⟨p, hp, rest⟩
      exact ⟨p, hperm.mem_iff.mpr hp, rest⟩

/-- C2, instance: scenario S4 in the direction fixed by the lattice, receiver
`{a:TIMESTAMP}` against `{a:STRING}`. -/
theorem diff_fails_iff_inconvertible_witness :
    WF ([("a", NewColumn DataType.STRING)] : Columns) ∧
    ((Table.Diff IsConvertible GetCommonAncestorType
        { Name := "events", Columns := [("a", NewColumn .TIMESTAMP)], PKFields := none,
          Version := 0 }
        (some { Name := "events", Columns := [("a", NewColumn .STRING)], PKFields := none,
                Version := 0 })).failed = true ↔
      ∃ name c cur, index ([("a", NewColumn DataType.STRING)] : Columns) name = some c ∧
        index ([("a", NewColumn DataType.TIMESTAMP)] : Columns) name = some cur ∧
        IsConvertible (c.GetType GetCommonAncestorType) (cur.GetType GetCommonAncestorType)
          = false) :=
  ⟨by decide,
   (diff_fails_iff_inconvertible IsConvertible GetCommonAncestorType
      { Name := "events", Columns := [("a", NewColumn .TIMESTAMP)], PKFields := none,
        Version := 0 }
      { Name := "events", Columns := [("a", NewColumn .STRING)], PKFields := none,
        Version := 0 }
      (by decide) (by decide)).1⟩

/-- C3: when `T.Diff(O)` returns no error, the diff is named after `T` and its columns
are exactly the columns of `O` whose names `T` lacks, each with `O`'s `Column`
value. -/
theorem diff_columns_exact (conv : DataType → DataType → Bool)
    (gca : DataType → DataType → DataType) (T O d : Table)
    (hwf : WF O.Columns) (h : (T.Diff conv gca (some O)).diff? = some d) :
    d.Name = T.Name ∧ WF d.Columns ∧
    (∀ name c, index d.Columns name = some c ↔
      (index O.Columns name = some c ∧ index T.Columns name = none)) := by
  by_cases hne : O.Columns = []
  · rw [Diff_some_empty conv gca T O hne] at h
    simp only [DiffOutcome.diff?, Option.some.injEq] at h
    subst h
    refine ⟨rfl, by simp [WF, keys], fun name c => ?_⟩
    simp [hne, index]
  · rw [Diff_some_nonempty conv gca T O hne] at h
    cases hl : diffLoop conv gca T O.Columns [] with
    | error e => simp [hl, DiffOutcome.diff?] at h
    | ok cols =>
      simp only [hl, DiffOutcome.diff?, Option.some.injEq] at h
      have hcols := diffLoop_ok_cols conv gca T O.Columns [] cols hl
      have hsub : (keys (List.filter (fun p => (index T.Columns p.1).isNone) O.Columns)).Nodup :=
        List.Nodup.sublist (List.Sublist.map _ (List.filter_sublist _)) hwf
      rw [foldl_assign_eq_append _ _ (by simpa using hsub)] at hcols
      simp only [List.nil_append] at hcols
      subst h
      refine ⟨rfl, ?_, fun name c => ?_⟩
      · simp only [hcols]
        exact hsub
      · simp only [hcols]
        rw [index_filter_key O.Columns (fun k => (index T.Columns k).isNone) name]
        cases hT : index T.Columns name <;> simp

/-- C3, instance: scenario S3, `{a:INT64}.Diff({a:INT64, b:STRING}) = {b:STRING}`. -/
theorem diff_columns_exact_witness :
    WF otherS3.Columns ∧
    (tableS3.Diff IsConvertible GetCommonAncestorType (some otherS3)).diff? =
        some { Name := "events", Columns := [("b", NewColumn .STRING)], PKFields := none,
               Version := 0 } ∧
    (∀ name c, index ([("b", NewColumn DataType.STRING)] : Columns) name = some c ↔
      (index otherS3.Columns name = some c ∧ index tableS3.Columns name = none)) :=
  ⟨by decide, by decide,
   (diff_columns_exact IsConvertible GetCommonAncestorType tableS3 otherS3
      { Name := "events", Columns := [("b", NewColumn .STRING)], PKFields := none,
        Version := 0 } (by decide) (by decide)).2.2⟩

/-- C4: when `T.Diff(O)` returns no error for a table `O` with at least one column,
the diff's `PKFields` is nil if the two primary-key lists have the same length and
agree element-wise after sorting, and is `O`'s `PKFields` otherwise: the slice of
`O` itself, whose elements the comparison has sorted in place when the two lengths
agree and has left alone when they differ. -/
theorem diff_pkFields (conv : DataType → DataType → Bool)
    (gca : DataType → DataType → DataType) (T O d : Table)
    (hne : O.Columns ≠ []) (h : (T.Diff conv gca (some O)).diff? = some d) :
    ((sliceLen T.PKFields = sliceLen O.PKFields ∧
        sortStrings (sliceElems T.PKFields) = sortStrings (sliceElems O.PKFields)) →
      d.PKFields = none) ∧
    (¬ (sliceLen T.PKFields = sliceLen O.PKFields ∧
        sortStrings (sliceElems T.PKFields) = sortStrings (sliceElems O.PKFields)) →
      d.PKFields = (T.Diff conv gca (some O)).anotherPK) ∧
    (T.Diff conv gca (some O)).anotherPK =
      (if sliceLen T.PKFields = sliceLen O.PKFields then O.PKFields.map sortStrings
       else O.PKFields) := by
  rw [Diff_some_nonempty conv gca T O hne] at h ⊢
  cases hl : diffLoop conv gca T O.Columns [] with
  | error e => simp [hl, DiffOutcome.diff?] at h
  | ok cols =>
    simp only [hl, DiffOutcome.diff?, Option.some.injEq] at h
    subst h
    simp only []
    refine ⟨fun hc => ?_, fun hc => ?_, primaryKeyFieldsEqual_snd_snd _ _⟩
    · rw [if_pos ((primaryKeyFieldsEqual_fst _ _).mpr hc)]
    · rw [if_neg (fun hh => hc ((primaryKeyFieldsEqual_fst _ _).mp hh))]

/-- C4, instance: primary keys `b, a` against `d, c`. -/
theorem diff_pkFields_witness :
    otherPKdc.Columns ≠ [] ∧
    (tablePKba.Diff IsConvertible GetCommonAncestorType (some otherPKdc)).diff? =
        some { Name := "events", Columns := [("b", NewColumn .STRING)],
               PKFields := some ["c", "d"], Version := 0 } ∧
    (tablePKba.Diff IsConvertible GetCommonAncestorType (some otherPKdc)).anotherPK =
      (if sliceLen tablePKba.PKFields = sliceLen otherPKdc.PKFields
       then otherPKdc.PKFields.map sortStrings else otherPKdc.PKFields) :=
  ⟨by decide, by decide,
   (diff_pkFields IsConvertible GetCommonAncestorType tablePKba otherPKdc
      { Name := "events", Columns := [("b", NewColumn .STRING)],
        PKFields := some ["c", "d"], Version := 0 } (by decide) (by decide)).2.2⟩

/-- The occurrences of the merged column: those of the column and those merged in. -/
theorem mergedColumn_occurs (ts : List (DataType × Bool)) (cur : Column) (t : DataType) :
    (mergedColumn ts cur).occurs t ↔ (cur.occurs t ∨ t ∈ keys ts) := by
  induction ts generalizing cur with
  | nil => simp [mergedColumn, keys]
  | cons p rest ih =>
    obtain ⟨t1, b1⟩ := p
    cases hidx : index cur.typeOccurrence t1 with
    | some v =>
      simp only [mergedColumn, hidx, ih, keys, List.map_cons, List.mem_cons]
      have hmem : cur.occurs t1 := by
        unfold Column.occurs
        rw [mem_keys_iff_index, hidx]
        rfl
      constructor
      · rintro (h | h)
        · exact Or.inl h
        · exact Or.inr (Or.inr h)
      · rintro (h | h | h)
        · exact Or.inl h
        · subst h
          exact Or.inl hmem
        · exact Or.inr h
    | none =>
      simp only [mergedColumn, hidx, ih, keys, List.map_cons, List.mem_cons]
      unfold Column.occurs
      simp only [mem_keys_assign]
      constructor
      · rintro ((h | h) | h)
        · exact Or.inl h
        · exact Or.inr (Or.inl h)
        · exact Or.inr (Or.inr h)
      · rintro (h | h | h)
        · exact Or.inl (Or.inl h)
        · exact Or.inl (Or.inr h)
        · exact Or.inr h

/-- The merged column is the column itself when nothing new is merged in. -/
theorem mergedColumn_of_subset (ts : List (DataType × Bool)) (cur : Column)
    (h : ∀ t ∈ keys ts, cur.occurs t) : mergedColumn ts cur = cur := by
  induction ts with
  | nil => rfl
  | cons p rest ih =>
    obtain ⟨t1, b1⟩ := p
    have h1 : cur.occurs t1 := h t1 (by simp [keys])
    unfold Column.occurs at h1
    rw [mem_keys_iff_index] at h1
    cases hidx : index cur.typeOccurrence t1 with
    | none => simp [hidx] at h1
    | some v =>
      simp only [mergedColumn, hidx]
      exact ih (fun t ht => h t (by
        simp only [keys, List.map_cons, List.mem_cons]
        exact Or.inr ht))

/-- The memoized type of the merged column is wiped when something new is merged
in, and its occurrence map is never empty then. -/
theorem mergedColumn_cases (ts : List (DataType × Bool)) (cur : Column) :
    mergedColumn ts cur = cur ∨
      ((mergedColumn ts cur).dataType = none ∧ (mergedColumn ts cur).typeOccurrence ≠ []) := by
  have key : ∀ (ts : List (DataType × Bool)) (cur : Column),
      cur.dataType = none → cur.typeOccurrence ≠ [] →
      (mergedColumn ts cur).dataType = none ∧ (mergedColumn ts cur).typeOccurrence ≠ [] := by
    intro ts
    induction ts with
    | nil => intro cur h1 h2; exact ⟨h1, h2⟩
    | cons p rest ih =>
      intro cur h1 h2
      obtain ⟨t1, b1⟩ := p
      cases hidx : index cur.typeOccurrence t1 with
      | some v =>
        simp only [mergedColumn, hidx]
        exact ih cur h1 h2
      | none =>
        simp only [mergedColumn, hidx]
        exact ih _ rfl (assign_ne_nil _ _ _)
  induction ts generalizing cur with
  | nil => exact Or.inl rfl
  | cons p rest ih =>
    obtain ⟨t1, b1⟩ := p
    cases hidx : index cur.typeOccurrence t1 with
    | some v =>
      simp only [mergedColumn, hidx]
      exact ih cur
    | none =>
      simp only [mergedColumn, hidx]
      exact Or.inr (key rest _ rfl (assign_ne_nil _ _ _))

/-- The memoized type of the merged column is wiped when a new occurrence is merged in. -/
theorem mergedColumn_of_new (ts : List (DataType × Bool)) (cur : Column) (t : DataType)
    (ht : t ∈ keys ts) (hnew : ¬ cur.occurs t) : (mergedColumn ts cur).dataType = none := by
  rcases mergedColumn_cases ts cur with h | h
  · exfalso
    have := (mergedColumn_occurs ts cur t).mpr (Or.inr ht)
    rw [h] at this
    exact hnew this
  · exact h.1

/-- The map after the inner loop of `Merge`: the entry of the column holds the merged
column, the other entries are as before. -/
theorem index_mergeOccurrences (name : String) (ts : List (DataType × Bool)) (cur : Column)
    (c : Columns) (hcur : index c name = some cur) (k : String) :
    index (mergeOccurrences name ts cur c) k =
      if k = name then some (mergedColumn ts cur) else index c k := by
  induction ts generalizing cur c with
  | nil =>
    simp only [mergeOccurrences, mergedColumn]
    split
    · rename_i h
      rw [h, hcur]
    · rfl
  | cons p rest ih =>
    obtain ⟨t1, b1⟩ := p
    cases hidx : index cur.typeOccurrence t1 with
    | some v =>
      simp only [mergeOccurrences, mergedColumn, hidx]
      exact ih cur c hcur
    | none =>
      simp only [mergeOccurrences, mergedColumn, hidx]
      rw [ih _ _ (index_assign_same _ _ _)]
      split
      · rfl
      · rename_i h
        exact index_assign_ne _ _ h

/-- The inner loop of `Merge` keeps the receiver a well-formed map. -/
theorem WF_mergeOccurrences (name : String) (ts : List (DataType × Bool)) (cur : Column)
    (c : Columns) (h : WF c) : WF (mergeOccurrences name ts cur c) := by
  induction ts generalizing cur c with
  | nil => exact h
  | cons p rest ih =>
    obtain ⟨t1, b1⟩ := p
    cases hidx : index cur.typeOccurrence t1 with
    | some v =>
      simp only [mergeOccurrences, hidx]
      exact ih cur c h
    | none =>
      simp only [mergeOccurrences, hidx]
      exact ih _ _ (WF_assign h _ _)

/-- Every entry the inner loop of `Merge` leaves is an old entry or a column with a
wiped type and a non-empty occurrence map. -/
theorem mem_mergeOccurrences (name : String) (ts : List (DataType × Bool)) (cur : Column)
    (c : Columns) (p : String × Column) (hp : p ∈ mergeOccurrences name ts cur c) :
    p ∈ c ∨ (p.2.dataType = none ∧ p.2.typeOccurrence ≠ []) := by
  induction ts generalizing cur c with
  | nil => exact Or.inl hp
  | cons q rest ih =>
    obtain ⟨t1, b1⟩ := q
    cases hidx : index cur.typeOccurrence t1 with
    | some v =>
      simp only [mergeOccurrences, hidx] at hp
      exact ih cur c hp
    | none =>
      simp only [mergeOccurrences, hidx] at hp
      rcases ih _ _ hp with h | h
      · rcases mem_assign h with h' | h'
        · exact Or.inl h'
        · right
          rw [h']
          exact ⟨rfl, assign_ne_nil _ _ _⟩
      · exact Or.inr h

/-- The receiver after `Merge`, entry by entry. -/
theorem index_mergeLoop (other : List (String × Column)) (c : Columns) (hwf : WF other)
    (k : String) :
    index (mergeLoop other c) k =
      match index other k, index c k with
      | none, x => x
      | some oc, none => some oc
      | some oc, some cc => some (mergedColumn oc.typeOccurrence cc) := by
  induction other generalizing c with
  | nil => simp [mergeLoop, index]
  | cons p rest ih =>
    obtain ⟨n, oc⟩ := p
    have hwf' : WF rest := by
      simp only [WF, keys, List.map_cons, List.nodup_cons] at hwf
      exact hwf.2
    have hn : index rest n = none := by
      rw [index_eq_none_iff]
      simp only [WF, keys, List.map_cons, List.nodup_cons] at hwf
      exact hwf.1
    by_cases hk : n = k
    · subst hk
      cases hc : index c n with
      | none =>
        simp only [mergeLoop, hc, index, if_true]
        rw [ih _ hwf', hn]
        exact index_assign_same _ _ _
      | some cc =>
        simp only [mergeLoop, hc, index, if_true]
        rw [ih _ hwf', hn]
        simp only []
        rw [index_mergeOccurrences n _ cc c hc n, if_pos rfl]
    · have hk' : k ≠ n := fun e => hk e.symm
      cases hc : index c n with
      | none =>
        simp only [mergeLoop, hc, index, hk, if_false]
        rw [ih _ hwf', index_assign_ne c _ hk']
      | some cc =>
        simp only [mergeLoop, hc, index, hk, if_false]
        rw [ih _ hwf', index_mergeOccurrences n _ cc c hc k, if_neg hk']

/-- The loop of `Merge` keeps the receiver a well-formed map. -/
theorem WF_mergeLoop (other : List (String × Column)) (c : Columns) (h : WF c) :
    WF (mergeLoop other c) := by
  induction other generalizing c with
  | nil => exact h
  | cons p rest ih =>
    obtain ⟨n, oc⟩ := p
    cases hc : index c n with
    | none =>
      simp only [mergeLoop, hc]
      exact ih _ (WF_assign h _ _)
    | some cc =>
      simp only [mergeLoop, hc]
      exact ih _ (WF_mergeOccurrences _ _ _ _ h)

/-- Every entry `Merge` leaves is an entry of the receiver, an entry of the other map,
or a column with a wiped type and a non-empty occurrence map. -/
theorem mem_mergeLoop (other : List (String × Column)) (c : Columns) (p : String × Column)
    (hp : p ∈ mergeLoop other c) :
    p ∈ c ∨ p ∈ other ∨ (p.2.dataType = none ∧ p.2.typeOccurrence ≠ []) := by
  induction other generalizing c with
  | nil => exact Or.inl hp
  | cons q rest ih =>
    obtain ⟨n, oc⟩ := q
    cases hc : index c n with
    | none =>
      simp only [mergeLoop, hc] at hp
      rcases ih _ hp with h | h | h
      · rcases mem_assign h with h' | h'
        · exact Or.inl h'
        · exact Or.inr (Or.inl (h' ▸ List.mem_cons_self _ _))
      · exact Or.inr (Or.inl (List.mem_cons_of_mem _ h))
      · exact Or.inr (Or.inr h)
    | some cc =>
      simp only [mergeLoop, hc] at hp
      rcases ih _ hp with h | h | h
      · rcases mem_mergeOccurrences _ _ _ _ _ h with h' | h'
        · exact Or.inl h'
        · exact Or.inr (Or.inr h')
      · exact Or.inr (Or.inl (List.mem_cons_of_mem _ h))
      · exact Or.inr (Or.inr h)

/-- Reading an occurrence map at the address just written. -/
theorem readOcc_assign_same (heap : OccHeap) (a : Nat) (m : GoMap DataType Bool) :
    readOcc (assign heap a m) a = m := by
  simp [readOcc, index_assign_same]

/-- Writing an occurrence map leaves the maps at the other addresses as they were. -/
theorem readOcc_assign_ne (heap : OccHeap) {a a' : Nat} (m : GoMap DataType Bool)
    (h : a' ≠ a) : readOcc (assign heap a m) a' = readOcc heap a' := by
  simp [readOcc, index_assign_ne heap m h]

/-- Indexing the view of a column set. -/
theorem index_view (heap : OccHeap) (c : ColumnsRef) (n : String) :
    index (ColumnsRef.view heap c) n = (index c n).map (ColumnRef.view heap) := by
  induction c with
  | nil => rfl
  | cons p rest ih =>
    obtain ⟨k, col⟩ := p
    by_cases hk : k = n
    · simp [ColumnsRef.view, index, hk]
    · simpa [ColumnsRef.view, index, hk] using ih

/-- The view of a column set is the same in two heaps that agree on its maps. -/
theorem view_congr (heap heap1 : OccHeap) (c : ColumnsRef)
    (h : ∀ p ∈ c, readOcc heap1 p.2.typeOccurrence = readOcc heap p.2.typeOccurrence) :
    ColumnsRef.view heap1 c = ColumnsRef.view heap c := by
  induction c with
  | nil => rfl
  | cons p rest ih =>
    have h0 := h p (List.mem_cons_self _ _)
    simp only [ColumnsRef.view, List.map_cons, List.cons.injEq, Prod.mk.injEq, true_and]
    exact ⟨by simp only [ColumnRef.view, h0],
      ih (fun q hq => h q (List.mem_cons_of_mem _ hq))⟩

/-- The view of a column set after an assignment, when the views of the entries of
the other names agree in the two heaps. -/
theorem view_assign (heap heap1 : OccHeap) (c : ColumnsRef) (n : String) (col : ColumnRef)
    (hwf : WF c)
    (h : ∀ p ∈ c, p.1 ≠ n →
      readOcc heap1 p.2.typeOccurrence = readOcc heap p.2.typeOccurrence) :
    ColumnsRef.view heap1 (assign c n col) =
      assign (ColumnsRef.view heap c) n (col.view heap1) := by
  induction c with
  | nil => rfl
  | cons p rest ih =>
    obtain ⟨k, col0⟩ := p
    simp only [WF, keys, List.map_cons, List.nodup_cons] at hwf
    by_cases hk : k = n
    · subst hk
      have hrest : ColumnsRef.view heap1 rest = ColumnsRef.view heap rest := by
        apply view_congr
        intro p hp
        apply h p (List.mem_cons_of_mem _ hp)
        intro e
        exact hwf.1 (e ▸ List.mem_map_of_mem Prod.fst hp)
      have h1 : ColumnsRef.view heap1 ((k, col) :: rest) =
          (k, col.view heap1) :: ColumnsRef.view heap1 rest := rfl
      have h2 : ColumnsRef.view heap ((k, col0) :: rest) =
          (k, col0.view heap) :: ColumnsRef.view heap rest := rfl
      simp only [assign, if_true, h1, h2, hrest]
      rfl
    · have ih1 := ih hwf.2 (fun p hp => h p (List.mem_cons_of_mem _ hp))
      have h0 := h (k, col0) (List.mem_cons_self _ _) hk
      have h1 : ColumnsRef.view heap1 ((k, col0) :: assign rest n col) =
          (k, col0.view heap1) :: ColumnsRef.view heap1 (assign rest n col) := rfl
      have h2 : ColumnsRef.view heap ((k, col0) :: rest) =
          (k, col0.view heap) :: ColumnsRef.view heap rest := rfl
      have h3 : col0.view heap1 = col0.view heap := by simp only [ColumnRef.view, h0]
      simp only [assign, hk, if_false, h1, h2, ih1, h3]
      rfl

/-- The inner loop of `Merge` over the heap, for a column whose occurrence map no
column of another name in the receiver refers to: by value it is the inner loop on
the views, it writes to no map but that of the column, and every entry of the
receiver keeps its name and its map. -/
theorem mergeOccurrencesRef_view (n : String) (occs : List (DataType × Bool)) :
    ∀ (cur : ColumnRef) (heap : OccHeap) (c : ColumnsRef), WF c → index c n = some cur →
      (∀ p ∈ c, p.2.typeOccurrence = cur.typeOccurrence → p.1 = n) →
      ColumnsRef.view (mergeOccurrencesRef n occs cur (heap, c)).1
          (mergeOccurrencesRef n occs cur (heap, c)).2 =
        mergeOccurrences n occs (cur.view heap) (ColumnsRef.view heap c) ∧
      (∀ a, a ≠ cur.typeOccurrence →
        readOcc (mergeOccurrencesRef n occs cur (heap, c)).1 a = readOcc heap a) ∧
      (∀ p ∈ (mergeOccurrencesRef n occs cur (heap, c)).2,
        ∃ q ∈ c, q.1 = p.1 ∧ q.2.typeOccurrence = p.2.typeOccurrence) ∧
      WF (mergeOccurrencesRef n occs cur (heap, c)).2 := by
  induction occs with
  | nil =>
    intro cur heap c hwf _ _
    exact ⟨rfl, fun _ _ => rfl, fun p hp => ⟨p, hp, rfl, rfl⟩, hwf⟩
  | cons q rest ih =>
    obtain ⟨t, b⟩ := q
    intro cur heap c hwf hidx hsep
    cases ht : index (readOcc heap cur.typeOccurrence) t with
    | some v =>
      have hv : index (cur.view heap).typeOccurrence t = some v := ht
      simp only [mergeOccurrencesRef, mergeOccurrences, ht, hv]
      exact ih cur heap c hwf hidx hsep
    | none =>
      have hv : index (cur.view heap).typeOccurrence t = none := ht
      simp only [mergeOccurrencesRef, mergeOccurrences, ht, hv]
      have hmem : (n, cur) ∈ c := mem_of_index_eq_some hidx
      have hsep1 : ∀ p ∈ assign c n { cur with dataType := none },
          p.2.typeOccurrence = cur.typeOccurrence → p.1 = n := by
        intro p hp ha
        rcases mem_assign hp with h1 | h1
        · exact hsep p h1 ha
        · rw [h1]
      obtain ⟨ih1, ih2, ih3, ih4⟩ := ih { cur with dataType := none }
        (assign heap cur.typeOccurrence (assign (readOcc heap cur.typeOccurrence) t true))
        (assign c n { cur with dataType := none }) (WF_assign hwf _ _)
        (index_assign_same _ _ _) hsep1
      refine ⟨?_, ?_, ?_, ih4⟩
      · rw [ih1]
        congr 1
        · simp [ColumnRef.view, readOcc_assign_same]
        · rw [view_assign heap _ c n _ hwf]
          · simp [ColumnRef.view, readOcc_assign_same]
          · intro p hp hne
            exact readOcc_assign_ne heap _ (fun ha => hne (hsep p hp ha))
      · intro a ha
        rw [ih2 a ha]
        exact readOcc_assign_ne heap _ ha
      · intro p hp
        obtain ⟨q, hq, hq1, hq2⟩ := ih3 p hp
        rcases mem_assign hq with h1 | h1
        · exact ⟨q, h1, hq1, hq2⟩
        · refine ⟨(n, cur), hmem, ?_, ?_⟩
          · rw [← hq1, h1]
          · rw [← hq2, h1]

/-- The loop over `other` of `Merge` over the heap is, by value, the loop on the views,
when no occurrence map is referred to under two different column names. -/
theorem mergeLoopRef_view : ∀ (other : ColumnsRef) (heap : OccHeap) (c : ColumnsRef),
    WF c → WF other → Separated c other →
    ColumnsRef.view (mergeLoopRef other (heap, c)).1 (mergeLoopRef other (heap, c)).2 =
      mergeLoop (ColumnsRef.view heap other) (ColumnsRef.view heap c) := by
  intro other
  induction other with
  | nil => intro heap c _ _ _; rfl
  | cons q rest ih =>
    obtain ⟨n, oc⟩ := q
    intro heap c hwfc hwf hsep
    have hwf' : WF rest := by
      simp only [WF, keys, List.map_cons, List.nodup_cons] at hwf
      exact hwf.2
    have hn : ∀ p ∈ rest, p.1 ≠ n := by
      simp only [WF, keys, List.map_cons, List.nodup_cons] at hwf
      intro p hp e
      exact hwf.1 (e ▸ List.mem_map_of_mem Prod.fst hp)
    have hview : ColumnsRef.view heap ((n, oc) :: rest) =
        (n, oc.view heap) :: ColumnsRef.view heap rest := rfl
    cases hidx : index c n with
    | none =>
      have hidxv : index (ColumnsRef.view heap c) n = none := by
        rw [index_view, hidx]; rfl
      simp only [mergeLoopRef, hview, mergeLoop, hidx, hidxv]
      have hsep' : Separated (assign c n oc) rest := by
        refine ⟨fun p hp p' hp' ha => ?_, fun p hp p' hp' ha => ?_,
          fun p hp p' hp' ha => ?_⟩
        · rcases mem_assign hp with h1 | h1 <;> rcases mem_assign hp' with h2 | h2
          · exact hsep.1 p h1 p' h2 ha
          · rw [h2] at ha ⊢
            exact hsep.2.2 p h1 (n, oc) (List.mem_cons_self _ _) ha
          · rw [h1] at ha ⊢
            exact (hsep.2.2 p' h2 (n, oc) (List.mem_cons_self _ _) ha.symm).symm
          · rw [h1, h2]
        · exact hsep.2.1 p (List.mem_cons_of_mem _ hp) p' (List.mem_cons_of_mem _ hp') ha
        · rcases mem_assign hp with h1 | h1
          · exact hsep.2.2 p h1 p' (List.mem_cons_of_mem _ hp') ha
          · rw [h1] at ha ⊢
            exact hsep.2.1 (n, oc) (List.mem_cons_self _ _) p' (List.mem_cons_of_mem _ hp') ha
      rw [ih heap (assign c n oc) (WF_assign hwfc _ _) hwf' hsep',
        view_assign heap heap c n oc hwfc (fun _ _ _ => rfl)]
      rfl
    | some cur =>
      have hidxv : index (ColumnsRef.view heap c) n = some (cur.view heap) := by
        rw [index_view, hidx]; rfl
      simp only [mergeLoopRef, hview, mergeLoop, hidx, hidxv]
      have hmem : (n, cur) ∈ c := mem_of_index_eq_some hidx
      obtain ⟨h1, h2, h3, h4⟩ := mergeOccurrencesRef_view n (readOcc heap oc.typeOccurrence)
        cur heap c hwfc hidx (fun p hp ha => hsep.1 p hp (n, cur) hmem ha)
      have hsep' : Separated
          (mergeOccurrencesRef n (readOcc heap oc.typeOccurrence) cur (heap, c)).2 rest := by
        refine ⟨fun p hp p' hp' ha => ?_, fun p hp p' hp' ha => ?_,
          fun p hp p' hp' ha => ?_⟩
        · obtain ⟨q, hq, hq1, hq2⟩ := h3 p hp
          obtain ⟨q', hq', hq1', hq2'⟩ := h3 p' hp'
          rw [← hq1, ← hq1']
          exact hsep.1 q hq q' hq' (by rw [hq2, hq2', ha])
        · exact hsep.2.1 p (List.mem_cons_of_mem _ hp) p' (List.mem_cons_of_mem _ hp') ha
        · obtain ⟨q, hq, hq1, hq2⟩ := h3 p hp
          rw [← hq1]
          exact hsep.2.2 q hq p' (List.mem_cons_of_mem _ hp') (by rw [hq2, ha])
      have hrest : ColumnsRef.view
          (mergeOccurrencesRef n (readOcc heap oc.typeOccurrence) cur (heap, c)).1 rest =
          ColumnsRef.view heap rest := by
        apply view_congr
        intro p hp
        apply h2
        intro ha
        exact hn p hp (hsep.2.2 (n, cur) hmem p (List.mem_cons_of_mem _ hp) ha.symm).symm
      have := ih (mergeOccurrencesRef n (readOcc heap oc.typeOccurrence) cur (heap, c)).1
        (mergeOccurrencesRef n (readOcc heap oc.typeOccurrence) cur (heap, c)).2 h4 hwf' hsep'
      rw [this, hrest, h1]
      rfl

/-- The two embeddings of `Merge` agree on the receiver: when no occurrence map is
referred to under two different column names, the receiver after the call over the
heap is, by value, the result of `Columns.Merge` on the values of the two column
sets before the call. -/
theorem MergeRef_view (heap : OccHeap) (c other : ColumnsRef) (hwfc : WF c)
    (hwf : WF other) (hsep : Separated c other) :
    ColumnsRef.view (ColumnsRef.Merge heap c other).1 (ColumnsRef.Merge heap c other).2 =
      Columns.Merge (ColumnsRef.view heap c) (ColumnsRef.view heap other) :=
  mergeLoopRef_view other heap c hwfc hwf hsep

/-- By value, `NewColumn` establishes the column invariant and one call of `Merge`
preserves it in the receiver: when every column of `c` and of `other` has a non-empty
occurrence map and a memoized type, if set, equal to the fold of `gca` over its
occurrences, so has every column of `Columns.Merge c other`; each of them is a column
of `c` or of `other` as it was, or has its memoized type cleared. -/
theorem merge_value_preserves_invariant (gca : DataType → DataType → DataType)
    (c other : Columns)
    (hc : ∀ p ∈ c, ColumnInvariant gca p.2) (ho : ∀ p ∈ other, ColumnInvariant gca p.2) :
    (∀ t, ColumnInvariant gca (NewColumn t)) ∧
    (∀ p ∈ Columns.Merge c other, ColumnInvariant gca p.2) ∧
    (∀ p ∈ Columns.Merge c other, p ∈ c ∨ p ∈ other ∨ p.2.dataType = none) := by
  refine ⟨fun t => ?_, fun p hp => ?_, fun p hp => ?_⟩
  · refine ⟨by simp [NewColumn], fun t' ht' => ?_⟩
    simp only [NewColumn, Option.some.injEq] at ht'
    simp [NewColumn, keys, foldTypes, ht']
  · rcases mem_mergeLoop other c p hp with h | h | h
    · exact hc p h
    · exact ho p h
    · refine ⟨h.2, fun t ht => ?_⟩
      rw [h.1] at ht
      cases ht
  · rcases mem_mergeLoop other c p hp with h | h | h
    · exact Or.inl h
    · exact Or.inr (Or.inl h)
    · exact Or.inr (Or.inr h.1)

/-- Over the heap, one call of `Merge` preserves the column invariant in the receiver
when no occurrence map is referred to under two different column names. -/
theorem MergeRef_preserves_invariant_of_separated (gca : DataType → DataType → DataType)
    (heap : OccHeap) (c other : ColumnsRef) (hwfc : WF c) (hwf : WF other)
    (hsep : Separated c other)
    (hc : ∀ p ∈ ColumnsRef.view heap c, ColumnInvariant gca p.2)
    (ho : ∀ p ∈ ColumnsRef.view heap other, ColumnInvariant gca p.2) :
    ∀ p ∈ ColumnsRef.view (ColumnsRef.Merge heap c other).1 (ColumnsRef.Merge heap c other).2,
      ColumnInvariant gca p.2 := by
  rw [MergeRef_view heap c other hwfc hwf hsep]
  exact (merge_value_preserves_invariant gca _ _ hc ho).2.1

/-- The two embeddings of `Merge` on `b = {x: NewColumn(INT64)}` and
`c = {x: NewColumn(FLOAT64)}`, whose columns refer to two maps; the column sets
`{x: col}` and `{x: NewColumn(FLOAT64), y: col}` refer to the map of `col` under the
two names `x` and `y`. -/
theorem MergeRef_view_instance :
    WF columnsRefB ∧ WF columnsRefC ∧ Separated columnsRefB columnsRefC ∧
    ColumnsRef.view (ColumnsRef.Merge heapIntFloat columnsRefB columnsRefC).1
        (ColumnsRef.Merge heapIntFloat columnsRefB columnsRefC).2 =
      Columns.Merge [("x", NewColumn .INT64)] [("x", NewColumn .FLOAT64)] ∧
    ¬ Separated columnsRefB columnsRefXY := by
  have hsep : Separated columnsRefB columnsRefC := by
    refine ⟨?_, ?_, ?_⟩ <;> intro p hp q hq _ <;>
      simp only [columnsRefB, columnsRefC, List.mem_singleton] at hp hq <;>
      rw [hp, hq]
  refine ⟨by decide, by decide, hsep,
    MergeRef_view heapIntFloat columnsRefB columnsRefC (by decide) (by decide) hsep, ?_⟩
  intro h
  have h1 := h.2.2 ("x", (NewColumnRef [] .INT64).2) (by simp [columnsRefB])
    ("y", (NewColumnRef [] .INT64).2) (by simp [columnsRefXY]) rfl
  exact absurd h1 (by decide)

/-- C14, the behaviour of the code: `Merge` does not preserve the column invariant,
because the branch `c[otherName] = otherColumn` makes the receiver's column share the
occurrence map of the column of `other`, and the wipe of the memoized type reaches
only the receiver's entry.  For `a = {}`, `b = {x: NewColumn(INT64)}` and
`c = {x: NewColumn(FLOAT64)}`, all of whose columns satisfy the invariant, after
`a.Merge(b); a.Merge(c)` the column `x` of `b` has the memoized type `INT64` and the
occurrences `INT64` and `FLOAT64`: its memoized type is neither cleared nor the fold
of its occurrences, `GetType` returns `INT64` for it, and a further `b.Merge(a)`
leaves it so in its receiver.  A single call breaks the invariant in its receiver
when a column is passed under two names: for `col = NewColumn(INT64)`, the call
`{x: col}.Merge({x: NewColumn(FLOAT64), y: col})` leaves `y` with the memoized type
`INT64` and both occurrences, in either order of enumeration. -/
theorem merge_leaves_stale_type_in_shared_column :
    ColumnsRef.view heapIntFloat columnsRefB = [("x", NewColumn .INT64)] ∧
    ColumnsRef.view heapIntFloat columnsRefC = [("x", NewColumn .FLOAT64)] ∧
    (∀ gca t, ColumnInvariant gca (NewColumn t)) ∧
    afterMergeB = (heapIntFloat, columnsRefB) ∧
    ColumnsRef.view afterMergeBC.1 afterMergeBC.2 = [("x", columnIntFloat)] ∧
    ColumnsRef.view afterMergeBC.1 columnsRefB = [("x", columnStaleInt)] ∧
    (∀ gca, ColumnInvariant gca columnStaleInt →
      gca DataType.INT64 DataType.FLOAT64 = DataType.INT64) ∧
    ¬ ColumnInvariant GetCommonAncestorType columnStaleInt ∧
    columnStaleInt.GetType GetCommonAncestorType = DataType.INT64 ∧
    foldTypes GetCommonAncestorType (keys columnStaleInt.typeOccurrence) = DataType.FLOAT64 ∧
    ColumnsRef.view (ColumnsRef.Merge afterMergeBC.1 columnsRefB afterMergeBC.2).1
        (ColumnsRef.Merge afterMergeBC.1 columnsRefB afterMergeBC.2).2 =
      [("x", columnStaleInt)] ∧
    ColumnsRef.view heapIntFloat columnsRefXY =
      [("x", NewColumn .FLOAT64), ("y", NewColumn .INT64)] ∧
    ColumnsRef.view (ColumnsRef.Merge heapIntFloat columnsRefB columnsRefXY).1
        (ColumnsRef.Merge heapIntFloat columnsRefB columnsRefXY).2 =
      [("x", columnIntFloat), ("y", columnStaleInt)] ∧
    ColumnsRef.view (ColumnsRef.Merge heapIntFloat columnsRefB columnsRefYX).1
        (ColumnsRef.Merge heapIntFloat columnsRefB columnsRefYX).2 =
      [("x", columnIntFloat), ("y", columnStaleInt)] := by
  have hstale : ∀ gca, ColumnInvariant gca columnStaleInt →
      gca DataType.INT64 DataType.FLOAT64 = DataType.INT64 := by
    intro gca h
    have h1 := h.2 DataType.INT64 rfl
    simpa [columnStaleInt, keys, foldTypes] using h1.symm
  refine ⟨by decide, by decide, fun gca t => ?_, by decide, by decide, by decide, hstale,
    fun h => ?_, by decide, by decide, by decide, by decide, by decide, by decide⟩
  · refine ⟨by simp [NewColumn], fun t' ht' => ?_⟩
    simp only [NewColumn, Option.some.injEq] at ht'
    simp [NewColumn, keys, foldTypes, ht']
  · exact absurd (hstale _ h) (by decide)

/-- C15, the behaviour of the code: `GetType` returns the fold of the occurrences but
leaves the column it is called on as it was, its `dataType` still unset; the store of
the result goes into the method's own copy of the column.  So for the column `a` of
`{a:INT64}` merged with `{a:FLOAT64}`, `GetType` returns `FLOAT64` and the column's
`dataType` is nil after the call. -/
theorem getType_leaves_column_unmemoized :
    (∀ (gca : DataType → DataType → DataType) (c : Column),
      (Column.GetTypeCall gca c).receiver = c ∧
      (Column.GetTypeCall gca c).ret = c.GetType gca) ∧
    index (Columns.Merge [("a", NewColumn .INT64)] [("a", NewColumn .FLOAT64)]) "a" =
      some columnIntFloat ∧
    (Column.GetTypeCall GetCommonAncestorType columnIntFloat).ret = DataType.FLOAT64 ∧
    (Column.GetTypeCall GetCommonAncestorType columnIntFloat).receiver.dataType = none ∧
    (Column.GetTypeCall GetCommonAncestorType columnIntFloat).calleeCopy.dataType =
      some DataType.FLOAT64 := by
  refine ⟨fun gca c => ?_, by decide, by decide, by decide, by decide⟩
  unfold Column.GetTypeCall Column.GetType
  cases hd : c.dataType with
  | some t => exact ⟨rfl, rfl⟩
  | none =>
    simp only []
    cases hk : keys c.typeOccurrence with
    | nil => exact ⟨rfl, rfl⟩
    | cons t0 rest => exact ⟨rfl, rfl⟩

/-- The fold of a commutative and associative `gca` does not depend on the order of
the types. -/
theorem foldTypes_perm (gca : DataType → DataType → DataType)
    (hcomm : ∀ a b, gca a b = gca b a) (hassoc : ∀ a b d, gca (gca a b) d = gca a (gca b d))
    {l l' : List DataType} (h : l.Perm l') : foldTypes gca l = foldTypes gca l' := by
  have hrc : ∀ x y z, gca (gca z x) y = gca (gca z y) x := by
    intro x y z
    rw [hassoc, hassoc, hcomm x y]
  induction h with
  | nil => rfl
  | cons x p _ =>
    simp only [foldTypes]
    exact p.foldl_eq' (fun a _ b _ z => hrc a b z) x
  | swap x y l =>
    simp only [foldTypes, List.foldl_cons]
    rw [hcomm x y]
  | trans _ _ ih1 ih2 => exact ih1.trans ih2

/-- The value of `GetType`, case by case. -/
theorem GetType_eq (gca : DataType → DataType → DataType) (c : Column) :
    c.GetType gca =
      match c.dataType with
      | some t => t
      | none => foldTypes gca (keys c.typeOccurrence) := by
  unfold Column.GetType
  cases c.dataType with
  | some t => rfl
  | none =>
    simp only []
    cases keys c.typeOccurrence <;> rfl

/-- The common ancestor of the specification is commutative and associative. -/
theorem GetCommonAncestorType_comm_assoc :
    (∀ a b, GetCommonAncestorType a b = GetCommonAncestorType b a) ∧
    (∀ a b d, GetCommonAncestorType (GetCommonAncestorType a b) d =
      GetCommonAncestorType a (GetCommonAncestorType b d)) := by
  constructor
  · intro a b
    cases a <;> cases b <;> rfl
  · intro a b d
    cases a <;> cases b <;> cases d <;> rfl

/-- C16: `GetType` returns the memoized `dataType` when it is set; otherwise `UNKNOWN`
when there is no type occurrence, and otherwise the fold of `gca` over the
occurrences in the order of enumeration; and when `gca` is commutative and
associative the result is the same for every order of enumeration. -/
theorem getType_value (gca : DataType → DataType → DataType) (c : Column) :
    (∀ t, c.dataType = some t → c.GetType gca = t) ∧
    (c.dataType = none → c.typeOccurrence = [] → c.GetType gca = DataType.UNKNOWN) ∧
    (∀ t0 rest, c.dataType = none → keys c.typeOccurrence = t0 :: rest →
      c.GetType gca = rest.foldl gca t0) ∧
    ((∀ a b, gca a b = gca b a) → (∀ a b d, gca (gca a b) d = gca a (gca b d)) →
      ∀ c' : Column, c'.dataType = c.dataType → c'.typeOccurrence.Perm c.typeOccurrence →
        c'.GetType gca = c.GetType gca) := by
  refine ⟨fun t h => ?_, fun h1 h2 => ?_, fun t0 rest h1 h2 => ?_,
    fun hcomm hassoc c' hd hp => ?_⟩
  · rw [GetType_eq, h]
  · rw [GetType_eq, h1, h2]
    rfl
  · rw [GetType_eq, h1, h2]
    rfl
  · rw [GetType_eq, GetType_eq, hd]
    cases c.dataType with
    | some t => rfl
    | none =>
      simp only []
      exact foldTypes_perm gca hcomm hassoc (hp.map Prod.fst)

/-- C16, instance: the occurrences `INT64, FLOAT64` enumerated in both orders. -/
theorem getType_value_witness :
    Column.GetType GetCommonAncestorType columnFloatInt =
      Column.GetType GetCommonAncestorType columnIntFloat ∧
    Column.GetType GetCommonAncestorType columnIntFloat = DataType.FLOAT64 :=
  ⟨(getType_value GetCommonAncestorType columnIntFloat).2.2.2
      GetCommonAncestorType_comm_assoc.1 GetCommonAncestorType_comm_assoc.2
      columnFloatInt rfl (List.Perm.swap _ _ _),
   by decide⟩

/-- C17: for an absent (nil) or empty (column-less) other table, `T.Diff(other)`
returns no error and the empty diff: a table named after `T` with no columns and nil
`PKFields`. -/
theorem diff_of_absent_or_empty (conv : DataType → DataType → Bool)
    (gca : DataType → DataType → DataType) (T : Table) (another : Option Table)
    (h : another = none ∨ ∃ o, another = some o ∧ o.Columns = []) :
    (T.Diff conv gca another).failed = false ∧
    (T.Diff conv gca another).diff? =
      some { Name := T.Name, Columns := [], PKFields := none, Version := 0 } := by
  rcases h with rfl | ⟨o, rfl, ho⟩
  · exact ⟨rfl, rfl⟩
  · rw [Diff_some_empty conv gca T o ho]
    exact ⟨rfl, rfl⟩

/-- C17, instance: the nil table and a table that only declares a primary key. -/
theorem diff_of_absent_or_empty_witness :
    (tableS3.Diff IsConvertible GetCommonAncestorType none).diff? =
      some { Name := "events", Columns := [], PKFields := none, Version := 0 } ∧
    (tableS3.Diff IsConvertible GetCommonAncestorType (some pkOnlyTable)).diff? =
      some { Name := tableS3.Name, Columns := [], PKFields := none, Version := 0 } :=
  ⟨(diff_of_absent_or_empty IsConvertible GetCommonAncestorType tableS3 none (Or.inl rfl)).2,
   (diff_of_absent_or_empty IsConvertible GetCommonAncestorType tableS3 (some pkOnlyTable)
      (Or.inr ⟨pkOnlyTable, rfl, rfl⟩)).2⟩

/-- C18: `t.Exists()` is true exactly when `t` is not nil and the table has at least
one column or a non-nil `PKFields`; a non-nil but empty `PKFields` counts. -/
theorem exists_iff (t : Option Table) :
    (Table.Exists t = true ↔
      ∃ tb, t = some tb ∧ (tb.Columns ≠ [] ∨ tb.PKFields ≠ none)) ∧
    Table.Exists (some { Name := "events", Columns := [], PKFields := some [], Version := 0 }) =
      true ∧
    Table.Exists (some { Name := "events", Columns := [], PKFields := none, Version := 0 }) =
      false ∧
    Table.Exists none = false := by
  refine ⟨?_, by decide, by decide, by decide⟩
  cases t with
  | none => simp [Table.Exists]
  | some tb =>
    simp only [Table.Exists, Bool.or_eq_true, decide_eq_true_eq, Option.some.injEq,
      exists_eq_left', List.length_pos, ne_eq]
    cases tb.PKFields <;> simp

/-- The rearrangement made by `sort.Strings` is ascending. -/
theorem sorted_sortStrings (xs : List String) : List.Sorted strLe (sortStrings xs) :=
  @List.sorted_insertionSort String strLe _
    ⟨fun a b => le_total a.toList b.toList⟩
    ⟨fun a _ _ h1 h2 => le_trans (a := a.toList) h1 h2⟩ xs

/-- The rearrangement made by `sort.Strings` keeps the elements. -/
theorem perm_sortStrings (xs : List String) : (sortStrings xs).Perm xs :=
  List.perm_insertionSort strLe xs

/-- The two `PKFields` slices after `Diff`: sorted when the other table has a column,
no type error is raised and the lengths agree, untouched otherwise. -/
theorem Diff_pk_after (conv : DataType → DataType → Bool)
    (gca : DataType → DataType → DataType) (T O : Table) :
    ((O.Columns ≠ [] ∧ (T.Diff conv gca (some O)).failed = false ∧
        sliceLen T.PKFields = sliceLen O.PKFields) →
      (T.Diff conv gca (some O)).receiverPK = T.PKFields.map sortStrings ∧
      (T.Diff conv gca (some O)).anotherPK = O.PKFields.map sortStrings) ∧
    (¬ (O.Columns ≠ [] ∧ (T.Diff conv gca (some O)).failed = false ∧
        sliceLen T.PKFields = sliceLen O.PKFields) →
      (T.Diff conv gca (some O)).receiverPK = T.PKFields ∧
      (T.Diff conv gca (some O)).anotherPK = O.PKFields) := by
  by_cases hne : O.Columns = []
  · rw [Diff_some_empty conv gca T O hne]
    constructor
    · intro h
      exact absurd hne h.1
    · intro _
      exact ⟨rfl, rfl⟩
  · rw [Diff_some_nonempty conv gca T O hne]
    cases hl : diffLoop conv gca T O.Columns [] with
    | error e =>
      constructor
      · intro h
        simp [DiffOutcome.failed] at h
      · intro _
        exact ⟨rfl, rfl⟩
    | ok cols =>
      have h1 := primaryKeyFieldsEqual_snd_fst T.PKFields O.PKFields
      have h2 := primaryKeyFieldsEqual_snd_snd T.PKFields O.PKFields
      by_cases hlen : sliceLen T.PKFields = sliceLen O.PKFields
      · rw [if_pos hlen] at h1 h2
        constructor
        · intro _
          exact ⟨h1, h2⟩
        · intro h
          exact absurd ⟨hne, rfl, hlen⟩ h
      · rw [if_neg hlen] at h1 h2
        constructor
        · intro h
          exact absurd h.2.2 hlen
        · intro _
          exact ⟨h1, h2⟩

/-- C21: `Diff` leaves the column maps of the receiver and of the other table as they
were and keeps the elements of each table's `PKFields`, but may reorder them: when the
other table has at least one column, no type error is raised and the two `PKFields`
have the same length, both are left sorted in ascending order; in every other case
both are left exactly as they were. -/
theorem diff_frame (conv : DataType → DataType → Bool)
    (gca : DataType → DataType → DataType) (T : Table) (another : Option Table) :
    (T.Diff conv gca another).receiverColumns = T.Columns ∧
    (T.Diff conv gca another).anotherColumns = another.map Table.Columns ∧
    (sliceElems (T.Diff conv gca another).receiverPK).Perm (sliceElems T.PKFields) ∧
    (T.Diff conv gca another).receiverPK.isSome = T.PKFields.isSome ∧
    (another = none → (T.Diff conv gca another).receiverPK = T.PKFields) ∧
    (∀ O, another = some O →
      (sliceElems (T.Diff conv gca another).anotherPK).Perm (sliceElems O.PKFields) ∧
      (T.Diff conv gca another).anotherPK.isSome = O.PKFields.isSome ∧
      ((O.Columns ≠ [] ∧ (T.Diff conv gca another).failed = false ∧
          sliceLen T.PKFields = sliceLen O.PKFields) →
        (T.Diff conv gca another).receiverPK = T.PKFields.map sortStrings ∧
        (T.Diff conv gca another).anotherPK = O.PKFields.map sortStrings ∧
        List.Sorted strLe (sliceElems (T.Diff conv gca another).receiverPK) ∧
        List.Sorted strLe (sliceElems (T.Diff conv gca another).anotherPK)) ∧
      (¬ (O.Columns ≠ [] ∧ (T.Diff conv gca another).failed = false ∧
          sliceLen T.PKFields = sliceLen O.PKFields) →
        (T.Diff conv gca another).receiverPK = T.PKFields ∧
        (T.Diff conv gca another).anotherPK = O.PKFields)) := by
  cases another with
  | none =>
    refine ⟨rfl, rfl, List.Perm.refl _, rfl, fun _ => rfl, fun O h => ?_⟩
    cases h
  | some O =>
    have hcols : (T.Diff conv gca (some O)).receiverColumns = T.Columns ∧
        (T.Diff conv gca (some O)).anotherColumns = some O.Columns := by
      by_cases hne : O.Columns = []
      · rw [Diff_some_empty conv gca T O hne]
        exact ⟨rfl, rfl⟩
      · rw [Diff_some_nonempty conv gca T O hne]
        cases diffLoop conv gca T O.Columns [] <;> exact ⟨rfl, rfl⟩
    obtain ⟨hsorted, hsame⟩ := Diff_pk_after conv gca T O
    have hpk : ((T.Diff conv gca (some O)).receiverPK = T.PKFields.map sortStrings ∧
          (T.Diff conv gca (some O)).anotherPK = O.PKFields.map sortStrings) ∨
        ((T.Diff conv gca (some O)).receiverPK = T.PKFields ∧
          (T.Diff conv gca (some O)).anotherPK = O.PKFields) := by
      by_cases hc : O.Columns ≠ [] ∧ (T.Diff conv gca (some O)).failed = false ∧
          sliceLen T.PKFields = sliceLen O.PKFields
      · exact Or.inl (hsorted hc)
      · exact Or.inr (hsame hc)
    have hperm : ∀ s : Option (List String),
        (sliceElems (s.map sortStrings)).Perm (sliceElems s) := by
      intro s
      rw [sliceElems_map_sort]
      exact perm_sortStrings _
    have hsome : ∀ s : Option (List String), (s.map sortStrings).isSome = s.isSome := by
      intro s
      cases s <;> rfl
    refine ⟨hcols.1, hcols.2, ?_, ?_, (fun h => by cases h), fun O' h => ?_⟩
    · rcases hpk with h | h
      · rw [h.1]
        exact hperm _
      · rw [h.1]
    · rcases hpk with h | h
      · rw [h.1]
        exact hsome _
      · rw [h.1]
    · cases h
      refine ⟨?_, ?_, fun hc => ?_, hsame⟩
      · rcases hpk with h | h
        · rw [h.2]
          exact hperm _
        · rw [h.2]
      · rcases hpk with h | h
        · rw [h.2]
          exact hsome _
        · rw [h.2]
      · obtain ⟨h1, h2⟩ := hsorted hc
        refine ⟨h1, h2, ?_, ?_⟩
        · rw [h1, sliceElems_map_sort]
          exact sorted_sortStrings _
        · rw [h2, sliceElems_map_sort]
          exact sorted_sortStrings _

/-- C21, instance: primary keys `b, a` against `d, c` are left as `a, b` and `c, d`. -/
theorem diff_frame_witness :
    (otherPKdc.Columns ≠ [] ∧
      (tablePKba.Diff IsConvertible GetCommonAncestorType (some otherPKdc)).failed = false ∧
      sliceLen tablePKba.PKFields = sliceLen otherPKdc.PKFields) ∧
    (tablePKba.Diff IsConvertible GetCommonAncestorType (some otherPKdc)).receiverPK =
      some ["a", "b"] ∧
    (tablePKba.Diff IsConvertible GetCommonAncestorType (some otherPKdc)).anotherPK =
      some ["c", "d"] ∧
    List.Sorted strLe
      (sliceElems (tablePKba.Diff IsConvertible GetCommonAncestorType
        (some otherPKdc)).receiverPK) :=
  ⟨by decide, by decide, by decide,
   (((diff_frame IsConvertible GetCommonAncestorType tablePKba
      (some otherPKdc)).2.2.2.2.2 otherPKdc rfl).2.2.1 (by decide)).2.2.1⟩

/-- The inner loop of `Merge` changes nothing when every occurrence is known. -/
theorem mergeOccurrences_of_subset (name : String) (ts : List (DataType × Bool))
    (cur : Column) (c : Columns) (h : ∀ t ∈ keys ts, cur.occurs t) :
    mergeOccurrences name ts cur c = c := by
  induction ts with
  | nil => rfl
  | cons p rest ih =>
    obtain ⟨t1, b1⟩ := p
    have h1 : cur.occurs t1 := h t1 (by simp [keys])
    unfold Column.occurs at h1
    rw [mem_keys_iff_index] at h1
    cases hidx : index cur.typeOccurrence t1 with
    | none => simp [hidx] at h1
    | some v =>
      simp only [mergeOccurrences, hidx]
      exact ih (fun t ht => h t (by
        simp only [keys, List.map_cons, List.mem_cons]
        exact Or.inr ht))

/-- The loop of `Merge` changes nothing when the receiver has every column of the
other map with every occurrence of it. -/
theorem mergeLoop_of_covered (other : List (String × Column)) (c : Columns)
    (h : ∀ p ∈ other, ∃ col, index c p.1 = some col ∧
      ∀ t ∈ keys p.2.typeOccurrence, col.occurs t) :
    mergeLoop other c = c := by
  induction other with
  | nil => rfl
  | cons p rest ih =>
    obtain ⟨n, oc⟩ := p
    obtain ⟨col, hcol, hsub⟩ := h (n, oc) (List.mem_cons_self _ _)
    simp only [mergeLoop, hcol]
    rw [mergeOccurrences_of_subset n _ col c hsub]
    exact ih (fun q hq => h q (List.mem_cons_of_mem _ hq))

end schema

namespace typing

/-- C19: on the four known types `StringFromType` succeeds with `integer`, `double`,
`string`, `timestamp` and `TypeFromString` of that name returns the type;
`StringFromType(UNKNOWN)` fails; and `TypeFromString` fails with
`Unknown casting type: ` followed by its input on every string that, trimmed and
lower-cased, is none of the four names. -/
theorem stringFromType_inverse :
    (StringFromType .INT64 = .ok "integer" ∧ TypeFromString "integer" = .ok .INT64) ∧
    (StringFromType .FLOAT64 = .ok "double" ∧ TypeFromString "double" = .ok .FLOAT64) ∧
    (StringFromType .STRING = .ok "string" ∧ TypeFromString "string" = .ok .STRING) ∧
    (StringFromType .TIMESTAMP = .ok "timestamp" ∧
      TypeFromString "timestamp" = .ok .TIMESTAMP) ∧
    (∀ (t : DataType) (s : String), StringFromType t = .ok s → TypeFromString s = .ok t) ∧
    StringFromType .UNKNOWN = .error "Unable to get string from DataType for: UNKNOWN" ∧
    (∀ s : String, normalizeTypeName s ∉ ["integer", "double", "string", "timestamp"] →
      TypeFromString s = .error ("Unknown casting type: " ++ s)) ∧
    TypeFromString " InTeGer " = .ok .INT64 := by
  refine ⟨⟨rfl, rfl⟩, ⟨rfl, rfl⟩, ⟨rfl, rfl⟩, ⟨rfl, rfl⟩, ?_, rfl, ?_, rfl⟩
  · intro t s h
    cases t with
    | UNKNOWN => cases h
    | INT64 => cases h; rfl
    | FLOAT64 => cases h; rfl
    | STRING => cases h; rfl
    | TIMESTAMP => cases h; rfl
  · intro s hs
    simp only [List.mem_cons, List.mem_singleton, List.not_mem_nil, or_false, not_or] at hs
    simp only [TypeFromString, hs.1, hs.2.1, hs.2.2.1, hs.2.2.2, if_false]

/-- C19, instance: the unknown name `float`. -/
theorem stringFromType_inverse_witness :
    normalizeTypeName "float" ∉ ["integer", "double", "string", "timestamp"] ∧
    TypeFromString "float" = .error "Unknown casting type: float" :=
  ⟨by decide, stringFromType_inverse.2.2.2.2.2.2.1 "float" (by decide)⟩

end typing

namespace logfiles

variable {σ ω : Type}

/-- The state and the calls of a storage step do not depend on the incoming flag. -/
theorem storageStep_snd (u : PeriodicUploader σ) (fileName : String) (b : List UInt8)
    (deleteFile : Bool) (st : UState σ ω) (p : StorageProxy ω) :
    (storageStep u fileName b deleteFile st p).2 = (storageStep u fileName b true st p).2 := by
  unfold storageStep
  cases hg : p.Get st.world with
  | none => rfl
  | some storage =>
    simp only []
    by_cases hu : u.statusManager.isUploaded st.status fileName storage.Name = true
    · simp [hu]
    · simp [hu]

/-- The flag after a storage step: it stays set exactly when the proxy is live and the
destination is already uploaded or `Store` returns no error. -/
theorem storageStep_fst (u : PeriodicUploader σ) (fileName : String) (b : List UInt8)
    (deleteFile : Bool) (st : UState σ ω) (p : StorageProxy ω) :
    (storageStep u fileName b deleteFile st p).1 = true ↔
      (deleteFile = true ∧ ∃ storage, p.Get st.world = some storage ∧
        (u.statusManager.isUploaded st.status fileName storage.Name = true ∨
          (storage.Store fileName b st.world).1.2 = none)) := by
  unfold storageStep
  cases hg : p.Get st.world with
  | none => simp
  | some storage =>
    simp only [Option.some.injEq, exists_eq_left']
    by_cases hu : u.statusManager.isUploaded st.status fileName storage.Name = true
    · simp [hu]
    · rcases hs : storage.Store fileName b st.world with ⟨⟨rows, err⟩, w1⟩
      cases err <;> simp [hu, hs]

/-- The flag after the storage loop. -/
theorem storageLoop_fst (u : PeriodicUploader σ) (fileName : String) (b : List UInt8)
    (deleteFile : Bool) (st : UState σ ω) (ps : List (StorageProxy ω)) :
    (storageLoop u fileName b deleteFile st ps).1 = true ↔
      (deleteFile = true ∧ allAcknowledged u fileName b st ps) := by
  induction ps generalizing deleteFile st with
  | nil => simp [storageLoop, allAcknowledged]
  | cons p rest ih =>
    simp only [storageLoop, allAcknowledged]
    have h2 : (storageStep u fileName b deleteFile st p).2.1 =
        (storageStep u fileName b true st p).2.1 := by
      rw [storageStep_snd]
    rw [ih, storageStep_fst, h2]
    exact and_assoc

/-- Calls made by a storage step are never removals. -/
theorem storageStep_no_remove (u : PeriodicUploader σ) (fileName : String) (b : List UInt8)
    (deleteFile : Bool) (st : UState σ ω) (p : StorageProxy ω) (q : String)
    (e : Option String) :
    Action.remove q e ∉ (storageStep u fileName b deleteFile st p).2.2 := by
  unfold storageStep
  cases hg : p.Get st.world with
  | none => simp
  | some storage =>
    simp only []
    by_cases hu : u.statusManager.isUploaded st.status fileName storage.Name = true
    · simp [hu]
    · simp [hu]

/-- Calls made by the storage loop are never removals. -/
theorem storageLoop_no_remove (u : PeriodicUploader σ) (fileName : String) (b : List UInt8)
    (deleteFile : Bool) (st : UState σ ω) (ps : List (StorageProxy ω)) (q : String)
    (e : Option String) :
    Action.remove q e ∉ (storageLoop u fileName b deleteFile st ps).2.2 := by
  induction ps generalizing deleteFile st with
  | nil => simp [storageLoop]
  | cons p rest ih =>
    simp only [storageLoop, List.mem_append, not_or]
    exact ⟨storageStep_no_remove u fileName b deleteFile st p q e, ih _ _⟩

/-- C5: a closed log file that one pass of the uploader reads successfully is handed
to `os.Remove` exactly when its content is empty, or its name matches the filename
regex, its token has at least one storage proxy, every proxy yields a live storage
and every destination is already marked uploaded for the file or its `Store` call in
this pass returns no error. -/
theorem remove_attempted_iff (u : PeriodicUploader σ) (env : Env ω) (st : UState σ ω)
    (filePath : String) (b : List UInt8) (hread : env.ReadFile filePath st.world = .ok b) :
    (∃ err, Action.remove filePath err ∈ (processFile u env st filePath).2) ↔
      (b = [] ∨ ∃ m tokenId, env.FindStringSubmatch (env.Base filePath) = [m, tokenId] ∧
        env.GetStorages tokenId st.world ≠ [] ∧
        allAcknowledged u (env.Base filePath) b st (env.GetStorages tokenId st.world)) := by
  unfold processFile
  simp only [hread]
  by_cases hb : b = []
  · subst hb
    simp
  · have hlen : b.length ≠ 0 := fun h => hb (List.length_eq_zero.mp h)
    simp only [hlen, if_false, hb, false_or]
    split
    · rename_i m tokenId hre
      by_cases hst : env.GetStorages tokenId st.world = []
      · simp [hst, hre]
      · have hslen : (env.GetStorages tokenId st.world).length ≠ 0 :=
          fun h => hst (List.length_eq_zero.mp h)
        simp only [hslen, if_false]
        have hflag := storageLoop_fst u (env.Base filePath) b true st
          (env.GetStorages tokenId st.world)
        have hnorm := fun e => storageLoop_no_remove u (env.Base filePath) b true st
          (env.GetStorages tokenId st.world) filePath e
        rcases hloop : storageLoop u (env.Base filePath) b true st
          (env.GetStorages tokenId st.world) with ⟨flag, st1, acts⟩
        rw [hloop] at hflag hnorm
        simp only [true_and] at hflag
        cases flag with
        | false =>
          simp only [Bool.false_eq_true, false_iff] at hflag
          simp only []
          constructor
          · rintro ⟨e, he⟩
            exact absurd he (hnorm e)
          · rintro ⟨m', tok', hre', _, hack⟩
            rw [hre] at hre'
            simp only [List.cons.injEq, and_true] at hre'
            obtain ⟨_, rfl⟩ := hre'
            exact absurd hack hflag
        | true =>
          have hack := hflag.mp rfl
          simp only []
          constructor
          · intro _
            exact ⟨m, tokenId, hre, hst, hack⟩
          · intro _
            rcases hrm : env.Remove filePath st1.world with ⟨err, w2⟩
            cases err with
            | none => exact ⟨none, by simp⟩
            | some e => exact ⟨some e, by simp⟩
    · rename_i hno
      simp only [List.not_mem_nil, exists_false, false_iff]
      rintro ⟨m, tokenId, hre, _⟩
      exact hno m tokenId hre

/-- C5, instance: a file whose single destination accepts it is removed. -/
theorem remove_attempted_iff_witness :
    (demoEnv [okStorage "pg"]).ReadFile "events-a.log"
        (⟨([] : List (String × String × Bool)), ⟨[("events-a.log", [1, 2])], 0⟩⟩ :
          UState _ DemoWorld).world = .ok [1, 2] ∧
    ∃ err, Action.remove "events-a.log" err ∈
      (processFile (demoUploader specStatusManager) (demoEnv [okStorage "pg"])
        ⟨[], ⟨[("events-a.log", [1, 2])], 0⟩⟩ "events-a.log").2 :=
  ⟨rfl,
   (remove_attempted_iff (demoUploader specStatusManager) (demoEnv [okStorage "pg"])
      ⟨[], ⟨[("events-a.log", [1, 2])], 0⟩⟩ "events-a.log" [1, 2] rfl).mpr
     (Or.inr ⟨"events-a.log", "tok", by decide, by simp [demoEnv],
       ⟨⟨okStorage "pg", rfl, Or.inr rfl⟩, trivial⟩⟩)⟩

/-- A storage step extends a reachable history to a reachable history. -/
theorem storageStep_reach (u : PeriodicUploader σ) (env : Env ω) (s0 : σ) (fileName : String)
    (b : List UInt8) (deleteFile : Bool) (st : UState σ ω) (p : StorageProxy ω)
    (h : List Action) (hre : (env.FindStringSubmatch fileName).length = 2)
    (hr : Reach u env s0 st.status h) :
    Reach u env s0 (storageStep u fileName b deleteFile st p).2.1.status
      (h ++ (storageStep u fileName b deleteFile st p).2.2) := by
  unfold storageStep
  cases hg : p.Get st.world with
  | none => simpa using hr
  | some storage =>
    simp only []
    by_cases hu : u.statusManager.isUploaded st.status fileName storage.Name = true
    · simp only [hu, Bool.not_true, Bool.false_eq_true, if_false]
      exact Reach.skip fileName storage.Name hr hre hu
    · have hu' : u.statusManager.isUploaded st.status fileName storage.Name = false := by
        simpa using hu
      simp only [hu', Bool.not_false, if_true]
      exact Reach.store fileName storage.Name _ _ hr hre hu'

/-- The storage loop extends a reachable history to a reachable history. -/
theorem storageLoop_reach (u : PeriodicUploader σ) (env : Env ω) (s0 : σ) (fileName : String)
    (b : List UInt8) (deleteFile : Bool) (st : UState σ ω) (ps : List (StorageProxy ω))
    (h : List Action) (hre : (env.FindStringSubmatch fileName).length = 2)
    (hr : Reach u env s0 st.status h) :
    Reach u env s0 (storageLoop u fileName b deleteFile st ps).2.1.status
      (h ++ (storageLoop u fileName b deleteFile st ps).2.2) := by
  induction ps generalizing deleteFile st h with
  | nil => simpa [storageLoop] using hr
  | cons p rest ih =>
    simp only [storageLoop]
    have h1 := storageStep_reach u env s0 fileName b deleteFile st p h hre hr
    have h2 := ih (storageStep u fileName b deleteFile st p).1
      (storageStep u fileName b deleteFile st p).2.1 _ h1
    simpa [List.append_assoc] using h2

/-- Processing one file extends a reachable history to a reachable history. -/
theorem processFile_reach (u : PeriodicUploader σ) (env : Env ω) (s0 : σ) (st : UState σ ω)
    (filePath : String) (h : List Action) (hr : Reach u env s0 st.status h) :
    Reach u env s0 (processFile u env st filePath).1.status
      (h ++ (processFile u env st filePath).2) := by
  unfold processFile
  cases hread : env.ReadFile filePath st.world with
  | error e => simpa using hr
  | ok b =>
    simp only []
    by_cases hb : b.length = 0
    · simp only [hb, if_true]
      have hb' : b = [] := List.length_eq_zero.mp hb
      subst hb'
      exact Reach.removeEmpty filePath _ hr ⟨st.world, hread⟩
    · simp only [hb, if_false]
      split
      · rename_i m tokenId hre
        have hre2 : (env.FindStringSubmatch (env.Base filePath)).length = 2 := by
          rw [hre]
          rfl
        by_cases hst : (env.GetStorages tokenId st.world).length = 0
        · simpa [hst] using hr
        · simp only [hst, if_false]
          have hl := storageLoop_reach u env s0 (env.Base filePath) b true st
            (env.GetStorages tokenId st.world) h hre2 hr
          rcases hloop : storageLoop u (env.Base filePath) b true st
            (env.GetStorages tokenId st.world) with ⟨flag, st1, acts⟩
          rw [hloop] at hl
          simp only [] at hl
          cases flag with
          | false => exact hl
          | true =>
            simp only []
            rcases hrm : env.Remove filePath st1.world with ⟨err, w2⟩
            cases err with
            | none =>
              simp only [← List.append_assoc]
              exact Reach.removeDone filePath hl hre2
            | some e =>
              simp only [← List.append_assoc]
              exact Reach.removeFailed filePath e hl hre2
      · simpa using hr

/-- The loop over the files extends a reachable history to a reachable history. -/
theorem filesLoop_reach (u : PeriodicUploader σ) (env : Env ω) (s0 : σ) (st : UState σ ω)
    (files : List String) (h : List Action) (hr : Reach u env s0 st.status h) :
    Reach u env s0 (filesLoop u env st files).1.status (h ++ (filesLoop u env st files).2) := by
  induction files generalizing st h with
  | nil => simpa [filesLoop] using hr
  | cons f rest ih =>
    simp only [filesLoop]
    have h1 := processFile_reach u env s0 st f h hr
    have h2 := ih (processFile u env st f).1 _ h1
    simpa [List.append_assoc] using h2

/-- One pass of the endless loop extends a reachable history to a reachable history. -/
theorem iteration_reach (u : PeriodicUploader σ) (env : Env ω) (s0 : σ) (st : UState σ ω)
    (h : List Action) (hr : Reach u env s0 st.status h) :
    Reach u env s0 (iteration u env st).2.1.status (h ++ (iteration u env st).2.2) := by
  unfold iteration
  by_cases hi : env.Idle st.world = true
  · simpa [hi] using hr
  · by_cases hrl : env.Reloading st.world = true
    · simpa [hi, hrl] using hr
    · simp only [hi, hrl, Bool.false_eq_true, if_false]
      cases hg : env.Glob u.fileMask st.world with
      | error e => simpa using hr
      | ok files =>
        simp only []
        exact filesLoop_reach u env s0 st files h hr

/-- Every run of `Start` extends a reachable history to a reachable history. -/
theorem Start_reach (u : PeriodicUploader σ) (env : Env ω) (s0 : σ) (n : Nat)
    (st : UState σ ω) (h : List Action) (hr : Reach u env s0 st.status h) :
    Reach u env s0 (Start u env n st).1.status (h ++ (Start u env n st).2) := by
  induction n generalizing st h with
  | zero => simpa [Start] using hr
  | succ n ih =>
    simp only [Start]
    have h1 := iteration_reach u env s0 st h hr
    rcases hit : iteration u env st with ⟨go, st1, acts1⟩
    rw [hit] at h1
    simp only [] at h1
    cases go with
    | false => exact h1
    | true =>
      simp only []
      have h2 := ih st1 _ h1
      simpa [List.append_assoc] using h2

/-- The history of a run of `Start` from any state is reachable from its status. -/
theorem Start_reach_nil (u : PeriodicUploader σ) (env : Env ω) (n : Nat) (st : UState σ ω) :
    Reach u env st.status (Start u env n st).1.status (Start u env n st).2 := by
  simpa using Start_reach u env st.status n st [] Reach.init

/-- Where an element of `h ++ B` lies: in `h`, or in `B`. -/
theorem append_eq_append_cons {α : Type} {h B pre rest : List α} {x : α}
    (heq : h ++ B = pre ++ x :: rest) :
    (∃ rest0, h = pre ++ x :: rest0 ∧ rest = rest0 ++ B) ∨
    (∃ B1, pre = h ++ B1 ∧ B = B1 ++ x :: rest) := by
  rcases List.append_eq_append_iff.mp heq with ⟨a', h1, h2⟩ | ⟨c', h1, h2⟩
  · exact Or.inr ⟨a', h1, h2⟩
  · cases c' with
    | nil =>
      refine Or.inr ⟨[], ?_, ?_⟩
      · simpa using h1.symm
      · simpa using h2.symm
    | cons y ys =>
      simp only [List.cons_append, List.cons.injEq] at h2
      obtain ⟨rfl, rfl⟩ := h2
      exact Or.inl ⟨ys, h1, rfl⟩

theorem single_eq_append_cons {α : Type} {a x : α} {B1 rest : List α}
    (heq : [a] = B1 ++ x :: rest) : B1 = [] ∧ x = a ∧ rest = [] := by
  cases B1 with
  | nil => simpa [eq_comm] using heq
  | cons y ys => simp at heq

theorem pair_eq_append_cons {α : Type} {a b x : α} {B1 rest : List α}
    (heq : [a, b] = B1 ++ x :: rest) :
    (B1 = [] ∧ x = a ∧ rest = [b]) ∨ (B1 = [a] ∧ x = b ∧ rest = []) := by
  cases B1 with
  | nil => left; simpa [eq_comm] using heq
  | cons y ys =>
    right
    simp only [List.cons_append, List.cons.injEq] at heq
    obtain ⟨rfl, h2⟩ := heq
    obtain ⟨rfl, rfl, rfl⟩ := single_eq_append_cons h2
    simp

theorem triple_eq_append_cons {α : Type} {a b c x : α} {B1 rest : List α}
    (heq : [a, b, c] = B1 ++ x :: rest) :
    (B1 = [] ∧ x = a ∧ rest = [b, c]) ∨ (B1 = [a] ∧ x = b ∧ rest = [c]) ∨
    (B1 = [a, b] ∧ x = c ∧ rest = []) := by
  cases B1 with
  | nil => left; simpa [eq_comm] using heq
  | cons y ys =>
    right
    simp only [List.cons_append, List.cons.injEq] at heq
    obtain ⟨rfl, h2⟩ := heq
    rcases pair_eq_append_cons h2 with ⟨rfl, rfl, rfl⟩ | ⟨rfl, rfl, rfl⟩ <;> simp

/-- In a reachable history every `Store` call comes right after an `isUploaded` query
that answered false, and is followed at once by `updateStatus` with its error. -/
theorem Reach.store_framed {u : PeriodicUploader σ} {env : Env ω} {s0 s : σ}
    {h : List Action} (hr : Reach u env s0 s h) :
    ∀ pre post f d r e, h = pre ++ Action.store f d r e :: post →
      (∃ pre', pre = pre' ++ [Action.isUploaded f d false]) ∧
      (∃ post', post = Action.updateStatus f d e :: post') := by
  induction hr with
  | init => intro pre post f d r e heq; simp at heq
  | skip f1 d1 _ _ _ ih =>
    intro pre post f d r e heq
    rcases append_eq_append_cons heq with ⟨rest0, h1, rfl⟩ | ⟨B1, h1, h2⟩
    · obtain ⟨hp, post', rfl⟩ := ih pre rest0 f d r e h1
      exact ⟨hp, _, rfl⟩
    · obtain ⟨_, hx, _⟩ := single_eq_append_cons h2
      cases hx
  | store f1 d1 r1 e1 _ _ _ ih =>
    intro pre post f d r e heq
    rcases append_eq_append_cons heq with ⟨rest0, h1, rfl⟩ | ⟨B1, h1, h2⟩
    · obtain ⟨hp, post', rfl⟩ := ih pre rest0 f d r e h1
      exact ⟨hp, _, rfl⟩
    · rcases triple_eq_append_cons h2 with ⟨_, hx, _⟩ | ⟨rfl, hx, rfl⟩ | ⟨_, hx, _⟩
      · cases hx
      · cases hx
        exact ⟨⟨_, h1⟩, _, rfl⟩
      · cases hx
  | removeEmpty p e1 _ _ ih =>
    intro pre post f d r e heq
    rcases append_eq_append_cons heq with ⟨rest0, h1, rfl⟩ | ⟨B1, h1, h2⟩
    · obtain ⟨hp, post', rfl⟩ := ih pre rest0 f d r e h1
      exact ⟨hp, _, rfl⟩
    · obtain ⟨_, hx, _⟩ := single_eq_append_cons h2
      cases hx
  | removeFailed p e1 _ _ ih =>
    intro pre post f d r e heq
    rcases append_eq_append_cons heq with ⟨rest0, h1, rfl⟩ | ⟨B1, h1, h2⟩
    · obtain ⟨hp, post', rfl⟩ := ih pre rest0 f d r e h1
      exact ⟨hp, _, rfl⟩
    · obtain ⟨_, hx, _⟩ := single_eq_append_cons h2
      cases hx
  | removeDone p _ _ ih =>
    intro pre post f d r e heq
    rcases append_eq_append_cons heq with ⟨rest0, h1, rfl⟩ | ⟨B1, h1, h2⟩
    · obtain ⟨hp, post', rfl⟩ := ih pre rest0 f d r e h1
      exact ⟨hp, _, rfl⟩
    · rcases pair_eq_append_cons h2 with ⟨_, hx, _⟩ | ⟨_, hx, _⟩ <;> cases hx

/-- In a reachable history every `isUploaded` query that answered false is followed at
once by the `Store` call and its status update. -/
theorem Reach.query_false_stores {u : PeriodicUploader σ} {env : Env ω} {s0 s : σ}
    {h : List Action} (hr : Reach u env s0 s h) :
    ∀ pre post f d, h = pre ++ Action.isUploaded f d false :: post →
      ∃ r e post', post = Action.store f d r e :: Action.updateStatus f d e :: post' := by
  induction hr with
  | init => intro pre post f d heq; simp at heq
  | skip f1 d1 _ _ _ ih =>
    intro pre post f d heq
    rcases append_eq_append_cons heq with ⟨rest0, h1, rfl⟩ | ⟨B1, h1, h2⟩
    · obtain ⟨r, e, post', rfl⟩ := ih pre rest0 f d h1
      exact ⟨r, e, _, rfl⟩
    · obtain ⟨_, hx, _⟩ := single_eq_append_cons h2
      cases hx
  | store f1 d1 r1 e1 _ _ _ ih =>
    intro pre post f d heq
    rcases append_eq_append_cons heq with ⟨rest0, h1, rfl⟩ | ⟨B1, h1, h2⟩
    · obtain ⟨r, e, post', rfl⟩ := ih pre rest0 f d h1
      exact ⟨r, e, _, rfl⟩
    · rcases triple_eq_append_cons h2 with ⟨_, hx, rfl⟩ | ⟨_, hx, _⟩ | ⟨_, hx, _⟩
      · cases hx
        exact ⟨r1, e1, [], rfl⟩
      · cases hx
      · cases hx
  | removeEmpty p e1 _ _ ih =>
    intro pre post f d heq
    rcases append_eq_append_cons heq with ⟨rest0, h1, rfl⟩ | ⟨B1, h1, h2⟩
    · obtain ⟨r, e, post', rfl⟩ := ih pre rest0 f d h1
      exact ⟨r, e, _, rfl⟩
    · obtain ⟨_, hx, _⟩ := single_eq_append_cons h2
      cases hx
  | removeFailed p e1 _ _ ih =>
    intro pre post f d heq
    rcases append_eq_append_cons heq with ⟨rest0, h1, rfl⟩ | ⟨B1, h1, h2⟩
    · obtain ⟨r, e, post', rfl⟩ := ih pre rest0 f d h1
      exact ⟨r, e, _, rfl⟩
    · obtain ⟨_, hx, _⟩ := single_eq_append_cons h2
      cases hx
  | removeDone p _ _ ih =>
    intro pre post f d heq
    rcases append_eq_append_cons heq with ⟨rest0, h1, rfl⟩ | ⟨B1, h1, h2⟩
    · obtain ⟨r, e, post', rfl⟩ := ih pre rest0 f d h1
      exact ⟨r, e, _, rfl⟩
    · rcases pair_eq_append_cons h2 with ⟨_, hx, _⟩ | ⟨_, hx, _⟩ <;> cases hx

/-- In a reachable history `Store` is only called for file names that match the
filename regex, and `os.Remove` only for paths that were read as empty or whose name
matches the regex. -/
theorem Reach.names_checked {u : PeriodicUploader σ} {env : Env ω} {s0 s : σ}
    {h : List Action} (hr : Reach u env s0 s h) :
    (∀ f d r e, Action.store f d r e ∈ h → (env.FindStringSubmatch f).length = 2) ∧
    (∀ p e, Action.remove p e ∈ h →
      (∃ w, env.ReadFile p w = .ok []) ∨ (env.FindStringSubmatch (env.Base p)).length = 2) := by
  induction hr with
  | init => simp
  | skip f1 d1 _ _ _ ih =>
    refine ⟨fun f d r e hm => ?_, fun p e hm => ?_⟩
    · simp only [List.mem_append, List.mem_singleton] at hm
      rcases hm with hm | hm
      · exact ih.1 f d r e hm
      · cases hm
    · simp only [List.mem_append, List.mem_singleton] at hm
      rcases hm with hm | hm
      · exact ih.2 p e hm
      · cases hm
  | store f1 d1 r1 e1 _ hre _ ih =>
    refine ⟨fun f d r e hm => ?_, fun p e hm => ?_⟩
    · simp only [List.mem_append, List.mem_cons, List.mem_singleton, List.not_mem_nil,
        or_false] at hm
      rcases hm with hm | hm | hm | hm
      · exact ih.1 f d r e hm
      · cases hm
      · cases hm
        exact hre
      · cases hm
    · simp only [List.mem_append, List.mem_cons, List.mem_singleton, List.not_mem_nil,
        or_false] at hm
      rcases hm with hm | hm | hm | hm
      · exact ih.2 p e hm
      · cases hm
      · cases hm
      · cases hm
  | removeEmpty p1 e1 _ hempty ih =>
    refine ⟨fun f d r e hm => ?_, fun p e hm => ?_⟩
    · simp only [List.mem_append, List.mem_singleton] at hm
      rcases hm with hm | hm
      · exact ih.1 f d r e hm
      · cases hm
    · simp only [List.mem_append, List.mem_singleton] at hm
      rcases hm with hm | hm
      · exact ih.2 p e hm
      · cases hm
        exact Or.inl hempty
  | removeFailed p1 e1 _ hre ih =>
    refine ⟨fun f d r e hm => ?_, fun p e hm => ?_⟩
    · simp only [List.mem_append, List.mem_singleton] at hm
      rcases hm with hm | hm
      · exact ih.1 f d r e hm
      · cases hm
    · simp only [List.mem_append, List.mem_singleton] at hm
      rcases hm with hm | hm
      · exact ih.2 p e hm
      · cases hm
        exact Or.inr hre
  | removeDone p1 _ hre ih =>
    refine ⟨fun f d r e hm => ?_, fun p e hm => ?_⟩
    · simp only [List.mem_append, List.mem_cons, List.mem_singleton, List.not_mem_nil,
        or_false] at hm
      rcases hm with hm | hm | hm
      · exact ih.1 f d r e hm
      · cases hm
      · cases hm
    · simp only [List.mem_append, List.mem_cons, List.mem_singleton, List.not_mem_nil,
        or_false] at hm
      rcases hm with hm | hm | hm
      · exact ih.2 p e hm
      · cases hm
        exact Or.inr hre
      · cases hm

/-- With a lawful status manager, a destination that accepted a file stays marked
until the status of the file is cleaned up, and `Store` is not called for it again
before that. -/
theorem Reach.success_sticks {u : PeriodicUploader σ} {env : Env ω} {s0 s : σ}
    {h : List Action} (hlaw : u.statusManager.Lawful) (hr : Reach u env s0 s h) (f d : String) :
    (∀ pre mid r, h = pre ++ Action.store f d r none :: mid → Action.cleanUp f ∉ mid →
      u.statusManager.isUploaded s f d = true) ∧
    (∀ pre mid post r r' e', h = pre ++ Action.store f d r none ::
        (mid ++ Action.store f d r' e' :: post) → Action.cleanUp f ∈ mid) := by
  induction hr with
  | init =>
    constructor
    · intro pre mid r heq
      simp at heq
    · intro pre mid post r r' e' heq
      simp at heq
  | @skip s1 h0 f1 d1 _ _ hu ih =>
    constructor
    · intro pre mid r heq hc
      rcases append_eq_append_cons heq with ⟨mid0, h1, rfl⟩ | ⟨B1, _, h2⟩
      · exact ih.1 pre mid0 r h1 (fun hm => hc (List.mem_append_left _ hm))
      · obtain ⟨_, hx, _⟩ := single_eq_append_cons h2
        cases hx
    · intro pre mid post r r' e' heq
      have heq' : h0 ++ [Action.isUploaded f1 d1 true] =
          (pre ++ Action.store f d r none :: mid) ++ Action.store f d r' e' :: post := by
        simpa using heq
      rcases append_eq_append_cons heq' with ⟨post0, h1, _⟩ | ⟨B1, _, h2⟩
      · exact ih.2 pre mid post0 r r' e' (by simpa using h1)
      · obtain ⟨_, hx, _⟩ := single_eq_append_cons h2
        cases hx
  | @store s1 h0 f1 d1 r1 e1 _ _ hu ih =>
    constructor
    · intro pre mid r heq hc
      rcases append_eq_append_cons heq with ⟨mid0, h1, rfl⟩ | ⟨B1, _, h2⟩
      · have hup := ih.1 pre mid0 r h1 (fun hm => hc (List.mem_append_left _ hm))
        have hne : ¬ (f = f1 ∧ d = d1) := by
          rintro ⟨rfl, rfl⟩
          rw [hu] at hup
          cases hup
        rw [hlaw.update_other s1 f1 d1 e1 f d hne]
        exact hup
      · rcases triple_eq_append_cons h2 with ⟨_, hx, _⟩ | ⟨_, hx, _⟩ | ⟨_, hx, _⟩
        · cases hx
        · cases hx
          rw [hlaw.update_same]
          rfl
        · cases hx
    · intro pre mid post r r' e' heq
      have heq' : h0 ++ [Action.isUploaded f1 d1 false, Action.store f1 d1 r1 e1,
            Action.updateStatus f1 d1 e1] =
          (pre ++ Action.store f d r none :: mid) ++ Action.store f d r' e' :: post := by
        simpa using heq
      rcases append_eq_append_cons heq' with ⟨post0, h1, _⟩ | ⟨B1, h1, h2⟩
      · exact ih.2 pre mid post0 r r' e' (by simpa using h1)
      · rcases triple_eq_append_cons h2 with ⟨_, hx, _⟩ | ⟨rfl, hx, _⟩ | ⟨_, hx, _⟩
        · cases hx
        · cases hx
          rcases append_eq_append_cons h1.symm with ⟨mid0, h3, rfl⟩ | ⟨B2, _, h4⟩
          · by_contra hc
            have hup := ih.1 pre mid0 r h3 (fun hm => hc (List.mem_append_left _ hm))
            rw [hu] at hup
            cases hup
          · obtain ⟨_, hx, _⟩ := single_eq_append_cons h4
            cases hx
        · cases hx
  | @removeEmpty s1 h0 p1 e1 _ _ ih =>
    constructor
    · intro pre mid r heq hc
      rcases append_eq_append_cons heq with ⟨mid0, h1, rfl⟩ | ⟨B1, _, h2⟩
      · exact ih.1 pre mid0 r h1 (fun hm => hc (List.mem_append_left _ hm))
      · obtain ⟨_, hx, _⟩ := single_eq_append_cons h2
        cases hx
    · intro pre mid post r r' e' heq
      have heq' : h0 ++ [Action.remove p1 e1] =
          (pre ++ Action.store f d r none :: mid) ++ Action.store f d r' e' :: post := by
        simpa using heq
      rcases append_eq_append_cons heq' with ⟨post0, h1, _⟩ | ⟨B1, _, h2⟩
      · exact ih.2 pre mid post0 r r' e' (by simpa using h1)
      · obtain ⟨_, hx, _⟩ := single_eq_append_cons h2
        cases hx
  | @removeFailed s1 h0 p1 e1 _ _ ih =>
    constructor
    · intro pre mid r heq hc
      rcases append_eq_append_cons heq with ⟨mid0, h1, rfl⟩ | ⟨B1, _, h2⟩
      · exact ih.1 pre mid0 r h1 (fun hm => hc (List.mem_append_left _ hm))
      · obtain ⟨_, hx, _⟩ := single_eq_append_cons h2
        cases hx
    · intro pre mid post r r' e' heq
      have heq' : h0 ++ [Action.remove p1 (some e1)] =
          (pre ++ Action.store f d r none :: mid) ++ Action.store f d r' e' :: post := by
        simpa using heq
      rcases append_eq_append_cons heq' with ⟨post0, h1, _⟩ | ⟨B1, _, h2⟩
      · exact ih.2 pre mid post0 r r' e' (by simpa using h1)
      · obtain ⟨_, hx, _⟩ := single_eq_append_cons h2
        cases hx
  | @removeDone s1 h0 p1 _ _ ih =>
    constructor
    · intro pre mid r heq hc
      rcases append_eq_append_cons heq with ⟨mid0, h1, rfl⟩ | ⟨B1, _, h2⟩
      · have hup := ih.1 pre mid0 r h1 (fun hm => hc (List.mem_append_left _ hm))
        have hne : f ≠ env.Base p1 := by
          rintro rfl
          exact hc (List.mem_append_right _ (by simp))
        rw [hlaw.cleanUp_other s1 (env.Base p1) f d hne]
        exact hup
      · rcases pair_eq_append_cons h2 with ⟨_, hx, _⟩ | ⟨_, hx, _⟩ <;> cases hx
    · intro pre mid post r r' e' heq
      have heq' : h0 ++ [Action.remove p1 none, Action.cleanUp (env.Base p1)] =
          (pre ++ Action.store f d r none :: mid) ++ Action.store f d r' e' :: post := by
        simpa using heq
      rcases append_eq_append_cons heq' with ⟨post0, h1, _⟩ | ⟨B1, _, h2⟩
      · exact ih.2 pre mid post0 r r' e' (by simpa using h1)
      · rcases pair_eq_append_cons h2 with ⟨_, hx, _⟩ | ⟨_, hx, _⟩ <;> cases hx

/-- With a lawful status manager, a destination that rejected a file stays unmarked
until a `Store` call for the pair succeeds, and every `isUploaded` query for the pair
made before that answers false. -/
theorem Reach.failure_retried {u : PeriodicUploader σ} {env : Env ω} {s0 s : σ}
    {h : List Action} (hlaw : u.statusManager.Lawful) (hr : Reach u env s0 s h) (f d : String) :
    (∀ pre mid r e, h = pre ++ Action.store f d r (some e) :: mid →
      (∀ r', Action.store f d r' none ∉ mid) → u.statusManager.isUploaded s f d = false) ∧
    (∀ pre mid post r e ans, h = pre ++ Action.store f d r (some e) ::
        (mid ++ Action.isUploaded f d ans :: post) →
      (∀ r', Action.store f d r' none ∉ mid) → ans = false) := by
  induction hr with
  | init =>
    constructor
    · intro pre mid r e heq
      simp at heq
    · intro pre mid post r e ans heq
      simp at heq
  | @skip s1 h0 f1 d1 _ _ hu ih =>
    constructor
    · intro pre mid r e heq hc
      rcases append_eq_append_cons heq with ⟨mid0, h1, rfl⟩ | ⟨B1, _, h2⟩
      · exact ih.1 pre mid0 r e h1 (fun r' hm => hc r' (List.mem_append_left _ hm))
      · obtain ⟨_, hx, _⟩ := single_eq_append_cons h2
        cases hx
    · intro pre mid post r e ans heq hc
      have heq' : h0 ++ [Action.isUploaded f1 d1 true] =
          (pre ++ Action.store f d r (some e) :: mid) ++ Action.isUploaded f d ans :: post := by
        simpa using heq
      rcases append_eq_append_cons heq' with ⟨post0, h1, _⟩ | ⟨B1, h1, h2⟩
      · exact ih.2 pre mid post0 r e ans (by simpa using h1) hc
      · obtain ⟨rfl, hx, _⟩ := single_eq_append_cons h2
        cases hx
        have hup := ih.1 pre mid r e (by simpa using h1.symm) hc
        rw [hu] at hup
        cases hup
  | @store s1 h0 f1 d1 r1 e1 _ _ hu ih =>
    constructor
    · intro pre mid r e heq hc
      rcases append_eq_append_cons heq with ⟨mid0, h1, rfl⟩ | ⟨B1, _, h2⟩
      · have hup := ih.1 pre mid0 r e h1 (fun r' hm => hc r' (List.mem_append_left _ hm))
        by_cases hsame : f = f1 ∧ d = d1
        · obtain ⟨rfl, rfl⟩ := hsame
          rw [hlaw.update_same]
          cases e1 with
          | none => exact absurd (List.mem_append_right _ (by simp)) (hc r1)
          | some e2 => rfl
        · rw [hlaw.update_other s1 f1 d1 e1 f d hsame]
          exact hup
      · rcases triple_eq_append_cons h2 with ⟨_, hx, _⟩ | ⟨_, hx, _⟩ | ⟨_, hx, _⟩
        · cases hx
        · cases hx
          rw [hlaw.update_same]
          rfl
        · cases hx
    · intro pre mid post r e ans heq hc
      have heq' : h0 ++ [Action.isUploaded f1 d1 false, Action.store f1 d1 r1 e1,
            Action.updateStatus f1 d1 e1] =
          (pre ++ Action.store f d r (some e) :: mid) ++ Action.isUploaded f d ans :: post := by
        simpa using heq
      rcases append_eq_append_cons heq' with ⟨post0, h1, _⟩ | ⟨B1, h1, h2⟩
      · exact ih.2 pre mid post0 r e ans (by simpa using h1) hc
      · rcases triple_eq_append_cons h2 with ⟨_, hx, _⟩ | ⟨_, hx, _⟩ | ⟨_, hx, _⟩
        · cases hx
          rfl
        · cases hx
        · cases hx
  | @removeEmpty s1 h0 p1 e1 _ _ ih =>
    constructor
    · intro pre mid r e heq hc
      rcases append_eq_append_cons heq with ⟨mid0, h1, rfl⟩ | ⟨B1, _, h2⟩
      · exact ih.1 pre mid0 r e h1 (fun r' hm => hc r' (List.mem_append_left _ hm))
      · obtain ⟨_, hx, _⟩ := single_eq_append_cons h2
        cases hx
    · intro pre mid post r e ans heq hc
      have heq' : h0 ++ [Action.remove p1 e1] =
          (pre ++ Action.store f d r (some e) :: mid) ++ Action.isUploaded f d ans :: post := by
        simpa using heq
      rcases append_eq_append_cons heq' with ⟨post0, h1, _⟩ | ⟨B1, _, h2⟩
      · exact ih.2 pre mid post0 r e ans (by simpa using h1) hc
      · obtain ⟨_, hx, _⟩ := single_eq_append_cons h2
        cases hx
  | @removeFailed s1 h0 p1 e1 _ _ ih =>
    constructor
    · intro pre mid r e heq hc
      rcases append_eq_append_cons heq with ⟨mid0, h1, rfl⟩ | ⟨B1, _, h2⟩
      · exact ih.1 pre mid0 r e h1 (fun r' hm => hc r' (List.mem_append_left _ hm))
      · obtain ⟨_, hx, _⟩ := single_eq_append_cons h2
        cases hx
    · intro pre mid post r e ans heq hc
      have heq' : h0 ++ [Action.remove p1 (some e1)] =
          (pre ++ Action.store f d r (some e) :: mid) ++ Action.isUploaded f d ans :: post := by
        simpa using heq
      rcases append_eq_append_cons heq' with ⟨post0, h1, _⟩ | ⟨B1, _, h2⟩
      · exact ih.2 pre mid post0 r e ans (by simpa using h1) hc
      · obtain ⟨_, hx, _⟩ := single_eq_append_cons h2
        cases hx
  | @removeDone s1 h0 p1 _ _ ih =>
    constructor
    · intro pre mid r e heq hc
      rcases append_eq_append_cons heq with ⟨mid0, h1, rfl⟩ | ⟨B1, _, h2⟩
      · have hup := ih.1 pre mid0 r e h1 (fun r' hm => hc r' (List.mem_append_left _ hm))
        by_cases hsame : f = env.Base p1
        · subst hsame
          exact hlaw.cleanUp_same s1 _ d
        · rw [hlaw.cleanUp_other s1 (env.Base p1) f d hsame]
          exact hup
      · rcases pair_eq_append_cons h2 with ⟨_, hx, _⟩ | ⟨_, hx, _⟩ <;> cases hx
    · intro pre mid post r e ans heq hc
      have heq' : h0 ++ [Action.remove p1 none, Action.cleanUp (env.Base p1)] =
          (pre ++ Action.store f d r (some e) :: mid) ++ Action.isUploaded f d ans :: post := by
        simpa using heq
      rcases append_eq_append_cons heq' with ⟨post0, h1, _⟩ | ⟨B1, _, h2⟩
      · exact ih.2 pre mid post0 r e ans (by simpa using h1) hc
      · rcases pair_eq_append_cons h2 with ⟨_, hx, _⟩ | ⟨_, hx, _⟩ <;> cases hx

/-- In a reachable history `cleanUp` is only called right after an `os.Remove` of a
path with that file name has returned no error. -/
theorem Reach.cleanUp_after_removal {u : PeriodicUploader σ} {env : Env ω} {s0 s : σ}
    {h : List Action} (hr : Reach u env s0 s h) :
    ∀ pre post f, h = pre ++ Action.cleanUp f :: post →
      ∃ pre' p, env.Base p = f ∧ pre = pre' ++ [Action.remove p none] := by
  induction hr with
  | init => intro pre post f heq; simp at heq
  | skip f1 d1 _ _ _ ih =>
    intro pre post f heq
    rcases append_eq_append_cons heq with ⟨rest0, h1, rfl⟩ | ⟨B1, h1, h2⟩
    · exact ih pre rest0 f h1
    · obtain ⟨_, hx, _⟩ := single_eq_append_cons h2
      cases hx
  | store f1 d1 r1 e1 _ _ _ ih =>
    intro pre post f heq
    rcases append_eq_append_cons heq with ⟨rest0, h1, rfl⟩ | ⟨B1, h1, h2⟩
    · exact ih pre rest0 f h1
    · rcases triple_eq_append_cons h2 with ⟨_, hx, _⟩ | ⟨_, hx, _⟩ | ⟨_, hx, _⟩ <;> cases hx
  | removeEmpty p e1 _ _ ih =>
    intro pre post f heq
    rcases append_eq_append_cons heq with ⟨rest0, h1, rfl⟩ | ⟨B1, h1, h2⟩
    · exact ih pre rest0 f h1
    · obtain ⟨_, hx, _⟩ := single_eq_append_cons h2
      cases hx
  | removeFailed p e1 _ _ ih =>
    intro pre post f heq
    rcases append_eq_append_cons heq with ⟨rest0, h1, rfl⟩ | ⟨B1, h1, h2⟩
    · exact ih pre rest0 f h1
    · obtain ⟨_, hx, _⟩ := single_eq_append_cons h2
      cases hx
  | removeDone p _ _ ih =>
    intro pre post f heq
    rcases append_eq_append_cons heq with ⟨rest0, h1, rfl⟩ | ⟨B1, h1, h2⟩
    · exact ih pre rest0 f h1
    · rcases pair_eq_append_cons h2 with ⟨_, hx, _⟩ | ⟨rfl, hx, _⟩
      · cases hx
      · cases hx
        exact ⟨_, p, rfl, h1⟩

/-- In a reachable history a `cleanUp` of a file that lies in a stretch after a call
other than a successful removal has the successful `os.Remove` of the file right
before it in that stretch. -/
theorem Reach.removal_before_cleanUp {u : PeriodicUploader σ} {env : Env ω} {s0 s : σ}
    {h : List Action} (hr : Reach u env s0 s h) {pre mid post : List Action} {x : Action}
    {f : String} (hx : ∀ p, x ≠ Action.remove p none)
    (heq : h = pre ++ x :: (mid ++ post)) (hc : Action.cleanUp f ∈ mid) :
    ∃ p m1 m2, env.Base p = f ∧
      mid = m1 ++ Action.remove p none :: Action.cleanUp f :: m2 := by
  obtain ⟨m1, m2, rfl⟩ := List.append_of_mem hc
  have heq' : h = (pre ++ x :: m1) ++ Action.cleanUp f :: (m2 ++ post) := by
    simpa using heq
  obtain ⟨pre', p, hb, hp⟩ := hr.cleanUp_after_removal _ _ f heq'
  rcases List.eq_nil_or_concat m1 with rfl | ⟨m1', y, rfl⟩
  · have h1 : [x] = [Action.remove p none] := List.append_inj_right' hp rfl
    exact absurd (List.head_eq_of_cons_eq h1) (hx p)
  · have h1 : (pre ++ x :: m1') ++ [y] = pre' ++ [Action.remove p none] := by
      simpa using hp
    have h2 : [y] = [Action.remove p none] := List.append_inj_right' h1 rfl
    obtain rfl := List.head_eq_of_cons_eq h2
    exact ⟨p, m1', m2, hb, by simp⟩

/-- With a lawful status manager, every `isUploaded` query for a pair made after a
successful `Store` for it answers true, as long as the status of the file has not
been cleaned up in between. -/
theorem Reach.success_skips {u : PeriodicUploader σ} {env : Env ω} {s0 s : σ}
    {h : List Action} (hlaw : u.statusManager.Lawful) (hr : Reach u env s0 s h) (f d : String) :
    ∀ pre mid post r ans, h = pre ++ Action.store f d r none ::
        (mid ++ Action.isUploaded f d ans :: post) →
      Action.cleanUp f ∉ mid → ans = true := by
  induction hr with
  | init =>
    intro pre mid post r ans heq
    simp at heq
  | @skip s1 h0 f1 d1 _ _ hu ih =>
    intro pre mid post r ans heq hc
    have heq' : h0 ++ [Action.isUploaded f1 d1 true] =
        (pre ++ Action.store f d r none :: mid) ++ Action.isUploaded f d ans :: post := by
      simpa using heq
    rcases append_eq_append_cons heq' with ⟨post0, h1, _⟩ | ⟨B1, h1, h2⟩
    · exact ih pre mid post0 r ans (by simpa using h1) hc
    · obtain ⟨_, hx, _⟩ := single_eq_append_cons h2
      cases hx
      rfl
  | @store s1 h0 f1 d1 r1 e1 hr0 _ hu ih =>
    intro pre mid post r ans heq hc
    have heq' : h0 ++ [Action.isUploaded f1 d1 false, Action.store f1 d1 r1 e1,
          Action.updateStatus f1 d1 e1] =
        (pre ++ Action.store f d r none :: mid) ++ Action.isUploaded f d ans :: post := by
      simpa using heq
    rcases append_eq_append_cons heq' with ⟨post0, h1, _⟩ | ⟨B1, h1, h2⟩
    · exact ih pre mid post0 r ans (by simpa using h1) hc
    · rcases triple_eq_append_cons h2 with ⟨rfl, hx, _⟩ | ⟨_, hx, _⟩ | ⟨_, hx, _⟩
      · cases hx
        have hup := (hr0.success_sticks hlaw f d).1 pre mid r (by simpa using h1.symm) hc
        rw [hu] at hup
        cases hup
      · cases hx
      · cases hx
  | @removeEmpty s1 h0 p1 e1 _ _ ih =>
    intro pre mid post r ans heq hc
    have heq' : h0 ++ [Action.remove p1 e1] =
        (pre ++ Action.store f d r none :: mid) ++ Action.isUploaded f d ans :: post := by
      simpa using heq
    rcases append_eq_append_cons heq' with ⟨post0, h1, _⟩ | ⟨B1, _, h2⟩
    · exact ih pre mid post0 r ans (by simpa using h1) hc
    · obtain ⟨_, hx, _⟩ := single_eq_append_cons h2
      cases hx
  | @removeFailed s1 h0 p1 e1 _ _ ih =>
    intro pre mid post r ans heq hc
    have heq' : h0 ++ [Action.remove p1 (some e1)] =
        (pre ++ Action.store f d r none :: mid) ++ Action.isUploaded f d ans :: post := by
      simpa using heq
    rcases append_eq_append_cons heq' with ⟨post0, h1, _⟩ | ⟨B1, _, h2⟩
    · exact ih pre mid post0 r ans (by simpa using h1) hc
    · obtain ⟨_, hx, _⟩ := single_eq_append_cons h2
      cases hx
  | @removeDone s1 h0 p1 _ _ ih =>
    intro pre mid post r ans heq hc
    have heq' : h0 ++ [Action.remove p1 none, Action.cleanUp (env.Base p1)] =
        (pre ++ Action.store f d r none :: mid) ++ Action.isUploaded f d ans :: post := by
      simpa using heq
    rcases append_eq_append_cons heq' with ⟨post0, h1, _⟩ | ⟨B1, _, h2⟩
    · exact ih pre mid post0 r ans (by simpa using h1) hc
    · rcases pair_eq_append_cons h2 with ⟨_, hx, _⟩ | ⟨_, hx, _⟩ <;> cases hx

/-- Filtering by a weaker condition does not change what `find?` finds. -/
theorem find?_filter_of_imp {α : Type} (p q : α → Bool) (l : List α)
    (h : ∀ x, p x = true → q x = true) : (l.filter q).find? p = l.find? p := by
  induction l with
  | nil => rfl
  | cons a l ih =>
    by_cases hq : q a = true
    · rw [List.filter_cons_of_pos hq]
      simp only [List.find?_cons]
      rw [ih]
    · rw [List.filter_cons_of_neg hq]
      have hp : p a = false := by
        cases hpa : p a with
        | false => rfl
        | true => exact absurd (h a hpa) hq
      simp only [List.find?_cons, hp, ih]

/-- The status manager of the specification is lawful. -/
theorem specStatusManager_lawful : specStatusManager.Lawful where
  update_same := by
    intro s f d e
    simp [specStatusManager]
  update_other := by
    intro s f d e f' d' hne
    have hne' : ¬ (f = f' ∧ d = d') := fun hh => hne ⟨hh.1.symm, hh.2.symm⟩
    simp [specStatusManager, List.find?_cons, hne']
  cleanUp_same := by
    intro s f d
    have hnone : List.find? (fun r : String × String × Bool => decide (r.1 = f ∧ r.2.1 = d))
        (List.filter (fun r => decide (r.1 ≠ f)) s) = none := by
      rw [List.find?_eq_none]
      intro r hr
      have := (List.mem_filter.mp hr).2
      simp only [ne_eq, decide_not, Bool.not_eq_true', decide_eq_false_iff_not] at this
      simp [this]
    simp only [specStatusManager, hnone]
  cleanUp_other := by
    intro s f f' d' hne
    have hfind : List.find? (fun r : String × String × Bool => decide (r.1 = f' ∧ r.2.1 = d'))
        (List.filter (fun r => decide (r.1 ≠ f)) s) =
        List.find? (fun r : String × String × Bool => decide (r.1 = f' ∧ r.2.1 = d')) s := by
      apply find?_filter_of_imp
      intro x hx
      have hx' : x.1 = f' ∧ x.2.1 = d' := of_decide_eq_true hx
      apply decide_eq_true
      intro hxf
      exact hne (hx'.1.symm.trans hxf)
    simp only [specStatusManager, hfind]

/-- C6 (as amended): a storage step queries `isUploaded` exactly when the proxy yields
a live storage, calls `Store` exactly when the answer is false, and then calls
`updateStatus` with the error of that `Store` call; so in every run each `Store`
call stands between an `isUploaded` query answered false and the `updateStatus` with
its error, and `cleanUp` of a file is called only right after `os.Remove` of that
file has returned no error.  For a status manager that keeps one record per file and
destination (`Lawful`), once `Store` has succeeded for a pair every later query for
the pair answers true as long as `os.Remove` has not succeeded for the file, and a
later `Store` call for the pair has a successful `os.Remove` of the file, followed at
once by its `cleanUp`, between the two calls; and after a failed `Store` every later
query for the pair answers false, and is followed by a new `Store` call, as long as
no `Store` for the pair has succeeded. -/
theorem store_once_and_retry (u : PeriodicUploader σ) (env : Env ω) :
    (∀ (fileName : String) (b : List UInt8) (deleteFile : Bool) (st : UState σ ω)
        (p : StorageProxy ω),
      (p.Get st.world = none → (storageStep u fileName b deleteFile st p).2.2 = []) ∧
      (∀ storage, p.Get st.world = some storage →
        (u.statusManager.isUploaded st.status fileName storage.Name = true →
          (storageStep u fileName b deleteFile st p).2 =
            (st, [Action.isUploaded fileName storage.Name true])) ∧
        (u.statusManager.isUploaded st.status fileName storage.Name = false →
          (storageStep u fileName b deleteFile st p).2 =
            ({ status := u.statusManager.updateStatus st.status fileName storage.Name
                  (storage.Store fileName b st.world).1.2,
               world := (storage.Store fileName b st.world).2 },
             [Action.isUploaded fileName storage.Name false,
              Action.store fileName storage.Name (storage.Store fileName b st.world).1.1
                (storage.Store fileName b st.world).1.2,
              Action.updateStatus fileName storage.Name
                (storage.Store fileName b st.world).1.2])))) ∧
    (∀ (n : Nat) (st : UState σ ω) pre post f d r e,
      (Start u env n st).2 = pre ++ Action.store f d r e :: post →
        (∃ pre', pre = pre' ++ [Action.isUploaded f d false]) ∧
        (∃ post', post = Action.updateStatus f d e :: post')) ∧
    (∀ (n : Nat) (st : UState σ ω) pre post f,
      (Start u env n st).2 = pre ++ Action.cleanUp f :: post →
        ∃ pre' p, env.Base p = f ∧ pre = pre' ++ [Action.remove p none]) ∧
    (u.statusManager.Lawful → ∀ (n : Nat) (st : UState σ ω) (f d : String),
      (∀ pre mid post r ans,
        (Start u env n st).2 =
            pre ++ Action.store f d r none :: (mid ++ Action.isUploaded f d ans :: post) →
          (∀ p, env.Base p = f → Action.remove p none ∉ mid) →
          ans = true) ∧
      (∀ pre mid post r r' e',
        (Start u env n st).2 =
            pre ++ Action.store f d r none :: (mid ++ Action.store f d r' e' :: post) →
          ∃ p m1 m2, env.Base p = f ∧
            mid = m1 ++ Action.remove p none :: Action.cleanUp f :: m2) ∧
      (∀ pre mid post r e ans,
        (Start u env n st).2 =
            pre ++ Action.store f d r (some e) :: (mid ++ Action.isUploaded f d ans :: post) →
          (∀ r', Action.store f d r' none ∉ mid) →
          ans = false ∧
          ∃ r' e' post', post = Action.store f d r' e' :: Action.updateStatus f d e' :: post')) := by
  refine ⟨fun fileName b deleteFile st p => ⟨fun hg => ?_, fun storage hg => ⟨fun hu => ?_,
    fun hu => ?_⟩⟩, fun n st pre post f d r e heq => ?_, fun n st pre post f heq => ?_,
    fun hlaw n st f d => ⟨?_, ?_, ?_⟩⟩
  · simp [storageStep, hg]
  · simp [storageStep, hg, hu]
  · simp [storageStep, hg, hu]
  · exact (Start_reach_nil u env n st).store_framed pre post f d r e heq
  · exact (Start_reach_nil u env n st).cleanUp_after_removal pre post f heq
  · intro pre mid post r ans heq hno
    refine (Start_reach_nil u env n st).success_skips hlaw f d pre mid post r ans heq ?_
    intro hc
    obtain ⟨p, m1, m2, hb, hm⟩ := (Start_reach_nil u env n st).removal_before_cleanUp
      (fun p hx => by cases hx) heq hc
    exact hno p hb (by rw [hm]; simp)
  · intro pre mid post r r' e' heq
    have hc := ((Start_reach_nil u env n st).success_sticks hlaw f d).2 pre mid post r r' e' heq
    exact (Start_reach_nil u env n st).removal_before_cleanUp (fun p hx => by cases hx) heq hc
  · intro pre mid post r e ans heq hc
    have hans := ((Start_reach_nil u env n st).failure_retried hlaw f d).2
      pre mid post r e ans heq hc
    subst hans
    have heq' : (Start u env n st).2 =
        (pre ++ Action.store f d r (some e) :: mid) ++ Action.isUploaded f d false :: post := by
      simpa using heq
    exact ⟨rfl, (Start_reach_nil u env n st).query_false_stores _ post f d heq'⟩

/-- C6, instance: two passes over one file with a destination that accepts it and a
destination that rejects it.  The second pass finds the first destination marked and
makes no `Store` call for it, and calls `Store` again for the second.  In a directory
where the accepted and removed file is put in place again under the same name, the
second `Store` call for the pair comes after the removal and the clean-up.  In
scenario S5, one destination that fails the first call and succeeds the second, the
second pass queries the destination again and calls `Store`. -/
theorem store_once_and_retry_witness :
    specStatusManager.Lawful ∧
    (Start (demoUploader specStatusManager)
        (demoEnv [okStorage "pg", failingStorage "s3"]) 2
        ⟨[], ⟨[("events-a.log", [1, 2])], 0⟩⟩).2 =
      [Action.isUploaded "events-a.log" "pg" false,
       Action.store "events-a.log" "pg" 1 none,
       Action.updateStatus "events-a.log" "pg" none,
       Action.isUploaded "events-a.log" "s3" false,
       Action.store "events-a.log" "s3" 0 (some "connection refused"),
       Action.updateStatus "events-a.log" "s3" (some "connection refused"),
       Action.isUploaded "events-a.log" "pg" true,
       Action.isUploaded "events-a.log" "s3" false,
       Action.store "events-a.log" "s3" 0 (some "connection refused"),
       Action.updateStatus "events-a.log" "s3" (some "connection refused")] ∧
    (∀ ans post,
      (Start (demoUploader specStatusManager)
          (demoEnv [okStorage "pg", failingStorage "s3"]) 2
          ⟨[], ⟨[("events-a.log", [1, 2])], 0⟩⟩).2 =
        [Action.isUploaded "events-a.log" "pg" false] ++
          Action.store "events-a.log" "pg" 1 none ::
          ([Action.updateStatus "events-a.log" "pg" none,
            Action.isUploaded "events-a.log" "s3" false,
            Action.store "events-a.log" "s3" 0 (some "connection refused"),
            Action.updateStatus "events-a.log" "s3" (some "connection refused")] ++
           Action.isUploaded "events-a.log" "pg" ans :: post) →
      ans = true) ∧
    (∀ ans post,
      (Start (demoUploader specStatusManager)
          (demoEnv [okStorage "pg", failingStorage "s3"]) 2
          ⟨[], ⟨[("events-a.log", [1, 2])], 0⟩⟩).2 =
        [Action.isUploaded "events-a.log" "pg" false,
         Action.store "events-a.log" "pg" 1 none,
         Action.updateStatus "events-a.log" "pg" none,
         Action.isUploaded "events-a.log" "s3" false] ++
          Action.store "events-a.log" "s3" 0 (some "connection refused") ::
          ([Action.updateStatus "events-a.log" "s3" (some "connection refused"),
            Action.isUploaded "events-a.log" "pg" true] ++
           Action.isUploaded "events-a.log" "s3" ans :: post) →
      ans = false ∧
      ∃ r' e' post', post = Action.store "events-a.log" "s3" r' e' ::
        Action.updateStatus "events-a.log" "s3" e' :: post') ∧
    (Start (demoUploader specStatusManager) (refilledEnv [okStorage "pg"]) 2
        ⟨[], ⟨[("events-a.log", [1, 2])], 0⟩⟩).2 =
      [Action.isUploaded "events-a.log" "pg" false,
       Action.store "events-a.log" "pg" 1 none,
       Action.updateStatus "events-a.log" "pg" none,
       Action.remove "events-a.log" none,
       Action.cleanUp "events-a.log",
       Action.isUploaded "events-a.log" "pg" false,
       Action.store "events-a.log" "pg" 1 none,
       Action.updateStatus "events-a.log" "pg" none,
       Action.remove "events-a.log" none,
       Action.cleanUp "events-a.log"] ∧
    (∃ p m1 m2, (refilledEnv [okStorage "pg"]).Base p = "events-a.log" ∧
      [Action.updateStatus "events-a.log" "pg" none,
       Action.remove "events-a.log" none,
       Action.cleanUp "events-a.log",
       Action.isUploaded "events-a.log" "pg" false] =
        m1 ++ Action.remove p none :: Action.cleanUp "events-a.log" :: m2) ∧
    (Start (demoUploader specStatusManager) (demoEnv [flakyStorage "pg"]) 2
        ⟨[], ⟨[("events-a.log", [1, 2])], 0⟩⟩).2 =
      [Action.isUploaded "events-a.log" "pg" false,
       Action.store "events-a.log" "pg" 0 (some "connection refused"),
       Action.updateStatus "events-a.log" "pg" (some "connection refused"),
       Action.isUploaded "events-a.log" "pg" false,
       Action.store "events-a.log" "pg" 1 none,
       Action.updateStatus "events-a.log" "pg" none,
       Action.remove "events-a.log" none,
       Action.cleanUp "events-a.log"] ∧
    (∀ ans post,
      (Start (demoUploader specStatusManager) (demoEnv [flakyStorage "pg"]) 2
          ⟨[], ⟨[("events-a.log", [1, 2])], 0⟩⟩).2 =
        [Action.isUploaded "events-a.log" "pg" false] ++
          Action.store "events-a.log" "pg" 0 (some "connection refused") ::
          ([Action.updateStatus "events-a.log" "pg" (some "connection refused")] ++
           Action.isUploaded "events-a.log" "pg" ans :: post) →
      ans = false ∧
      ∃ r' e' post', post = Action.store "events-a.log" "pg" r' e' ::
        Action.updateStatus "events-a.log" "pg" e' :: post') :=
  ⟨specStatusManager_lawful, by decide,
   fun ans post heq =>
     ((store_once_and_retry (demoUploader specStatusManager)
        (demoEnv [okStorage "pg", failingStorage "s3"])).2.2.2
        specStatusManager_lawful 2 ⟨[], ⟨[("events-a.log", [1, 2])], 0⟩⟩
        "events-a.log" "pg").1 _ _ post 1 ans heq
        (fun p _ hm => by simp at hm),
   fun ans post heq =>
     ((store_once_and_retry (demoUploader specStatusManager)
        (demoEnv [okStorage "pg", failingStorage "s3"])).2.2.2
        specStatusManager_lawful 2 ⟨[], ⟨[("events-a.log", [1, 2])], 0⟩⟩
        "events-a.log" "s3").2.2 _ _ post 0 "connection refused" ans heq
        (fun r' hm => by simp at hm),
   by decide,
   ((store_once_and_retry (demoUploader specStatusManager)
      (refilledEnv [okStorage "pg"])).2.2.2
      specStatusManager_lawful 2 ⟨[], ⟨[("events-a.log", [1, 2])], 0⟩⟩
      "events-a.log" "pg").2.1
      [Action.isUploaded "events-a.log" "pg" false]
      [Action.updateStatus "events-a.log" "pg" none,
       Action.remove "events-a.log" none,
       Action.cleanUp "events-a.log",
       Action.isUploaded "events-a.log" "pg" false]
      [Action.updateStatus "events-a.log" "pg" none,
       Action.remove "events-a.log" none,
       Action.cleanUp "events-a.log"]
      1 1 none (by decide),
   by decide,
   fun ans post heq =>
     ((store_once_and_retry (demoUploader specStatusManager)
        (demoEnv [flakyStorage "pg"])).2.2.2
        specStatusManager_lawful 2 ⟨[], ⟨[("events-a.log", [1, 2])], 0⟩⟩
        "events-a.log" "pg").2.2 _ _ post 0 "connection refused" ans heq
        (fun r' hm => by simp at hm)⟩

/-- C6, counterexample to the claim as stated: three runs with status managers in
which `updateStatus` with a nil error makes `isUploaded` true.  With the first
manager, which keeps only the entry written last, and two destinations of which the
second fails, the second pass calls `Store` again for the destination that had
succeeded in the first pass.  With the second, which marks a destination on every
`updateStatus`, the destination whose `Store` failed is not called again: the second
pass skips it and removes the file.  With the third, the manager of the
specification, in a directory where a file of the same name is in place again after
the removal, the clean-up that follows the successful `os.Remove` has forgotten the
record and the second pass calls `Store` again for the pair that had succeeded. -/
theorem store_repeated_after_success :
    lastEntryStatusManager.MarksSuccess ∧
    (Start (demoUploader lastEntryStatusManager)
        (demoEnv [okStorage "pg", failingStorage "s3"]) 2
        ⟨none, ⟨[("events-a.log", [1, 2])], 0⟩⟩).2 =
      [Action.isUploaded "events-a.log" "pg" false,
       Action.store "events-a.log" "pg" 1 none,
       Action.updateStatus "events-a.log" "pg" none,
       Action.isUploaded "events-a.log" "s3" false,
       Action.store "events-a.log" "s3" 0 (some "connection refused"),
       Action.updateStatus "events-a.log" "s3" (some "connection refused"),
       Action.isUploaded "events-a.log" "pg" false,
       Action.store "events-a.log" "pg" 1 none,
       Action.updateStatus "events-a.log" "pg" none,
       Action.isUploaded "events-a.log" "s3" false,
       Action.store "events-a.log" "s3" 0 (some "connection refused"),
       Action.updateStatus "events-a.log" "s3" (some "connection refused")] ∧
    eagerStatusManager.MarksSuccess ∧
    (Start (demoUploader eagerStatusManager) (demoEnv [failingStorage "s3"]) 2
        ⟨[], ⟨[("events-a.log", [1, 2])], 0⟩⟩).2 =
      [Action.isUploaded "events-a.log" "s3" false,
       Action.store "events-a.log" "s3" 0 (some "connection refused"),
       Action.updateStatus "events-a.log" "s3" (some "connection refused"),
       Action.isUploaded "events-a.log" "s3" true,
       Action.remove "events-a.log" none,
       Action.cleanUp "events-a.log"] ∧
    specStatusManager.MarksSuccess ∧
    (Start (demoUploader specStatusManager) (refilledEnv [okStorage "pg"]) 2
        ⟨[], ⟨[("events-a.log", [1, 2])], 0⟩⟩).2 =
      [Action.isUploaded "events-a.log" "pg" false,
       Action.store "events-a.log" "pg" 1 none,
       Action.updateStatus "events-a.log" "pg" none,
       Action.remove "events-a.log" none,
       Action.cleanUp "events-a.log",
       Action.isUploaded "events-a.log" "pg" false,
       Action.store "events-a.log" "pg" 1 none,
       Action.updateStatus "events-a.log" "pg" none,
       Action.remove "events-a.log" none,
       Action.cleanUp "events-a.log"] := by
  refine ⟨?_, by decide, ?_, by decide, ?_, by decide⟩
  · intro s fileName dest
    simp [lastEntryStatusManager]
  · intro s fileName dest
    simp [eagerStatusManager]
  · intro s fileName dest
    simp [specStatusManager]

/-- C7 (as amended): a closed file whose name does not match the filename regex is
never passed to `Store`, and as long as its content is not empty no pass of the
uploader removes it: processing it changes nothing and makes no call. -/
theorem malformed_nonempty_untouched (u : PeriodicUploader σ) (env : Env ω)
    (filePath : String) (hbad : (env.FindStringSubmatch (env.Base filePath)).length ≠ 2) :
    (∀ st : UState σ ω, env.ReadFile filePath st.world ≠ .ok [] →
      processFile u env st filePath = (st, [])) ∧
    (∀ (n : Nat) (st : UState σ ω) dest rows err,
      Action.store (env.Base filePath) dest rows err ∉ (Start u env n st).2) ∧
    ((∀ w, env.ReadFile filePath w ≠ .ok []) →
      ∀ (n : Nat) (st : UState σ ω) err, Action.remove filePath err ∉ (Start u env n st).2) := by
  refine ⟨fun st hne => ?_, fun n st dest rows err hm => ?_, fun hne n st err hm => ?_⟩
  · unfold processFile
    cases hread : env.ReadFile filePath st.world with
    | error e => rfl
    | ok b =>
      have hb : b.length ≠ 0 := by
        intro h0
        rw [List.length_eq_zero.mp h0] at hread
        exact hne hread
      simp only [hb, if_false]
      split
      · rename_i m tokenId hre
        rw [hre] at hbad
        exact absurd rfl hbad
      · rfl
  · exact hbad ((Start_reach_nil u env n st).names_checked.1 _ dest rows err hm)
  · rcases (Start_reach_nil u env n st).names_checked.2 filePath err hm with ⟨w, hw⟩ | hre
    · exact hne w hw
    · exact hbad hre

/-- C7, instance: scenario S6, the non-empty file `junk.log`. -/
theorem malformed_nonempty_untouched_witness :
    ((demoEnv [okStorage "pg"]).FindStringSubmatch
        ((demoEnv [okStorage "pg"]).Base "junk.log")).length ≠ 2 ∧
    processFile (demoUploader specStatusManager) (demoEnv [okStorage "pg"])
        ⟨[], ⟨[("junk.log", [1])], 0⟩⟩ "junk.log" =
      (⟨[], ⟨[("junk.log", [1])], 0⟩⟩, []) :=
  ⟨by decide,
   (malformed_nonempty_untouched (demoUploader specStatusManager) (demoEnv [okStorage "pg"])
      "junk.log" (by decide)).1 ⟨[], ⟨[("junk.log", [1])], 0⟩⟩
      (by simp [demoEnv])⟩

/-- C7, counterexample to the claim as stated: the empty file `junk.log`, whose name
does not match the regex, is removed by the first pass. -/
theorem malformed_empty_file_removed :
    ((demoEnv [okStorage "pg"]).FindStringSubmatch
        ((demoEnv [okStorage "pg"]).Base "junk.log")).length ≠ 2 ∧
    (Start (demoUploader specStatusManager) (demoEnv [okStorage "pg"]) 1
        ⟨[], ⟨[("junk.log", [])], 0⟩⟩).2 = [Action.remove "junk.log" none] ∧
    (Start (demoUploader specStatusManager) (demoEnv [okStorage "pg"]) 1
        ⟨[], ⟨[("junk.log", [])], 0⟩⟩).1.world.files = [] := by
  decide

end logfiles

namespace events

open GoMap

/-- The context object after the enrichment steps of `Preprocess`. -/
theorem enriched_context_index (jp : JsPreprocessor) (ip : String) (m : GoMap String Value) :
    let m1 := assign m GeoDataKey (jp.geoResolver ip).1
    let m2 := match index m1 uaKey with
      | some (.str uaStr) => assign m1 ParsedUaKey (jp.uaResolver uaStr)
      | _ => m1
    index m2 GeoDataKey = some (jp.geoResolver ip).1 ∧
    index m2 ParsedUaKey =
      (match index m uaKey with
       | some (.str s) => some (jp.uaResolver s)
       | _ => index m ParsedUaKey) ∧
    index m2 uaKey = index m uaKey ∧
    (∀ k, k ≠ GeoDataKey → k ≠ ParsedUaKey → index m2 k = index m k) := by
  intro m1 m2
  have hua : index m1 uaKey = index m uaKey :=
    index_assign_ne m _ (by decide : uaKey ≠ GeoDataKey)
  have hgeo : index m1 GeoDataKey = some (jp.geoResolver ip).1 := index_assign_same _ _ _
  have hpua : index m1 ParsedUaKey = index m ParsedUaKey :=
    index_assign_ne m _ (by decide : ParsedUaKey ≠ GeoDataKey)
  have hother : ∀ k, k ≠ GeoDataKey → index m1 k = index m k :=
    fun k hk => index_assign_ne m _ hk
  cases hcase : index m uaKey with
  | none =>
    have hm2 : m2 = m1 := by
      simp only [m2, hua, hcase]
    rw [hm2]
    exact ⟨hgeo, hpua, hua.trans hcase, fun k hk _ => hother k hk⟩
  | some v =>
    cases v with
    | str s =>
      have hm2 : m2 = assign m1 ParsedUaKey (jp.uaResolver s) := by
        simp only [m2, hua, hcase]
      rw [hm2]
      refine ⟨?_, index_assign_same _ _ _, ?_, fun k hk hk' => ?_⟩
      · rw [index_assign_ne m1 _ (by decide : GeoDataKey ≠ ParsedUaKey)]
        exact hgeo
      · rw [index_assign_ne m1 _ (by decide : uaKey ≠ ParsedUaKey)]
        exact hua.trans hcase
      · rw [index_assign_ne m1 _ hk']
        exact hother k hk
    | null | bool _ | number _ | array _ | object _ =>
      have hm2 : m2 = m1 := by
        simp only [m2, hua, hcase]
      rw [hm2]
      exact ⟨hgeo, hpua, hua.trans hcase, fun k hk _ => hother k hk⟩

/-- The successful branch of `Preprocess`, spelled out. -/
theorem preprocess_of_object (jp : JsPreprocessor) (F : Fact) (r : Request)
    (m : GoMap String Value) (h : index F eventnKey = some (.object m)) :
    jp.Preprocess (some F) r =
      let ip := extractIp r
      let fact1 := if ip ≠ "" then assign F ipKey (.str ip) else F
      let m1 := assign m GeoDataKey (jp.geoResolver ip).1
      let m2 := match index m1 uaKey with
        | some (.str uaStr) => assign m1 ParsedUaKey (jp.uaResolver uaStr)
        | _ => m1
      { ret := .ok (assign fact1 eventnKey (.object m2)),
        factAfter := some (assign fact1 eventnKey (.object m2)) } := by
  have h1 : index (if extractIp r ≠ "" then assign F ipKey (.str (extractIp r)) else F)
      eventnKey = some (.object m) := by
    split
    · rw [index_assign_ne F _ (by decide : eventnKey ≠ ipKey)]
      exact h
    · exact h
  simp only [JsPreprocessor.Preprocess, h1]

theorem preprocess_failed_iff (jp : JsPreprocessor) (fact : Option Fact) (r : Request) :
    (jp.Preprocess fact r).failed = true ↔
      (fact = none ∨ ∃ f, fact = some f ∧
        (index f eventnKey = none ∨
          ∃ v, index f eventnKey = some v ∧ v.isObject = false)) := by
  cases fact with
  | none => simp [JsPreprocessor.Preprocess, PreprocessOutcome.failed]
  | some f =>
    have h1 : index (if extractIp r ≠ "" then assign f ipKey (.str (extractIp r)) else f)
        eventnKey = index f eventnKey := by
      split
      · exact index_assign_ne f _ (by decide : eventnKey ≠ ipKey)
      · rfl
    simp only [JsPreprocessor.Preprocess, h1, false_or, Option.some.injEq, exists_eq_left']
    cases hidx : index f eventnKey with
    | none => simp [PreprocessOutcome.failed]
    | some v => cases v <;> simp [PreprocessOutcome.failed, Value.isObject]

/-- C8: `Preprocess` returns an error, and no fact, exactly when the input fact is nil,
or has no `eventn_ctx` key, or the value under `eventn_ctx` is not an object; the
resolvers, and so an error of the geo resolver, have no influence on the failure. -/
theorem preprocess_fails_iff (jp : JsPreprocessor) (fact : Option Fact) (r : Request) :
    ((jp.Preprocess fact r).failed = true ↔
      (fact = none ∨ ∃ f, fact = some f ∧
        (index f eventnKey = none ∨
          ∃ v, index f eventnKey = some v ∧ v.isObject = false))) ∧
    ((jp.Preprocess fact r).failed = true ↔ (jp.Preprocess fact r).fact? = none) ∧
    (∀ jp' : JsPreprocessor,
      (jp'.Preprocess fact r).failed = (jp.Preprocess fact r).failed) := by
  refine ⟨preprocess_failed_iff jp fact r, ?_, fun jp' => ?_⟩
  · cases hret : (jp.Preprocess fact r).ret <;>
      simp [PreprocessOutcome.failed, PreprocessOutcome.fact?, hret]
  · rw [Bool.eq_iff_iff, preprocess_failed_iff jp' fact r, preprocess_failed_iff jp fact r]

/-- C9: for a fact whose `eventn_ctx` is an object, `Preprocess` succeeds, and applied
with the same request to its own result it succeeds again and returns an equal
fact. -/
theorem preprocess_idempotent (jp : JsPreprocessor) (F : Fact) (r : Request)
    (m : GoMap String Value) (h : index F eventnKey = some (.object m)) :
    ∃ F1, (jp.Preprocess (some F) r).fact? = some F1 ∧
      (jp.Preprocess (some F1) r).fact? = some F1 := by
  have hfirst := preprocess_of_object jp F r m h
  obtain ⟨hgeo, hpua, hua, _⟩ := enriched_context_index jp (extractIp r) m
  simp only [] at hfirst hgeo hpua hua
  generalize hm2 : (match index (assign m GeoDataKey (jp.geoResolver (extractIp r)).1) uaKey with
      | some (.str uaStr) =>
        assign (assign m GeoDataKey (jp.geoResolver (extractIp r)).1) ParsedUaKey
          (jp.uaResolver uaStr)
      | _ => assign m GeoDataKey (jp.geoResolver (extractIp r)).1) = m2 at hfirst hgeo hpua hua
  generalize hf1 : (if extractIp r ≠ "" then assign F ipKey (.str (extractIp r)) else F) = fact1
    at hfirst
  refine ⟨assign fact1 eventnKey (.object m2), ?_, ?_⟩
  · rw [hfirst]
    rfl
  · have hctx : index (assign fact1 eventnKey (.object m2)) eventnKey = some (.object m2) :=
      index_assign_same _ _ _
    rw [preprocess_of_object jp _ r m2 hctx]
    simp only [PreprocessOutcome.fact?, Option.some.injEq]
    have hip : (if extractIp r ≠ "" then
          assign (assign fact1 eventnKey (.object m2)) ipKey (.str (extractIp r))
        else assign fact1 eventnKey (.object m2)) = assign fact1 eventnKey (.object m2) := by
      split
      · rename_i hne
        apply assign_of_index_eq
        rw [index_assign_ne fact1 _ (by decide : ipKey ≠ eventnKey), ← hf1, if_pos hne]
        exact index_assign_same _ _ _
      · rfl
    have hm1 : assign m2 GeoDataKey (jp.geoResolver (extractIp r)).1 = m2 :=
      assign_of_index_eq hgeo
    rw [hip, hm1]
    have hm2' : (match index m2 uaKey with
        | some (.str uaStr) => assign m2 ParsedUaKey (jp.uaResolver uaStr)
        | _ => m2) = m2 := by
      rw [hua]
      cases hcase : index m uaKey with
      | none => rfl
      | some v =>
        cases v with
        | str s =>
          simp only []
          apply assign_of_index_eq
          rw [hpua, hcase]
        | null | bool _ | number _ | array _ | object _ => rfl
    rw [hm2']
    exact assign_of_index_eq hctx

/-- C9, instance: scenario S1 preprocessed twice. -/
theorem preprocess_idempotent_witness :
    index factS1 eventnKey =
        some (.object [("event_id", .str "e1"), ("user_agent", .str "Mozilla/5.0")]) ∧
    (demoPreprocessor.Preprocess (some factS1) requestS1).fact? = some factS1Out ∧
    ∃ F1, (demoPreprocessor.Preprocess (some factS1) requestS1).fact? = some F1 ∧
      (demoPreprocessor.Preprocess (some F1) requestS1).fact? = some F1 :=
  ⟨rfl, rfl, preprocess_idempotent demoPreprocessor factS1 requestS1 _ rfl⟩

/-- C10: for a fact whose `eventn_ctx` is an object, `Preprocess` returns the input
fact, mutated in place, changed in exactly these places: `source_ip` is the extracted
IP when that is non-empty and is left as it was otherwise; `eventn_ctx.location` is
the geo resolver's result for the IP; `eventn_ctx.parsed_ua` is the user-agent
resolver's result when `eventn_ctx.user_agent` is a string and is left as it was
otherwise; every other key of the fact and of `eventn_ctx` keeps its value. -/
theorem preprocess_frame (jp : JsPreprocessor) (F : Fact) (r : Request)
    (m : GoMap String Value) (h : index F eventnKey = some (.object m)) :
    ∃ F' m', (jp.Preprocess (some F) r).fact? = some F' ∧
      (jp.Preprocess (some F) r).factAfter = some F' ∧
      index F' ipKey =
        (if extractIp r ≠ "" then some (.str (extractIp r)) else index F ipKey) ∧
      index F' eventnKey = some (.object m') ∧
      (∀ k, k ≠ ipKey → k ≠ eventnKey → index F' k = index F k) ∧
      index m' GeoDataKey = some (jp.geoResolver (extractIp r)).1 ∧
      index m' ParsedUaKey =
        (match index m uaKey with
         | some (.str s) => some (jp.uaResolver s)
         | _ => index m ParsedUaKey) ∧
      (∀ k, k ≠ GeoDataKey → k ≠ ParsedUaKey → index m' k = index m k) := by
  have hfirst := preprocess_of_object jp F r m h
  obtain ⟨hgeo, hpua, _, hother⟩ := enriched_context_index jp (extractIp r) m
  simp only [] at hfirst hgeo hpua hother
  generalize hm2 : (match index (assign m GeoDataKey (jp.geoResolver (extractIp r)).1) uaKey with
      | some (.str uaStr) =>
        assign (assign m GeoDataKey (jp.geoResolver (extractIp r)).1) ParsedUaKey
          (jp.uaResolver uaStr)
      | _ => assign m GeoDataKey (jp.geoResolver (extractIp r)).1) = m2
    at hfirst hgeo hpua hother
  refine ⟨_, m2, by rw [hfirst]; rfl, by rw [hfirst], ?_, index_assign_same _ _ _,
    fun k hk hk' => ?_, hgeo, hpua, hother⟩
  · rw [index_assign_ne _ _ (by decide : ipKey ≠ eventnKey)]
    split
    · exact index_assign_same _ _ _
    · rfl
  · rw [index_assign_ne _ _ hk']
    split
    · exact index_assign_ne _ _ hk
    · rfl

/-- C10, instance: scenario S1. -/
theorem preprocess_frame_witness :
    index factS1 eventnKey =
        some (.object [("event_id", .str "e1"), ("user_agent", .str "Mozilla/5.0")]) ∧
    (demoPreprocessor.Preprocess (some factS1) requestS1).fact? = some factS1Out ∧
    ∃ F' m', (demoPreprocessor.Preprocess (some factS1) requestS1).fact? = some F' ∧
      (demoPreprocessor.Preprocess (some factS1) requestS1).factAfter = some F' ∧
      index F' ipKey =
        (if extractIp requestS1 ≠ "" then some (.str (extractIp requestS1))
         else index factS1 ipKey) ∧
      index F' eventnKey = some (.object m') ∧
      (∀ k, k ≠ ipKey → k ≠ eventnKey → index F' k = index factS1 k) ∧
      index m' GeoDataKey = some (demoPreprocessor.geoResolver (extractIp requestS1)).1 ∧
      index m' ParsedUaKey =
        (match index ([("event_id", .str "e1"), ("user_agent", .str "Mozilla/5.0")] :
            GoMap String Value) uaKey with
         | some (.str s) => some (demoPreprocessor.uaResolver s)
         | _ => index ([("event_id", .str "e1"), ("user_agent", .str "Mozilla/5.0")] :
            GoMap String Value) ParsedUaKey) ∧
      (∀ k, k ≠ GeoDataKey → k ≠ ParsedUaKey → index m' k =
        index ([("event_id", .str "e1"), ("user_agent", .str "Mozilla/5.0")] :
            GoMap String Value) k) :=
  ⟨rfl, rfl, preprocess_frame demoPreprocessor factS1 requestS1 _ rfl⟩

/-- The first piece `strings.Split` returns is the text before the first separator. -/
theorem stringsSplit_head (sep : Char) (cs : List Char) :
    (stringsSplit sep cs).headD [] = cs.takeWhile (fun ch => ch ≠ sep) := by
  induction cs with
  | nil => rfl
  | cons c rest ih =>
    by_cases hc : c = sep
    · have hp : (decide (c ≠ sep)) = false := by simpa using hc
      rw [List.takeWhile_cons, hp]
      simp [stringsSplit, hc]
    · have hp : (decide (c ≠ sep)) = true := by simpa using hc
      rw [List.takeWhile_cons, hp, ← ih]
      simp only [stringsSplit, hc, if_false]
      cases stringsSplit sep rest with
      | nil => rfl
      | cons w ws => rfl

/-- C11: `extractIp` returns the first non-empty of the `X-Real-IP` header, the
`X-Forwarded-For` header and the portion of `RemoteAddr` before its first `:`; it
returns the empty string exactly when all three are empty. -/
theorem extractIp_first_nonempty (r : Request) :
    extractIp r =
      (if headerGet r.Header "X-Real-IP" ≠ "" then headerGet r.Header "X-Real-IP"
       else if headerGet r.Header "X-Forwarded-For" ≠ "" then
         headerGet r.Header "X-Forwarded-For"
       else specBeforeFirstColon r.RemoteAddr) ∧
    (extractIp r = "" ↔
      (headerGet r.Header "X-Real-IP" = "" ∧ headerGet r.Header "X-Forwarded-For" = "" ∧
        specBeforeFirstColon r.RemoteAddr = "")) := by
  have hsplit : String.mk ((stringsSplit ':' r.RemoteAddr.toList).headD []) =
      specBeforeFirstColon r.RemoteAddr := by
    rw [stringsSplit_head]
    rfl
  have hempty : r.RemoteAddr = "" → specBeforeFirstColon r.RemoteAddr = "" := by
    intro h
    rw [h]
    rfl
  have hfirst : extractIp r =
      (if headerGet r.Header "X-Real-IP" ≠ "" then headerGet r.Header "X-Real-IP"
       else if headerGet r.Header "X-Forwarded-For" ≠ "" then
         headerGet r.Header "X-Forwarded-For"
       else specBeforeFirstColon r.RemoteAddr) := by
    unfold extractIp
    by_cases h1 : headerGet r.Header "X-Real-IP" = ""
    · by_cases h2 : headerGet r.Header "X-Forwarded-For" = ""
      · by_cases h3 : r.RemoteAddr = ""
        · simp only [h1, h2, h3, if_true, ne_eq, not_true_eq_false, if_false]
          exact (hempty h3 ▸ h3 ▸ rfl)
        · simp only [h1, h2, h3, if_true, ne_eq, not_true_eq_false, not_false_eq_true,
            if_false]
          exact hsplit
      · simp [h1, h2]
    · simp [h1]
  refine ⟨hfirst, ?_⟩
  rw [hfirst]
  by_cases h1 : headerGet r.Header "X-Real-IP" = ""
  · by_cases h2 : headerGet r.Header "X-Forwarded-For" = ""
    · simp [h1, h2]
    · simp [h1, h2]
  · simp [h1]

/-- C20: when `eventn_ctx` is missing or not an object, `Preprocess` fails and leaves
the input fact with `source_ip` set to the extracted IP if that is non-empty, and
with every other key as it was; when the extracted IP is empty the fact is
unchanged. -/
theorem preprocess_failure_sets_source_ip (jp : JsPreprocessor) (F : Fact) (r : Request)
    (h : index F eventnKey = none ∨ ∃ v, index F eventnKey = some v ∧ v.isObject = false) :
    (jp.Preprocess (some F) r).failed = true ∧
    ∃ F', (jp.Preprocess (some F) r).factAfter = some F' ∧
      (extractIp r ≠ "" → F' = assign F ipKey (.str (extractIp r)) ∧
        index F' ipKey = some (.str (extractIp r))) ∧
      (∀ k, k ≠ ipKey → index F' k = index F k) ∧
      (extractIp r = "" → F' = F) := by
  have h1 : index (if extractIp r ≠ "" then assign F ipKey (.str (extractIp r)) else F)
      eventnKey = index F eventnKey := by
    split
    · exact index_assign_ne F _ (by decide : eventnKey ≠ ipKey)
    · rfl
  have hafter : (jp.Preprocess (some F) r).failed = true ∧
      (jp.Preprocess (some F) r).factAfter =
        some (if extractIp r ≠ "" then assign F ipKey (.str (extractIp r)) else F) := by
    rcases h with h | ⟨v, hv, hobj⟩
    · simp only [JsPreprocessor.Preprocess, h1, h]
      constructor <;> first | rfl | trivial
    · cases v with
      | object m => simp [Value.isObject] at hobj
      | null | bool _ | number _ | str _ | array _ =>
        simp only [JsPreprocessor.Preprocess, h1, hv]
        constructor <;> first | rfl | trivial
  refine ⟨hafter.1, _, hafter.2, fun hne => ?_, fun k hk => ?_, fun he => ?_⟩
  · rw [if_pos hne]
    exact ⟨rfl, index_assign_same _ _ _⟩
  · split
    · exact index_assign_ne F _ hk
    · rfl
  · rw [if_neg (fun hne => hne he)]

/-- C20, instance: a fact without `eventn_ctx` and the request of scenario S1. -/
theorem preprocess_failure_sets_source_ip_witness :
    index factNoContext eventnKey = none ∧
    (demoPreprocessor.Preprocess (some factNoContext) requestS1).factAfter =
      some [("event_type", .str "pageview"), ("source_ip", .str "95.82.232.185")] ∧
    (demoPreprocessor.Preprocess (some factNoContext) requestS1).failed = true :=
  ⟨rfl, rfl,
   (preprocess_failure_sets_source_ip demoPreprocessor factNoContext requestS1
      (Or.inl rfl)).1⟩

end events
